import Mathlib

/-!
# ex2/HashMap.hpp: a separate-chaining hash map

Shallow embedding of `template <typename KeyT, typename ValueT> class HashMap`.

Modelling conventions
* `KeyT` is a type `K` with decidable equality (the key type's `operator==`),
  `std::hash<KeyT>` is an arbitrary function `hash : K → Nat` passed explicitly.
* The bucket array `_hashTable` (allocated by `new std::list<...>[_capacity]`) is a
  list of chains; a chain (`std::list<std::pair<KeyT, ValueT>>`) is a list of pairs.
  Reading a bucket index outside the array is undefined in the source; here it reads
  the empty chain and a write there is dropped. No reachable state does either
  (see `Inv`).
* `size_t` / `int` quantities are natural numbers. The model covers tables whose sizes
  stay inside the range of `int`, so no conversion wraps.
* The doubles `_capacity * 0.75` and `_capacity * 0.25 + 0.5`, truncated by the cast to
  `int`, are `capacity * 3 / 4` and `(capacity + 2) / 4`. The `float` factor of
  `_reHash` is an exact fraction `(numerator, denominator)`; the product is truncated
  as by the conversion to `size_t`.
* `_addNew` and `_reHash` call each other. They are defined by recursion on a fuel
  counter that bounds the nesting depth of these calls; `none` means the fuel ran out.
  Every theorem about reachable maps shows that fuel 3 is enough.
* A thrown exception is the `Except.error` result.
-/

/-- The exceptions the map throws: `std::invalid_argument` and `std::out_of_range`. -/
inductive MapError where
  | invalid_argument
  | out_of_range
deriving DecidableEq

/-- The data members of `HashMap<KeyT, ValueT>`. -/
structure HashMap (K V : Type) where
  _size : Nat
  _capacity : Nat
  _hashTable : List (List (K × V))
  _upperSizeLimit : Nat
  _lowerSizeLimit : Nat
deriving DecidableEq

namespace HashMap

variable {K V : Type} [DecidableEq K]

/-- `#define DEFAULT_CAPACITY 16` -/
def DEFAULT_CAPACITY : Nat := 16

/-- `#define REHASH_UP_FACTOR 2`, as a fraction. -/
def REHASH_UP_FACTOR : Nat × Nat := (2, 1)

/-- `#define REHASH_DOWN_FACTOR 0.5`, as a fraction. -/
def REHASH_DOWN_FACTOR : Nat × Nat := (1, 2)

/-- `void _init(size_t capacity)`: a fresh table of `capacity` empty chains. -/
def _init (capacity : Nat) : HashMap K V :=
  { _capacity := capacity
    _hashTable := List.replicate capacity []
    _size := 0
    _upperSizeLimit := capacity * 3 / 4
    _lowerSizeLimit := (capacity + 2) / 4 }

/-- `size_t _findHash(const KeyT& key)`: `std::hash<KeyT>{}(key) & (_capacity - 1)`. -/
def _findHash (hash : K → Nat) (m : HashMap K V) (key : K) : Nat :=
  hash key &&& (m._capacity - 1)

/-- The chain `_hashTable[i]`. -/
def bucket (m : HashMap K V) (i : Nat) : List (K × V) :=
  m._hashTable.getD i []

/-- The tail of `_addNew` (lines 239-242): append the pair to its chain, `_size++`. -/
def pushBack (hash : K → Nat) (m : HashMap K V) (key : K) (value : V) : HashMap K V :=
  let hashIdx := _findHash hash m key
  { m with
    _hashTable := m._hashTable.set hashIdx (bucket m hashIdx ++ [(key, value)])
    _size := m._size + 1 }

mutual
/-- `bool _reHash(const float& factor)`: re-initialise at the scaled capacity and add
every pair of the old table again, bucket by bucket, through `_addNew`. -/
def _reHash (hash : K → Nat) : Nat → HashMap K V → Nat × Nat → Option (HashMap K V)
  | 0, _, _ => none
  | fuel + 1, m, factor =>
    let oldHashTable := m._hashTable
    let oldCapacity := m._capacity
    let newCapacity := m._capacity * factor.1 / factor.2
    (List.range oldCapacity).foldlM
      (fun acc i =>
        (oldHashTable.getD i []).foldlM (fun acc1 p => _addNew hash fuel acc1 p.1 p.2) acc)
      (_init newCapacity)
/-- `void _addNew(const KeyT& key, const ValueT& value)`: grow first when
`(int)_size + 1 > _upperSizeLimit`, then append the pair. -/
def _addNew (hash : K → Nat) : Nat → HashMap K V → K → V → Option (HashMap K V)
  | 0, _, _, _ => none
  | fuel + 1, m, key, value =>
    if m._size + 1 > m._upperSizeLimit then
      (_reHash hash fuel m REHASH_UP_FACTOR).map (fun m1 => pushBack hash m1 key value)
    else
      some (pushBack hash m key value)
end

/-- `bool contains_key(const KeyT& key) const`: scan the chain of the key's bucket. -/
def contains_key (hash : K → Nat) (m : HashMap K V) (key : K) : Bool :=
  let hashIdx := _findHash hash m key
  (bucket m hashIdx).any (fun p => decide (key = p.1))

/-- The scan `for (i ...) if (key == i->first) return i->second;` over one chain. -/
def scan (key : K) (chain : List (K × V)) : Option V :=
  (chain.find? (fun p => decide (key = p.1))).map Prod.snd

/-- `ValueT at(const KeyT& key)` (both overloads): throws `std::out_of_range` when the
key is absent, else the value of the first pair of the chain with that key. The value
after the loop is the default-constructed dummy of lines 439-440. -/
def at_ [Inhabited V] (hash : K → Nat) (m : HashMap K V) (key : K) : Except MapError V :=
  if !contains_key hash m key then
    Except.error MapError.out_of_range
  else
    match scan key (bucket m (_findHash hash m key)) with
    | some v => Except.ok v
    | none => Except.ok default

/-- The loop of `_overrideExisting` over one chain: the first pair with the key gets
the value. -/
def overrideLoop (key : K) (value : V) : List (K × V) → List (K × V)
  | [] => []
  | p :: rest =>
    if p.1 = key then (p.1, value) :: rest else p :: overrideLoop key value rest

/-- `void _overrideExisting(const KeyT& key, const ValueT& value)`. -/
def _overrideExisting (hash : K → Nat) (m : HashMap K V) (key : K) (value : V) :
    HashMap K V :=
  let hashIdx := _findHash hash m key
  { m with _hashTable := m._hashTable.set hashIdx (overrideLoop key value (bucket m hashIdx)) }

/-- `void _addAllowOverride(const KeyT& key, const ValueT& value)`. -/
def _addAllowOverride (hash : K → Nat) (fuel : Nat) (m : HashMap K V) (key : K)
    (value : V) : Option (HashMap K V) :=
  if contains_key hash m key then
    some (_overrideExisting hash m key value)
  else
    _addNew hash fuel m key value

/-- `HashMap()`: the default constructor. -/
def new : HashMap K V :=
  _init DEFAULT_CAPACITY

/-- `HashMap(keysBegin, keysEnd, valuesBegin, valuesEnd)`: the two ranges are the lists
`keys` and `values`; throws `std::invalid_argument` when their lengths differ. -/
def fromRange (hash : K → Nat) (fuel : Nat) (keys : List K) (values : List V) :
    Option (Except MapError (HashMap K V)) :=
  let numOfKeys := keys.length
  let numOfVals := values.length
  if numOfKeys ≠ numOfVals then
    some (Except.error MapError.invalid_argument)
  else
    ((keys.zip values).foldlM (fun m p => _addAllowOverride hash fuel m p.1 p.2)
      (_init DEFAULT_CAPACITY)).map Except.ok

/-- `HashMap(const HashMap& rhs)` and the body of `operator=`: `_init(rhs._capacity)`,
assign chain `i` for every `i < _capacity`, copy `_size`. -/
def copy (rhs : HashMap K V) : HashMap K V :=
  let fresh : HashMap K V := _init rhs._capacity
  { fresh with
    _hashTable := (List.range fresh._capacity).foldl
      (fun t i => t.set i (rhs._hashTable.getD i [])) fresh._hashTable
    _size := rhs._size }

/-- `size_t size() const` -/
def size (m : HashMap K V) : Nat := m._size

/-- `size_t capacity() const` -/
def capacity (m : HashMap K V) : Nat := m._capacity

/-- `bool empty() const` -/
def empty (m : HashMap K V) : Bool := decide (m._size = 0)

/-- `bool insert(const KeyT& key, const ValueT& value)`: the returned flag and the map
afterwards. -/
def insert (hash : K → Nat) (fuel : Nat) (m : HashMap K V) (key : K) (value : V) :
    Option (Bool × HashMap K V) :=
  if contains_key hash m key then
    some (false, m)
  else
    (_addNew hash fuel m key value).map (fun m1 => (true, m1))

/-- `bool erase(const KeyT& key)`: the returned flag and the map afterwards. The loop
erases the first pair of the chain with the key and decrements `_size` (the key is known
to be there), then the table shrinks when `_size < _lowerSizeLimit`. -/
def erase (hash : K → Nat) (fuel : Nat) (m : HashMap K V) (key : K) :
    Option (Bool × HashMap K V) :=
  if !contains_key hash m key then
    some (false, m)
  else
    let hashIdx := _findHash hash m key
    let m1 : HashMap K V :=
      { m with
        _hashTable := m._hashTable.set hashIdx
          ((bucket m hashIdx).eraseP (fun p => decide (p.1 = key)))
        _size := m._size - 1 }
    if m1._size < m1._lowerSizeLimit then
      (_reHash hash fuel m1 REHASH_DOWN_FACTOR).map (fun m2 => (true, m2))
    else
      some (true, m1)

/-- `size_t bucket_size(const KeyT& key) const` -/
def bucket_size (hash : K → Nat) (m : HashMap K V) (key : K) : Except MapError Nat :=
  if !contains_key hash m key then
    Except.error MapError.out_of_range
  else
    Except.ok (bucket m (_findHash hash m key)).length

/-- `size_t bucket_index(KeyT key) const` -/
def bucket_index (hash : K → Nat) (m : HashMap K V) (key : K) : Except MapError Nat :=
  if !contains_key hash m key then
    Except.error MapError.out_of_range
  else
    Except.ok (_findHash hash m key)

/-- `void clear()`: clear chain `i` for every `i < _capacity`, `_size = 0`. -/
def clear (m : HashMap K V) : HashMap K V :=
  { m with
    _hashTable := (List.range m._capacity).foldl (fun t i => t.set i []) m._hashTable
    _size := 0 }

/-- `ValueT& operator[](const KeyT& key)` (non-const): adds `newVal` when the key is
absent; the value the returned reference points at and the map afterwards. `newVal` is
what the local `ValueT newVal;` holds. The declaration has no initialiser: for a class
type this is the value the default constructor builds, for a scalar type (`int`,
`double`, a pointer) C++ leaves the value indeterminate. The model takes it as an
argument and assumes nothing about it. -/
def subscript [Inhabited V] (hash : K → Nat) (fuel : Nat) (m : HashMap K V) (key : K)
    (newVal : V) : Option (V × HashMap K V) :=
  (if !contains_key hash m key then _addNew hash fuel m key newVal else some m).map
    (fun m1 =>
      (match scan key (bucket m1 (_findHash hash m1 key)) with
        | some v => v
        | none => default,
       m1))

/-- `ValueT operator[](const KeyT& key) const`: `newVal` when the key is absent, else
the value of the first pair of the chain with that key. `newVal` is what the local
`ValueT newVal;` holds, as in `subscript`: the default-constructed value for a class
type, an indeterminate value for a scalar type, so it is an argument of the model. The
source has no `return` after the loop; the loop always returns when the key is
contained, and the model gives the default there. -/
def subscript_const [Inhabited V] (hash : K → Nat) (m : HashMap K V) (key : K)
    (newVal : V) : V :=
  if !contains_key hash m key then
    newVal
  else
    match scan key (bucket m (_findHash hash m key)) with
    | some v => v
    | none => default

/-- The statement `map[key] = value`: non-const `operator[]` (with `newVal` the content
of its local `ValueT newVal;`), then the assignment through the reference it returned,
which sets the value of the first pair of the chain with that key as
`_overrideExisting` does. -/
def index_assign [Inhabited V] (hash : K → Nat) (fuel : Nat) (m : HashMap K V) (key : K)
    (newVal value : V) : Option (HashMap K V) :=
  (subscript hash fuel m key newVal).map (fun r => _overrideExisting hash r.2 key value)

/-- `bool operator==(const HashMap& rhs) const`: capacities and sizes are compared
first; then, for every `i < _capacity`, the chains `i` must have the same length and
every pair of this map's chain must be found in the chain of `rhs` (`std::find`, which
compares pairs with `==`). -/
def operator_eq [DecidableEq V] (m rhs : HashMap K V) : Bool :=
  if m._capacity ≠ rhs._capacity ∨ m._size ≠ rhs._size then
    false
  else
    (List.range m._capacity).all (fun i =>
      decide ((bucket m i).length = (bucket rhs i).length) &&
        (bucket m i).all (fun p => (bucket rhs i).contains p))

/-- `bool operator!=(const HashMap& rhs) const` -/
def operator_ne [DecidableEq V] (m rhs : HashMap K V) : Bool :=
  !(operator_eq m rhs)

/-- A read `_hashTable[i]` that no test guards: `none` when `i` is outside the array,
where the source is undefined. -/
def readBucket (m : HashMap K V) (i : Nat) : Option (List (K × V)) :=
  m._hashTable[i]?

/-- The data members of `HashMap::ConstIterator`: the iterator's own copy of the map,
the pair `_cur` points at (`none` is `nullptr`), the bucket index, and the position of
`_curListIter` in the chain of that bucket. -/
structure ConstIterator (K V : Type) where
  _hashMap : HashMap K V
  _cur : Option (K × V)
  _curIdx : Nat
  _curListIter : Nat

/-- The loop `while (_hashMap._hashTable[_curIdx].empty()) _curIdx++;` of the iterator's
constructor, which tests no bound: the argument is the part of the array from `idx` on,
and running out of chains is a read outside the array (`none`). -/
def skipEmptyFrom : List (List (K × V)) → Nat → Option Nat
  | [], _ => none
  | chain :: rest, idx =>
    if chain.isEmpty then skipEmptyFrom rest (idx + 1) else some idx

/-- The loop `while (_curIdx < _hashMap.capacity() && _hashTable[_curIdx].empty())
_curIdx++;` of `_advanceIterator`: the first argument is `capacity - _curIdx`, so the
test `_curIdx < capacity` holds exactly when it is not 0. -/
def skipEmptyBelow (m : HashMap K V) : Nat → Nat → Option Nat
  | 0, idx => some idx
  | n + 1, idx =>
    match readBucket m idx with
    | none => none
    | some chain => if chain.isEmpty then skipEmptyBelow m n (idx + 1) else some idx

/-- `ConstIterator()`: the end sentinel, `_cur(nullptr)`, `_curIdx(FIRST_IDX)`. -/
def ConstIterator.sentinel : ConstIterator K V :=
  { _hashMap := new, _cur := none, _curIdx := 0, _curListIter := 0 }

/-- `explicit ConstIterator(const HashMap& hashMap)`: copies the map, then stands on the
first pair of the first non-empty chain, or is the end when the map is empty. `none` is
a read outside the array or the dereference of a past-the-end list iterator. -/
def ConstIterator.ofMap (hashMap : HashMap K V) : Option (ConstIterator K V) :=
  let m := copy hashMap
  if empty m then
    some { _hashMap := m, _cur := none, _curIdx := 0, _curListIter := 0 }
  else
    match skipEmptyFrom m._hashTable 0 with
    | none => none
    | some idx =>
      match (bucket m idx)[0]? with
      | none => none
      | some p => some { _hashMap := m, _cur := some p, _curIdx := idx, _curListIter := 0 }

/-- `void _advanceIterator()`, the body of both `operator++`. `none` is a read outside
the array or the dereference of a past-the-end list iterator. -/
def ConstIterator._advanceIterator (it : ConstIterator K V) : Option (ConstIterator K V) :=
  match readBucket it._hashMap it._curIdx with
  | none => none
  | some chain =>
    if it._curListIter + 1 ≠ chain.length then
      match chain[it._curListIter + 1]? with
      | none => none
      | some p => some { it with _curListIter := it._curListIter + 1, _cur := some p }
    else
      match skipEmptyBelow it._hashMap (it._hashMap._capacity - (it._curIdx + 1))
          (it._curIdx + 1) with
      | none => none
      | some idx =>
        if idx ≥ it._hashMap._capacity then
          some { it with _curIdx := idx, _curListIter := it._curListIter + 1, _cur := none }
        else
          match readBucket it._hashMap idx with
          | none => none
          | some chain1 =>
            match chain1[0]? with
            | none => none
            | some p => some { it with _curIdx := idx, _curListIter := 0, _cur := some p }

/-- `const_iterator begin() const` (and `cbegin`). -/
def begin (m : HashMap K V) : Option (ConstIterator K V) :=
  ConstIterator.ofMap m

/-- `const_iterator end() const` (and `cend`). -/
def end_ : ConstIterator K V :=
  ConstIterator.sentinel

/-- The loop `for (it = ...; it != end(); ++it)` that collects `*it`: the test
`it != end()` is `_cur != nullptr`. The first argument bounds the number of rounds;
`none` is a round too few, or a `none` of `_advanceIterator`. -/
def collectFrom : Nat → ConstIterator K V → Option (List (K × V))
  | 0, it =>
    match it._cur with
    | none => some []
    | some _ => none
  | fuel + 1, it =>
    match it._cur with
    | none => some []
    | some p =>
      match it._advanceIterator with
      | none => none
      | some it1 => (collectFrom fuel it1).map (fun rest => p :: rest)

/-- The pairs `for (it = map.begin(); it != map.end(); ++it)` visits, in order. -/
def iterate (fuel : Nat) (m : HashMap K V) : Option (List (K × V)) :=
  match begin m with
  | none => none
  | some it => collectFrom fuel it

/-- All stored pairs: the chains of the table one after the other. -/
def toList (m : HashMap K V) : List (K × V) :=
  m._hashTable.flatten

/-- A run of `insert` calls, one per pair of the list, from left to right: the flags
returned, in order, and the map afterwards. -/
def insertMany (hash : K → Nat) (fuel : Nat) :
    HashMap K V → List (K × V) → Option (List Bool × HashMap K V)
  | m, [] => some ([], m)
  | m, p :: rest =>
    match insert hash fuel m p.1 p.2 with
    | none => none
    | some (b, m1) => (insertMany hash fuel m1 rest).map (fun r => (b :: r.1, r.2))

/-- A run of `erase` calls, one per key of the list, from left to right: the flags
returned, in order, and the map afterwards. -/
def eraseMany (hash : K → Nat) (fuel : Nat) :
    HashMap K V → List K → Option (List Bool × HashMap K V)
  | m, [] => some ([], m)
  | m, k :: rest =>
    match erase hash fuel m k with
    | none => none
    | some (b, m1) => (eraseMany hash fuel m1 rest).map (fun r => (b :: r.1, r.2))

/-- The value paired with the last occurrence of the key in a list of pairs. -/
def lastValue (key : K) : List (K × V) → Option V
  | [] => none
  | p :: rest =>
    match lastValue key rest with
    | some v => some v
    | none => if p.1 = key then some p.2 else none

/-- An example hash function for string keys (any function will do). -/
def strHash (s : String) : Nat :=
  s.data.foldl (fun h c => 31 * h + c.toNat) 0

/-- The hash of an integer key is the key itself, as `std::hash<int>` of libstdc++; an
example hash function for number keys. -/
def natHash (n : Nat) : Nat := n

/-- The maps a client can build: a constructor followed by any finite run of `insert`,
`erase`, non-const `operator[]`, a write through the reference `operator[]` or `at`
returned for a contained key (which is what `_overrideExisting` does), `clear` and
copies. All operations of one map use the same hash function. -/
inductive Reachable (hash : K → Nat) [Inhabited V] : HashMap K V → Prop
  | new : Reachable hash new
  | fromRange {fuel : Nat} {keys : List K} {values : List V} {m : HashMap K V} :
      fromRange hash fuel keys values = some (Except.ok m) → Reachable hash m
  | copy {m : HashMap K V} : Reachable hash m → Reachable hash (copy m)
  | insert {fuel : Nat} {m m1 : HashMap K V} {key : K} {value : V} {b : Bool} :
      Reachable hash m → insert hash fuel m key value = some (b, m1) → Reachable hash m1
  | erase {fuel : Nat} {m m1 : HashMap K V} {key : K} {b : Bool} :
      Reachable hash m → erase hash fuel m key = some (b, m1) → Reachable hash m1
  | subscript {fuel : Nat} {m m1 : HashMap K V} {key : K} {newVal v : V} :
      Reachable hash m → subscript hash fuel m key newVal = some (v, m1) →
      Reachable hash m1
  | write {m : HashMap K V} {key : K} {value : V} :
      Reachable hash m → contains_key hash m key = true →
      Reachable hash (_overrideExisting hash m key value)
  | clear {m : HashMap K V} : Reachable hash m → Reachable hash (clear m)

/-- The table after appending the pairs of `ps`, in order, by `pushBack`: what a run
of `_addNew` calls does when none of them has to grow the table. -/
def rebuildFrom (hash : K → Nat) (acc : HashMap K V) (ps : List (K × V)) : HashMap K V :=
  ps.foldl (fun a p => pushBack hash a p.1 p.2) acc

/-- The representation invariant of the class: the capacity is a power of two, the
array has `_capacity` chains, the two limits are the ones `_init` computed for this
capacity, `_size` counts the stored pairs and does not exceed the upper limit, every
pair sits in the bucket of its key, and no key is stored twice. -/
structure Inv (hash : K → Nat) (m : HashMap K V) : Prop where
  cap_pow : ∃ e, m._capacity = 2 ^ e
  len : m._hashTable.length = m._capacity
  upper : m._upperSizeLimit = m._capacity * 3 / 4
  lower : m._lowerSizeLimit = (m._capacity + 2) / 4
  size_eq : m._size = (toList m).length
  size_le : m._size ≤ m._upperSizeLimit
  idx : ∀ i p, p ∈ bucket m i → _findHash hash m p.1 = i
  nodup : ((toList m).map Prod.fst).Nodup

/-- The map `_addNew` appends to: rehashed at twice the capacity when
`_size + 1 > _upperSizeLimit`, the map itself otherwise. -/
def grown (hash : K → Nat) (m : HashMap K V) : HashMap K V :=
  if m._size + 1 > m._upperSizeLimit then
    rebuildFrom hash (_init (m._capacity * 2)) (toList m)
  else m

/-- The map after `_addNew(key, value)` when the rehash does not grow again. -/
def added (hash : K → Nat) (m : HashMap K V) (key : K) (value : V) : HashMap K V :=
  pushBack hash (grown hash m) key value

/-- The map `erase(key)` has after its loop, before the shrink test. -/
def erasedRaw (hash : K → Nat) (m : HashMap K V) (key : K) : HashMap K V :=
  { m with
    _hashTable := m._hashTable.set (_findHash hash m key)
      ((bucket m (_findHash hash m key)).eraseP (fun p => decide (p.1 = key)))
    _size := m._size - 1 }

/-- The shrink step of `erase`: rehashed at half the capacity when
`_size < _lowerSizeLimit`, the map itself otherwise. -/
def shrunk (hash : K → Nat) (m : HashMap K V) : HashMap K V :=
  if m._size < m._lowerSizeLimit then
    rebuildFrom hash (_init (m._capacity / 2)) (toList m)
  else m

/-- The map after `erase(key)` of a contained key when the rehash does not grow. -/
def erased (hash : K → Nat) (m : HashMap K V) (key : K) : HashMap K V :=
  shrunk hash (erasedRaw hash m key)

/-- What a rehash of `m0` at capacity `c` has to return, `m1`: the capacity is `c`, the
size and the pairs (as a multiset) are those of `m0`, every pair of chain `i` has index
`hash(key) & (c - 1) = i`, chain `i` holds the pairs of `m0` with that index in the
order in which `m0` stores them (bucket by bucket, each chain front to back), and so
the pairs of one old chain keep their order in the new chain. -/
def Rehashed (hash : K → Nat) (m0 m1 : HashMap K V) (c : Nat) : Prop :=
  m1._capacity = c ∧ m1._size = m0._size ∧ (toList m1).Perm (toList m0) ∧
  (∀ i p, p ∈ bucket m1 i → hash p.1 &&& (c - 1) = i) ∧
  (∀ i, bucket m1 i = (toList m0).filter (fun p => decide (hash p.1 &&& (c - 1) = i))) ∧
  (∀ i j, ((bucket m0 j).filter (fun p => decide (hash p.1 &&& (c - 1) = i))).Sublist
    (bucket m1 i))

/-- A rehash of `m0` at capacity `c` that never grows again: before each pair of `m0` is
added again (the `n` pairs before it are in the new table already, each added by an
`_addNew` that has no call of `_reHash` left), the test `_size + 1 > _upperSizeLimit`
of `_addNew` is false. -/
def NoNestedRehash (hash : K → Nat) (m0 : HashMap K V) (c : Nat) : Prop :=
  ∀ n, n < (toList m0).length →
    ((toList m0).take n).foldlM (fun a p => _addNew hash 1 a p.1 p.2) (_init c)
        = some (rebuildFrom hash (_init c) ((toList m0).take n)) ∧
      ¬ ((rebuildFrom hash (_init c) ((toList m0).take n))._size + 1
        > (rebuildFrom hash (_init c) ((toList m0).take n))._upperSizeLimit)

/-- An example map: the default map after the inserts of the keys 17, 5 and 1, in this
order; the keys 17 and 1 share chain 1. -/
def threeKeys : HashMap Nat Nat :=
  rebuildFrom natHash new [(17, 170), (5, 50), (1, 10)]

/-- An example map: the default map after the inserts of the keys 1, 17, 9 and 5, in
this order; its size 4 is the lower limit of capacity 16. -/
def fourKeys : HashMap Nat Nat :=
  rebuildFrom natHash new [(1, 10), (17, 170), (9, 90), (5, 50)]

/-- An example map: the default map after the inserts of the keys 0 to 10, each with
itself as value; one more pair fits before the table grows. -/
def elevenKeys : HashMap Nat Nat :=
  rebuildFrom natHash new ((List.range 11).map (fun i => (i, i)))

/-- An example map: the default map after the inserts of the keys 1 and 17, which share
chain 1. -/
def oneThenSeventeen : HashMap Nat Nat :=
  rebuildFrom natHash new [(1, 10), (17, 170)]

/-- An example map: the same two inserts in the other order. -/
def seventeenThenOne : HashMap Nat Nat :=
  rebuildFrom natHash new [(17, 170), (1, 10)]

end HashMap

/-!
# ex1/Matrix.cpp and ex1/Filters.cpp: the matrix class and `quantization`

Modelling conventions
* A `float` is a rational number. The code of this part copies cells, converts a cell to
  `int` (the fraction is dropped) and converts a small `int` to `float`; all three are
  exact on the rationals.
* An `int` is an integer. The product `_rows * _cols`, which `vectorize` and
  `operator[]` compute in 32-bit `int`, is undefined behaviour when it is outside the
  range of `int` (`intResult`); the other `int` values of this part are loop counters
  and indices below a dimension, and shades of at most a few hundred.
* `float** _mat` is the list of the rows, a row is the list of its cells. An array
  allocated by `new T[n]` and not yet filled is a list of `n` unwritten cells (`none`).
* A run that does not return is an `Except.error`: see `Fault`.
-/

namespace Ex1

/-- How a run ends without a result: `exit(EXIT_FAILURE)`, an exception nobody catches,
or behaviour the language leaves undefined (a read or write outside an allocation, a
read of a cell never written, a division by zero, a conversion out of range). -/
inductive Fault where
  | exit_failure
  | uncaught_exception
  | undefined_behaviour
deriving DecidableEq

/-- The data members of `class Matrix`: `int _rows, _cols; float** _mat;`. -/
structure Matrix where
  _rows : Int
  _cols : Int
  _mat : List (List ℚ)
deriving DecidableEq

/-- `#define NUM_OF_SHADES 256` -/
def NUM_OF_SHADES : Int := 256

/-- `#define VEC_COL 1` -/
def VEC_COL : Int := 1

/-- `INT_MIN` and `INT_MAX` of a 32-bit `int`. -/
def INT_MIN : Int := -2147483648

/-- `INT_MAX` of a 32-bit `int`. -/
def INT_MAX : Int := 2147483647

/-- The result of an arithmetic operation on `int` operands whose exact value is `x`:
undefined (signed overflow) when `x` is outside the range of a 32-bit `int`. -/
def intResult (x : Int) : Except Fault Int :=
  if INT_MIN ≤ x ∧ x ≤ INT_MAX then Except.ok x
  else Except.error Fault.undefined_behaviour

/-- A read `a[i]` of an array whose cells may be unwritten (`none`). -/
def readAt {α : Type} (a : List (Option α)) (i : Int) : Except Fault α :=
  if i < 0 then Except.error Fault.undefined_behaviour
  else
    match a[i.toNat]? with
    | some (some x) => Except.ok x
    | _ => Except.error Fault.undefined_behaviour

/-- The content of an array all of whose cells were written; `none` when one was not. -/
def allWritten {α : Type} : List (Option α) → Option (List α)
  | [] => some []
  | none :: _ => none
  | some x :: rest => (allWritten rest).map (fun xs => x :: xs)

/-- A write `a[i] = x`. -/
def writeAt {α : Type} (a : List (Option α)) (i : Int) (x : α) :
    Except Fault (List (Option α)) :=
  if 0 ≤ i ∧ i.toNat < a.length then Except.ok (a.set i.toNat (some x))
  else Except.error Fault.undefined_behaviour

namespace Matrix

/-- A read `_mat[r][c]` that no test guards. -/
def readCell (mat : List (List ℚ)) (r c : Int) : Except Fault ℚ :=
  if r < 0 ∨ c < 0 then Except.error Fault.undefined_behaviour
  else
    match mat[r.toNat]? with
    | none => Except.error Fault.undefined_behaviour
    | some row =>
      match row[c.toNat]? with
      | none => Except.error Fault.undefined_behaviour
      | some x => Except.ok x

/-- A write `_mat[r][c] = x` that no test guards. -/
def writeCell (mat : List (List ℚ)) (r c : Int) (x : ℚ) : Except Fault (List (List ℚ)) :=
  if r < 0 ∨ c < 0 then Except.error Fault.undefined_behaviour
  else
    match mat[r.toNat]? with
    | none => Except.error Fault.undefined_behaviour
    | some row =>
      if c.toNat < row.length then Except.ok (mat.set r.toNat (row.set c.toNat x))
      else Except.error Fault.undefined_behaviour

/-- `Matrix(int rows, int cols)`: exits on a negative dimension, else all cells are 0. -/
def ctor (rows cols : Int) : Except Fault Matrix :=
  if rows < 0 ∨ cols < 0 then Except.error Fault.exit_failure
  else
    Except.ok
      { _rows := rows, _cols := cols,
        _mat := List.replicate rows.toNat (List.replicate cols.toNat 0) }

/-- The class invariant: the dimensions are not negative and `_mat` holds `_rows` arrays
of `_cols` cells each. The constructor establishes it and every write through
`operator()` keeps it. -/
structure WF (m : Matrix) : Prop where
  rows_nonneg : 0 ≤ m._rows
  cols_nonneg : 0 ≤ m._cols
  len : m._mat.length = m._rows.toNat
  row_len : ∀ row, row ∈ m._mat → row.length = m._cols.toNat

/-- `int getRows() const` -/
def getRows (m : Matrix) : Int := m._rows

/-- `int getCols() const` -/
def getCols (m : Matrix) : Int := m._cols

/-- `float operator()(int pos1, int pos2) const` -/
def operator_paren (m : Matrix) (pos1 pos2 : Int) : Except Fault ℚ :=
  if pos1 < 0 ∨ pos1 > m._rows - 1 ∨ pos2 < 0 ∨ pos2 > m._cols - 1 then
    Except.error Fault.exit_failure
  else readCell m._mat pos1 pos2

/-- `float& operator()(int pos1, int pos2)` followed by an assignment through the
reference, `m(pos1, pos2) = x`. -/
def assign_paren (m : Matrix) (pos1 pos2 : Int) (x : ℚ) : Except Fault Matrix :=
  if pos1 < 0 ∨ pos1 > m._rows - 1 ∨ pos2 < 0 ∨ pos2 > m._cols - 1 then
    Except.error Fault.exit_failure
  else (writeCell m._mat pos1 pos2 x).map (fun mat => { m with _mat := mat })

/-- `float operator[](int pos) const`. The test is
`pos < NEGATIVE || pos > _rows * _cols - 1`: its right side is evaluated only when
`pos` is not negative, and its product and difference are computed in `int`. -/
def operator_bracket (m : Matrix) (pos : Int) : Except Fault ℚ :=
  if pos < 0 then Except.error Fault.exit_failure
  else
    match intResult (m._rows * m._cols) with
    | Except.error e => Except.error e
    | Except.ok cells =>
      match intResult (cells - 1) with
      | Except.error e => Except.error e
      | Except.ok last =>
        if pos > last then Except.error Fault.exit_failure
        else
          let r := Int.tdiv pos m._cols
          let c := Int.tmod pos m._cols
          readCell m._mat r c

/-- The state of the copy loops of `vectorize`: the new array `vecMat`, whose cells are
unwritten at first, and `vecIdx`. -/
structure VecState where
  vecMat : List (Option ℚ)
  vecIdx : Int

/-- The statement `vecMat[vecIdx++][0] = _mat[i][j];`. Row `k` of `vecMat` is an array of
one `float`, so `vecMat` is kept as the list of these single cells. -/
def vectorizeStep (mat : List (List ℚ)) (s : VecState) (i j : Int) : Except Fault VecState :=
  match readCell mat i j with
  | Except.error e => Except.error e
  | Except.ok x =>
    match writeAt s.vecMat s.vecIdx x with
    | Except.error e => Except.error e
    | Except.ok vm => Except.ok { vecMat := vm, vecIdx := s.vecIdx + 1 }

/-- `Matrix& vectorize()`. `int vecRows = _rows * _cols;` is a product of two `int`. -/
def vectorize (m : Matrix) : Except Fault Matrix :=
  match intResult (m._rows * m._cols) with
  | Except.error e => Except.error e
  | Except.ok vecRows =>
    let vecCols := VEC_COL
    if vecRows < 0 then Except.error Fault.uncaught_exception
    else
      let vecMat : List (Option ℚ) := List.replicate vecRows.toNat none
      match (List.range m._rows.toNat).foldlM
          (fun s (i : Nat) => (List.range m._cols.toNat).foldlM
            (fun s1 (j : Nat) => vectorizeStep m._mat s1 (i : Int) (j : Int)) s)
          ({ vecMat := vecMat, vecIdx := 0 } : VecState) with
      | Except.error e => Except.error e
      | Except.ok s =>
        match allWritten s.vecMat with
        | none => Except.error Fault.undefined_behaviour
        | some cells =>
          Except.ok { _rows := vecRows, _cols := vecCols, _mat := cells.map (fun x => [x]) }

end Matrix

/-- The conversion `(int)x` of a `float`: the fraction is dropped; undefined when the
result is not an `int`. -/
def toInt (x : ℚ) : Except Fault Int :=
  let t := if 0 ≤ x then Int.floor x else Int.ceil x
  if INT_MIN ≤ t ∧ t ≤ INT_MAX then Except.ok t else Except.error Fault.undefined_behaviour

/-- The loop `for (int i = 1; i < levels; i++) newShade[i] = newShade[i - 1] + range;` -/
def fillShades (range : Int) (levels : Int) (newShade : List (Option Int)) :
    Except Fault (List (Option Int)) :=
  (List.range' 1 (levels.toNat - 1)).foldlM
    (fun a (i : Nat) =>
      match readAt a ((i : Int) - 1) with
      | Except.error e => Except.error e
      | Except.ok prev => writeAt a (i : Int) (prev + range))
    newShade

/-- The body of the inner loop of `quantization`:
`int intVal = (int)image(i, j) / range; quantMat(i, j) = (float)newShade[intVal];` -/
def quantizeCell (image : Matrix) (range : Int) (newShade : List (Option Int))
    (quantMat : Matrix) (i j : Int) : Except Fault Matrix :=
  match image.operator_paren i j with
  | Except.error e => Except.error e
  | Except.ok v =>
    match toInt v with
    | Except.error e => Except.error e
    | Except.ok iv =>
      if range = 0 then Except.error Fault.undefined_behaviour
      else
        let intVal := Int.tdiv iv range
        match readAt newShade intVal with
        | Except.error e => Except.error e
        | Except.ok shade => quantMat.assign_paren i j (shade : ℚ)

/-- `Matrix quantization(const Matrix& image, int levels)` -/
def quantization (image : Matrix) (levels : Int) : Except Fault Matrix :=
  let rows := image.getRows
  let cols := image.getCols
  match Matrix.ctor rows cols with
  | Except.error e => Except.error e
  | Except.ok quantMat =>
    if levels = 0 then Except.error Fault.undefined_behaviour
    else
      let range := Int.tdiv NUM_OF_SHADES levels
      if levels < 0 then Except.error Fault.uncaught_exception
      else
        let newShade : List (Option Int) := List.replicate levels.toNat none
        match writeAt newShade 0 (Int.tdiv range 2 - 1) with
        | Except.error e => Except.error e
        | Except.ok newShade1 =>
          match fillShades range levels newShade1 with
          | Except.error e => Except.error e
          | Except.ok newShade2 =>
            (List.range rows.toNat).foldlM
              (fun q (i : Nat) => (List.range cols.toNat).foldlM
                (fun q1 (j : Nat) => quantizeCell image range newShade2 q1 (i : Int) (j : Int)) q)
              quantMat

/-- An example matrix with 46341 rows and 46341 columns of zeros, the smallest square
matrix with more than `INT_MAX` cells. -/
def bigSquare : Matrix :=
  { _rows := 46341, _cols := 46341,
    _mat := List.replicate 46341 (List.replicate 46341 0) }

/-- An example image: one pixel of the brightest shade, 255. -/
def whitePixel : Matrix :=
  { _rows := 1, _cols := 1, _mat := [[255]] }

end Ex1

/-! ## Lists of chains -/

namespace HashMap

variable {K V : Type}

theorem flatten_set_eq {α : Type} (l : List (List α)) (i : Nat) (h : i < l.length)
    (b : List α) :
    (l.set i b).flatten = (l.take i).flatten ++ b ++ (l.drop (i + 1)).flatten := by
  rw [List.set_eq_take_append_cons_drop]
  simp [h]

theorem flatten_split {α : Type} (l : List (List α)) (i : Nat) (h : i < l.length) :
    l.flatten = (l.take i).flatten ++ l.getD i [] ++ (l.drop (i + 1)).flatten := by
  have e : l = l.take i ++ l[i] :: l.drop (i + 1) := by
    rw [← List.drop_eq_getElem_cons h, List.take_append_drop]
  have g : l.getD i [] = l[i] := by
    rw [List.getD_eq_getElem?_getD, List.getElem?_eq_getElem h]; rfl
  rw [g]
  conv_lhs => rw [e]
  rw [List.flatten_append, List.flatten_cons, List.append_assoc]

theorem foldlM_range_take {α β : Type} (f : β → α → Option β) (t : List (List α))
    (init : β) (n : Nat) (hn : n ≤ t.length) :
    (List.range n).foldlM (fun acc i => (t.getD i []).foldlM f acc) init
      = (t.take n).flatten.foldlM f init := by
  induction n with
  | zero => simp
  | succ n ih =>
    have hlt : n < t.length := hn
    have g : t.getD n [] = t[n] := by
      rw [List.getD_eq_getElem?_getD, List.getElem?_eq_getElem hlt]; rfl
    rw [List.range_succ, List.foldlM_append, ih (Nat.le_of_lt hlt), List.take_succ,
      List.flatten_append, List.foldlM_append, List.getElem?_eq_getElem hlt]
    simp only [List.foldlM_cons, List.foldlM_nil, g, Option.toList, List.flatten_cons,
      List.flatten_nil, List.append_nil]
    cases List.foldlM f init (List.take n t).flatten <;> simp

theorem foldlM_range_flatten {α β : Type} (f : β → α → Option β) (t : List (List α))
    (init : β) (n : Nat) (hn : t.length = n) :
    (List.range n).foldlM (fun acc i => (t.getD i []).foldlM f acc) init
      = t.flatten.foldlM f init := by
  subst hn
  rw [foldlM_range_take f t init t.length (Nat.le_refl _), List.take_length]

theorem foldl_range_set {α : Type} (g : Nat → α) (t : List α) (n : Nat)
    (hn : n ≤ t.length) :
    (List.range n).foldl (fun acc i => acc.set i (g i)) t
      = (List.range n).map g ++ t.drop n := by
  induction n with
  | zero => simp
  | succ n ih =>
    have hlt : n < t.length := hn
    rw [List.range_succ, List.foldl_append, ih (Nat.le_of_lt hlt)]
    simp only [List.foldl_cons, List.foldl_nil, List.map_append, List.map_cons, List.map_nil]
    rw [List.set_append_right _ _ (by simp)]
    simp only [List.length_map, List.length_range, Nat.sub_self]
    rw [List.drop_eq_getElem_cons hlt]
    simp only [List.set_cons_zero, List.append_assoc, List.singleton_append]


/-! ## The table after `pushBack`, `_addNew` and `_reHash` -/
theorem pushBack_capacity (hash : K → Nat) (m : HashMap K V) (k : K) (v : V) :
    (pushBack hash m k v)._capacity = m._capacity := rfl

theorem pushBack_upper (hash : K → Nat) (m : HashMap K V) (k : K) (v : V) :
    (pushBack hash m k v)._upperSizeLimit = m._upperSizeLimit := rfl

theorem pushBack_lower (hash : K → Nat) (m : HashMap K V) (k : K) (v : V) :
    (pushBack hash m k v)._lowerSizeLimit = m._lowerSizeLimit := rfl

theorem pushBack_size (hash : K → Nat) (m : HashMap K V) (k : K) (v : V) :
    (pushBack hash m k v)._size = m._size + 1 := rfl

theorem pushBack_length (hash : K → Nat) (m : HashMap K V) (k : K) (v : V) :
    (pushBack hash m k v)._hashTable.length = m._hashTable.length := by
  simp [pushBack]

theorem findHash_lt (hash : K → Nat) (m : HashMap K V) (k : K)
    (hc : ∃ e, m._capacity = 2 ^ e) : _findHash hash m k < m._capacity := by
  obtain ⟨e, he⟩ := hc
  rw [_findHash, he, Nat.and_pow_two_sub_one_eq_mod]
  exact Nat.mod_lt _ (Nat.pos_pow_of_pos e (by decide))

theorem findHash_congr (hash : K → Nat) (m m1 : HashMap K V) (k : K)
    (hc : m1._capacity = m._capacity) : _findHash hash m1 k = _findHash hash m k := by
  rw [_findHash, _findHash, hc]

/-- The chains of a table whose chain `i` was replaced. -/
theorem getD_set {α : Type} (l : List (List α)) (i j : Nat) (b : List α)
    (h : i < l.length) :
    (l.set i b).getD j [] = if j = i then b else l.getD j [] := by
  simp only [List.getD_eq_getElem?_getD, List.getElem?_set]
  by_cases hij : i = j
  · subst hij; simp [h]
  · simp [hij, Ne.symm hij, eq_comm]

theorem bucket_pushBack (hash : K → Nat) (m : HashMap K V) (k : K) (v : V) (i : Nat)
    (h : _findHash hash m k < m._hashTable.length) :
    bucket (pushBack hash m k v) i
      = if i = _findHash hash m k then bucket m i ++ [(k, v)] else bucket m i := by
  simp only [bucket, pushBack]
  rw [getD_set _ _ _ _ h]
  by_cases hi : i = _findHash hash m k
  · simp [hi, bucket]
  · simp [hi]

theorem toList_pushBack (hash : K → Nat) (m : HashMap K V) (k : K) (v : V)
    (h : _findHash hash m k < m._hashTable.length) :
    (toList (pushBack hash m k v)).Perm (toList m ++ [(k, v)]) := by
  simp only [toList, pushBack]
  rw [flatten_set_eq _ _ h, flatten_split m._hashTable _ h]
  simp only [bucket, List.append_assoc]
  apply List.Perm.append_left
  apply List.Perm.append_left
  exact List.perm_append_comm

theorem mem_toList_iff (m : HashMap K V) (p : K × V) :
    p ∈ toList m ↔ ∃ i, p ∈ bucket m i := by
  simp only [toList, List.mem_flatten, bucket]
  constructor
  · rintro ⟨l, hl, hp⟩
    obtain ⟨i, hi, rfl⟩ := List.mem_iff_getElem.mp hl
    exact ⟨i, by simpa [List.getD_eq_getElem?_getD, List.getElem?_eq_getElem hi] using hp⟩
  · rintro ⟨i, hp⟩
    by_cases hi : i < m._hashTable.length
    · refine ⟨m._hashTable[i], List.getElem_mem hi, ?_⟩
      simpa [List.getD_eq_getElem?_getD, List.getElem?_eq_getElem hi] using hp
    · simp [List.getD_eq_getElem?_getD, List.getElem?_eq_none (Nat.le_of_not_lt hi)] at hp

theorem mem_toList_iff_bucket (hash : K → Nat) (m : HashMap K V) (p : K × V)
    (hidx : ∀ i p, p ∈ bucket m i → _findHash hash m p.1 = i) :
    p ∈ toList m ↔ p ∈ bucket m (_findHash hash m p.1) := by
  rw [mem_toList_iff]
  constructor
  · rintro ⟨i, hp⟩
    rw [hidx i p hp]; exact hp
  · intro hp; exact ⟨_, hp⟩

theorem inv_init (hash : K → Nat) (c : Nat) (hc : ∃ e, c = 2 ^ e) :
    Inv hash (_init c : HashMap K V) where
  cap_pow := hc
  len := by simp [_init]
  upper := rfl
  lower := rfl
  size_eq := by simp [_init, toList]
  size_le := Nat.zero_le _
  idx := by
    intro i p hp
    simp [bucket, _init, List.getD_eq_getElem?_getD, List.getElem?_replicate] at hp
    split at hp <;> simp at hp
  nodup := by simp [_init, toList]

theorem inv_pushBack (hash : K → Nat) (m : HashMap K V) (k : K) (v : V)
    (hm : Inv hash m) (hk : k ∉ (toList m).map Prod.fst)
    (hroom : m._size + 1 ≤ m._upperSizeLimit) : Inv hash (pushBack hash m k v) := by
  have hlt : _findHash hash m k < m._hashTable.length := by
    rw [hm.len]; exact findHash_lt hash m k hm.cap_pow
  have hperm := toList_pushBack hash m k v hlt
  refine ⟨hm.cap_pow, by rw [pushBack_length, hm.len]; rfl, hm.upper, hm.lower, ?_, hroom, ?_, ?_⟩
  · rw [hperm.length_eq]; simp [pushBack_size, hm.size_eq]
  · intro i p hp
    rw [findHash_congr hash m (pushBack hash m k v) p.1 rfl]
    rw [bucket_pushBack hash m k v i hlt] at hp
    split at hp
    · rcases List.mem_append.mp hp with h | h
      · exact hm.idx i p h
      · simp at h; subst h; simp_all
    · exact hm.idx i p hp
  · rw [(hperm.map Prod.fst).nodup_iff]
    simp only [List.map_append, List.map_cons, List.map_nil]
    rw [List.nodup_append]
    refine ⟨hm.nodup, by simp, ?_⟩
    intro a ha hb
    simp at hb; subst hb; exact hk ha

theorem inv_rebuildFrom (hash : K → Nat) (ps : List (K × V)) (acc : HashMap K V)
    (hm : Inv hash acc) (hnd : (ps.map Prod.fst).Nodup)
    (hdisj : ∀ k, k ∈ ps.map Prod.fst → k ∉ (toList acc).map Prod.fst)
    (hroom : acc._size + ps.length ≤ acc._upperSizeLimit) :
    Inv hash (rebuildFrom hash acc ps) ∧
      (toList (rebuildFrom hash acc ps)).Perm (toList acc ++ ps) ∧
      (rebuildFrom hash acc ps)._capacity = acc._capacity := by
  induction ps generalizing acc with
  | nil => simp [rebuildFrom, hm]
  | cons p ps ih =>
    simp only [List.length_cons] at hroom
    simp only [List.map_cons, List.nodup_cons] at hnd
    have hlt : _findHash hash acc p.1 < acc._hashTable.length := by
      rw [hm.len]; exact findHash_lt hash acc p.1 hm.cap_pow
    have hperm := toList_pushBack hash acc p.1 p.2 hlt
    have hinv := inv_pushBack hash acc p.1 p.2 hm (hdisj p.1 (by simp)) (by omega)
    have := ih (pushBack hash acc p.1 p.2) hinv hnd.2
      (by
        intro k hk hmem
        rw [(hperm.map Prod.fst).mem_iff] at hmem
        simp only [List.map_append, List.map_cons, List.map_nil, List.mem_append,
          List.mem_singleton] at hmem
        rcases hmem with h | h
        · exact hdisj k (by simp [List.mem_map] at hk ⊢; exact Or.inr hk) h
        · subst h; exact hnd.1 hk)
      (by simp only [pushBack_size, pushBack_upper]; omega)
    refine ⟨this.1, ?_, this.2.2⟩
    refine this.2.1.trans ?_
    refine (hperm.append_right ps).trans ?_
    simp


theorem addNew_of_room (hash : K → Nat) (fuel : Nat) (m : HashMap K V) (k : K) (v : V)
    (h : m._size + 1 ≤ m._upperSizeLimit) :
    _addNew hash (fuel + 1) m k v = some (pushBack hash m k v) := by
  rw [_addNew, if_neg (by omega)]

theorem foldlM_addNew_of_room (hash : K → Nat) (fuel : Nat) (ps : List (K × V))
    (acc : HashMap K V) (h : acc._size + ps.length ≤ acc._upperSizeLimit) :
    ps.foldlM (fun a p => _addNew hash (fuel + 1) a p.1 p.2) acc
      = some (rebuildFrom hash acc ps) := by
  induction ps generalizing acc with
  | nil => rfl
  | cons p ps ih =>
    simp only [List.length_cons] at h
    rw [List.foldlM_cons, addNew_of_room hash fuel acc p.1 p.2 (by omega)]
    simp only [Option.some_bind, rebuildFrom, List.foldl_cons]
    exact ih _ (by simp only [pushBack_size, pushBack_upper]; omega)

theorem foldlM_addNew_zero (hash : K → Nat) (ps : List (K × V)) (acc r : HashMap K V)
    (h : ps.foldlM (fun a p => _addNew hash 0 a p.1 p.2) acc = some r) :
    ps = [] ∧ r = acc := by
  cases ps with
  | nil => simp at h; exact ⟨rfl, h.symm⟩
  | cons p ps => simp [_addNew] at h

theorem reHash_of_room (hash : K → Nat) (fuel : Nat) (m : HashMap K V) (factor : Nat × Nat)
    (hlen : m._hashTable.length = m._capacity)
    (h : (toList m).length ≤ m._capacity * factor.1 / factor.2 * 3 / 4) :
    _reHash hash (fuel + 2) m factor
      = some (rebuildFrom hash (_init (m._capacity * factor.1 / factor.2)) (toList m)) := by
  rw [_reHash]
  rw [foldlM_range_flatten _ _ _ _ hlen]
  exact foldlM_addNew_of_room hash fuel _ _ (by simpa [_init, toList] using h)

theorem reHash_cases (hash : K → Nat) (fuel : Nat) (m r : HashMap K V) (factor : Nat × Nat)
    (hlen : m._hashTable.length = m._capacity)
    (h : (toList m).length ≤ m._capacity * factor.1 / factor.2 * 3 / 4)
    (hr : _reHash hash fuel m factor = some r) :
    r = rebuildFrom hash (_init (m._capacity * factor.1 / factor.2)) (toList m) := by
  match fuel, hr with
  | 0, hr => simp [_reHash] at hr
  | 1, hr =>
    rw [_reHash] at hr
    rw [foldlM_range_flatten _ _ _ _ hlen] at hr
    obtain ⟨e, rfl⟩ := foldlM_addNew_zero hash _ _ _ hr
    rw [toList, e]; rfl
  | fuel + 2, hr =>
    rw [reHash_of_room hash fuel m factor hlen h] at hr
    exact (Option.some.inj hr).symm

/-! ## Looking a key up -/

theorem snd_eq_of_nodup_fst {α β : Type} (l : List (α × β)) (h : (l.map Prod.fst).Nodup)
    (a : α) (b c : β) (hb : (a, b) ∈ l) (hc : (a, c) ∈ l) : b = c := by
  induction l with
  | nil => simp at hb
  | cons p l ih =>
    simp only [List.map_cons, List.nodup_cons] at h
    rcases List.mem_cons.mp hb with hb | hb <;> rcases List.mem_cons.mp hc with hc | hc
    · rw [← hb] at hc; exact (Prod.mk.inj hc).2.symm
    · exact absurd (List.mem_map.mpr ⟨(a, c), hc, by rw [← hb]⟩) h.1
    · exact absurd (List.mem_map.mpr ⟨(a, b), hb, by rw [← hc]⟩) h.1
    · exact ih h.2 hb hc

theorem contains_key_iff [DecidableEq K] (hash : K → Nat) (m : HashMap K V) (k : K)
    (hidx : ∀ i p, p ∈ bucket m i → _findHash hash m p.1 = i) :
    contains_key hash m k = true ↔ ∃ v, (k, v) ∈ toList m := by
  simp only [contains_key, List.any_eq_true, decide_eq_true_eq]
  constructor
  · rintro ⟨p, hp, rfl⟩
    exact ⟨p.2, (mem_toList_iff m p).mpr ⟨_, hp⟩⟩
  · rintro ⟨v, hv⟩
    exact ⟨(k, v), (mem_toList_iff_bucket hash m (k, v) hidx).mp hv, rfl⟩

theorem contains_key_iff_keys [DecidableEq K] (hash : K → Nat) (m : HashMap K V) (k : K)
    (hidx : ∀ i p, p ∈ bucket m i → _findHash hash m p.1 = i) :
    contains_key hash m k = true ↔ k ∈ (toList m).map Prod.fst := by
  rw [contains_key_iff hash m k hidx, List.mem_map]
  constructor
  · rintro ⟨v, hv⟩; exact ⟨(k, v), hv, rfl⟩
  · rintro ⟨p, hp, rfl⟩; exact ⟨p.2, hp⟩

theorem scan_eq_some [DecidableEq K] (hash : K → Nat) (m : HashMap K V) (k : K) (v : V)
    (hm : Inv hash m) (hv : (k, v) ∈ toList m) :
    scan k (bucket m (_findHash hash m k)) = some v := by
  have hb : (k, v) ∈ bucket m (_findHash hash m k) :=
    (mem_toList_iff_bucket hash m (k, v) hm.idx).mp hv
  cases hf : (bucket m (_findHash hash m k)).find? (fun p => decide (k = p.1)) with
  | none =>
    rw [List.find?_eq_none] at hf
    exact absurd (by simp) (hf (k, v) hb)
  | some p =>
    have hp1 : k = p.1 := by simpa using List.find?_some hf
    have hp2 : p ∈ toList m := (mem_toList_iff m p).mpr ⟨_, List.mem_of_find?_eq_some hf⟩
    have hp3 : (k, p.2) ∈ toList m := by rw [hp1]; exact hp2
    simp only [scan, hf, Option.map_some']
    rw [snd_eq_of_nodup_fst (toList m) hm.nodup k p.2 v hp3 hv]

theorem at_eq_ok [DecidableEq K] [Inhabited V] (hash : K → Nat) (m : HashMap K V) (k : K)
    (v : V) (hm : Inv hash m) (hv : (k, v) ∈ toList m) : at_ hash m k = Except.ok v := by
  have hc : contains_key hash m k = true := (contains_key_iff hash m k hm.idx).mpr ⟨v, hv⟩
  simp only [at_, hc, scan_eq_some hash m k v hm hv]
  rfl

theorem at_eq_error [DecidableEq K] [Inhabited V] (hash : K → Nat) (m : HashMap K V)
    (k : K) (hc : contains_key hash m k = false) :
    at_ hash m k = Except.error MapError.out_of_range := by
  simp [at_, hc]

theorem at_eq_ok_iff [DecidableEq K] [Inhabited V] (hash : K → Nat) (m : HashMap K V)
    (k : K) (v : V) (hm : Inv hash m) :
    at_ hash m k = Except.ok v ↔ (k, v) ∈ toList m := by
  constructor
  · intro h
    cases hc : contains_key hash m k with
    | false => rw [at_eq_error hash m k hc] at h; cases h
    | true =>
      obtain ⟨w, hw⟩ := (contains_key_iff hash m k hm.idx).mp hc
      rw [at_eq_ok hash m k w hm hw] at h
      cases h; exact hw
  · exact at_eq_ok hash m k v hm

/-- Two maps that store the same values for a key answer `contains_key` and `at` for
it alike. -/
theorem lookup_congr [DecidableEq K] [Inhabited V] (hash : K → Nat) (m m1 : HashMap K V)
    (k : K) (hm : Inv hash m) (hm1 : Inv hash m1)
    (h : ∀ v, (k, v) ∈ toList m1 ↔ (k, v) ∈ toList m) :
    contains_key hash m1 k = contains_key hash m k ∧ at_ hash m1 k = at_ hash m k := by
  cases hc : contains_key hash m k with
  | true =>
    obtain ⟨w, hw⟩ := (contains_key_iff hash m k hm.idx).mp hc
    have hw1 := (h w).mpr hw
    exact ⟨(contains_key_iff hash m1 k hm1.idx).mpr ⟨w, hw1⟩,
      by rw [at_eq_ok hash m k w hm hw, at_eq_ok hash m1 k w hm1 hw1]⟩
  | false =>
    have hc1 : contains_key hash m1 k = false := by
      cases hc1 : contains_key hash m1 k with
      | false => rfl
      | true =>
        obtain ⟨w, hw⟩ := (contains_key_iff hash m1 k hm1.idx).mp hc1
        have := (contains_key_iff hash m k hm.idx).mpr ⟨w, (h w).mp hw⟩
        rw [hc] at this; cases this
    exact ⟨hc1, by rw [at_eq_error hash m k hc, at_eq_error hash m1 k hc1]⟩

/-! ## `_addNew` on a map that satisfies the invariant -/

theorem pow_two_pos (c : Nat) (hc : ∃ e, c = 2 ^ e) : 0 < c := by
  obtain ⟨e, rfl⟩ := hc
  exact Nat.pos_pow_of_pos e (by decide)

theorem pow_two_double (c : Nat) (hc : ∃ e, c = 2 ^ e) : ∃ e, c * 2 = 2 ^ e := by
  obtain ⟨e, rfl⟩ := hc
  exact ⟨e + 1, by rw [Nat.pow_succ]⟩

theorem pow_two_half (c : Nat) (hc : ∃ e, c = 2 ^ e) (h1 : 1 < c) :
    (∃ e, c / 2 = 2 ^ e) ∧ c / 2 * 2 = c := by
  obtain ⟨e, rfl⟩ := hc
  cases e with
  | zero => simp at h1
  | succ e =>
    rw [Nat.pow_succ, Nat.mul_div_cancel _ (by decide : 0 < 2)]
    exact ⟨⟨e, rfl⟩, rfl⟩

/-- Rebuilding the pairs of a map in a fresh table with room for them. -/
theorem inv_rebuild (hash : K → Nat) (m : HashMap K V) (c : Nat)
    (hnd : ((toList m).map Prod.fst).Nodup) (hc : ∃ e, c = 2 ^ e)
    (hroom : (toList m).length ≤ c * 3 / 4) :
    Inv hash (rebuildFrom hash (_init c) (toList m)) ∧
      (toList (rebuildFrom hash (_init c) (toList m))).Perm (toList m) ∧
      (rebuildFrom hash (_init c) (toList m))._capacity = c := by
  have h := inv_rebuildFrom hash (toList m) (_init c) (inv_init hash c hc) hnd
    (by intro k _; simp [_init, toList]) (by simpa [_init] using hroom)
  refine ⟨h.1, ?_, h.2.2⟩
  have e : toList (_init c : HashMap K V) = [] := by simp [_init, toList]
  rw [e] at h
  simpa using h.2.1

theorem grown_spec (hash : K → Nat) (m : HashMap K V) (hm : Inv hash m) :
    Inv hash (grown hash m) ∧ (toList (grown hash m)).Perm (toList m) ∧
      (grown hash m)._capacity
        = (if m._size + 1 > m._upperSizeLimit then m._capacity * 2 else m._capacity) ∧
      (grown hash m)._size + 1 ≤ (grown hash m)._upperSizeLimit := by
  have hpos := pow_two_pos m._capacity hm.cap_pow
  have hu := hm.upper
  have hs := hm.size_le
  by_cases hg : m._size + 1 > m._upperSizeLimit
  · have hse := hm.size_eq
    have h := inv_rebuild hash m (m._capacity * 2) hm.nodup
      (pow_two_double _ hm.cap_pow) (by omega)
    simp only [grown, if_pos hg]
    refine ⟨h.1, h.2.1, h.2.2, ?_⟩
    have h1 := h.1.size_eq
    have h2 := h.1.upper
    have h3 := h.2.1.length_eq
    have h4 := h.2.2
    omega
  · simp only [grown, if_neg hg]
    exact ⟨hm, List.Perm.refl _, trivial, by omega⟩

theorem added_spec [DecidableEq K] (hash : K → Nat) (m : HashMap K V) (k : K) (v : V)
    (hm : Inv hash m) (hk : contains_key hash m k = false) :
    Inv hash (added hash m k v) ∧ (toList (added hash m k v)).Perm (toList m ++ [(k, v)]) ∧
      (added hash m k v)._capacity
        = (if m._size + 1 > m._upperSizeLimit then m._capacity * 2 else m._capacity) ∧
      (added hash m k v)._size = m._size + 1 := by
  have hg := grown_spec hash m hm
  have hk1 : k ∉ (toList (grown hash m)).map Prod.fst := by
    rw [(hg.2.1.map Prod.fst).mem_iff, ← contains_key_iff_keys hash m k hm.idx, hk]
    simp
  have hlt : _findHash hash (grown hash m) k < (grown hash m)._hashTable.length := by
    rw [hg.1.len]; exact findHash_lt hash _ k hg.1.cap_pow
  refine ⟨inv_pushBack hash _ k v hg.1 hk1 hg.2.2.2, ?_, hg.2.2.1, ?_⟩
  · exact (toList_pushBack hash _ k v hlt).trans (hg.2.1.append_right _)
  · have h1 := hg.1.size_eq
    have h2 := hm.size_eq
    have h3 := hg.2.1.length_eq
    simp only [added, pushBack_size]
    omega

theorem addNew_eq_added (hash : K → Nat) (fuel : Nat) (m : HashMap K V) (k : K) (v : V)
    (hm : Inv hash m) (hf : 3 ≤ fuel) :
    _addNew hash fuel m k v = some (added hash m k v) := by
  obtain ⟨f, rfl⟩ : ∃ f, fuel = f + 3 := ⟨fuel - 3, by omega⟩
  have hu := hm.upper
  have hs := hm.size_le
  have hse := hm.size_eq
  rw [_addNew]
  by_cases hg : m._size + 1 > m._upperSizeLimit
  · rw [if_pos hg, reHash_of_room hash f m REHASH_UP_FACTOR hm.len
      (by simp only [REHASH_UP_FACTOR, Nat.div_one]; omega)]
    simp [added, grown, hg, REHASH_UP_FACTOR]
  · rw [if_neg hg]
    simp [added, grown, hg]

theorem addNew_eq_of_some (hash : K → Nat) (fuel : Nat) (m m1 : HashMap K V) (k : K)
    (v : V) (hm : Inv hash m) (h : _addNew hash fuel m k v = some m1) :
    m1 = added hash m k v := by
  have hu := hm.upper
  have hs := hm.size_le
  have hse := hm.size_eq
  cases fuel with
  | zero => simp [_addNew] at h
  | succ f =>
    rw [_addNew] at h
    by_cases hg : m._size + 1 > m._upperSizeLimit
    · rw [if_pos hg] at h
      cases hr : _reHash hash f m REHASH_UP_FACTOR with
      | none => rw [hr] at h; simp at h
      | some r =>
        rw [hr] at h
        have := reHash_cases hash f m r REHASH_UP_FACTOR hm.len
          (by simp only [REHASH_UP_FACTOR, Nat.div_one]; omega) hr
        simp only [Option.map_some', Option.some.injEq] at h
        rw [← h, this]
        simp [added, grown, hg, REHASH_UP_FACTOR]
    · rw [if_neg hg] at h
      simp only [Option.some.injEq] at h
      rw [← h]
      simp [added, grown, hg]

/-! ## `erase` on a map that satisfies the invariant -/

theorem erasedRaw_spec [DecidableEq K] (hash : K → Nat) (m : HashMap K V) (k : K)
    (hm : Inv hash m) (hk : contains_key hash m k = true) :
    Inv hash (erasedRaw hash m k) ∧
      (∃ v, (toList m).Perm ((k, v) :: toList (erasedRaw hash m k))) ∧
      (erasedRaw hash m k)._capacity = m._capacity ∧
      (erasedRaw hash m k)._size + 1 = m._size := by
  have hlt : _findHash hash m k < m._hashTable.length := by
    rw [hm.len]; exact findHash_lt hash m k hm.cap_pow
  obtain ⟨p, hp, hpk⟩ : ∃ p, p ∈ bucket m (_findHash hash m k) ∧ k = p.1 := by
    simpa [contains_key] using hk
  obtain ⟨a, l₁, l₂, _, ha, hl, he⟩ :=
    List.exists_of_eraseP (p := fun p => decide (p.1 = k)) hp (by simp [hpk])
  have hak : a = (k, a.2) := by
    have : a.1 = k := by simpa using ha
    rw [← this]
  have hperm : (toList m).Perm ((k, a.2) :: toList (erasedRaw hash m k)) := by
    rw [← hak]
    simp only [toList, erasedRaw]
    rw [flatten_set_eq _ _ hlt, flatten_split m._hashTable _ hlt, he]
    simp only [bucket] at hl
    rw [hl]
    simp only [List.append_assoc, List.cons_append]
    refine (List.Perm.append_left _ ?_).trans List.perm_middle
    exact List.perm_middle
  have hlen := hperm.length_eq
  simp only [List.length_cons] at hlen
  have hsz : (erasedRaw hash m k)._size + 1 = m._size := by
    have := hm.size_eq
    simp only [erasedRaw]
    omega
  have hnd := (hperm.map Prod.fst).nodup_iff.mp hm.nodup
  simp only [List.map_cons, List.nodup_cons] at hnd
  refine ⟨⟨hm.cap_pow, by simp [erasedRaw, hm.len], hm.upper, hm.lower, ?_, ?_, ?_, hnd.2⟩,
    ⟨a.2, hperm⟩, rfl, hsz⟩
  · have := hm.size_eq; omega
  · have := hm.size_le
    have e : (erasedRaw hash m k)._upperSizeLimit = m._upperSizeLimit := rfl
    omega
  · intro i q hq
    rw [findHash_congr hash m (erasedRaw hash m k) q.1 rfl]
    simp only [bucket, erasedRaw] at hq
    rw [getD_set _ _ _ _ hlt] at hq
    split at hq
    · next h => subst h; exact hm.idx _ q (List.mem_of_mem_eraseP hq)
    · exact hm.idx i q hq

theorem shrunk_spec (hash : K → Nat) (m : HashMap K V) (hm : Inv hash m) :
    Inv hash (shrunk hash m) ∧ (toList (shrunk hash m)).Perm (toList m) ∧
      (shrunk hash m)._capacity
        = (if m._size < m._lowerSizeLimit then m._capacity / 2 else m._capacity) ∧
      (shrunk hash m)._size = m._size := by
  have hl := hm.lower
  have hse := hm.size_eq
  by_cases hg : m._size < m._lowerSizeLimit
  · have h1 : 1 < m._capacity := by
      have := pow_two_pos m._capacity hm.cap_pow
      omega
    have hh := pow_two_half m._capacity hm.cap_pow h1
    have h := inv_rebuild hash m (m._capacity / 2) hm.nodup hh.1 (by omega)
    simp only [shrunk, if_pos hg]
    refine ⟨h.1, h.2.1, h.2.2, ?_⟩
    rw [h.1.size_eq, h.2.1.length_eq, hse]
  · simp only [shrunk, if_neg hg]
    exact ⟨hm, List.Perm.refl _, trivial, trivial⟩

theorem erased_spec [DecidableEq K] (hash : K → Nat) (m : HashMap K V) (k : K)
    (hm : Inv hash m) (hk : contains_key hash m k = true) :
    Inv hash (erased hash m k) ∧
      (∃ v, (toList m).Perm ((k, v) :: toList (erased hash m k))) ∧
      (erased hash m k)._capacity
        = (if m._size - 1 < m._lowerSizeLimit then m._capacity / 2 else m._capacity) ∧
      (erased hash m k)._size + 1 = m._size := by
  have hr := erasedRaw_spec hash m k hm hk
  have hs := shrunk_spec hash (erasedRaw hash m k) hr.1
  obtain ⟨v, hv⟩ := hr.2.1
  refine ⟨hs.1, ⟨v, hv.trans (List.Perm.cons _ hs.2.1.symm)⟩, ?_, ?_⟩
  · rw [erased, hs.2.2.1, hr.2.2.1]; rfl
  · rw [erased, hs.2.2.2]; exact hr.2.2.2

theorem erase_eq_erased [DecidableEq K] (hash : K → Nat) (fuel : Nat) (m : HashMap K V)
    (k : K) (hm : Inv hash m) (hk : contains_key hash m k = true) (hf : 2 ≤ fuel) :
    erase hash fuel m k = some (true, erased hash m k) := by
  obtain ⟨f, rfl⟩ : ∃ f, fuel = f + 2 := ⟨fuel - 2, by omega⟩
  have hr := erasedRaw_spec hash m k hm hk
  have hl := hr.1.lower
  have hse := hr.1.size_eq
  simp only [erase, hk, Bool.not_true, Bool.false_eq_true, if_false]
  change (if (erasedRaw hash m k)._size < (erasedRaw hash m k)._lowerSizeLimit then
    Option.map (fun m2 => (true, m2)) (_reHash hash (f + 2) (erasedRaw hash m k)
      REHASH_DOWN_FACTOR) else some (true, erasedRaw hash m k)) = _
  by_cases hg : (erasedRaw hash m k)._size < (erasedRaw hash m k)._lowerSizeLimit
  · have h1 : 1 < (erasedRaw hash m k)._capacity := by
      have := pow_two_pos _ hr.1.cap_pow
      omega
    have hh := pow_two_half _ hr.1.cap_pow h1
    rw [if_pos hg, reHash_of_room hash f _ REHASH_DOWN_FACTOR hr.1.len
      (by simp only [REHASH_DOWN_FACTOR, Nat.mul_one]; omega)]
    simp [erased, shrunk, hg, REHASH_DOWN_FACTOR]
  · rw [if_neg hg]
    simp [erased, shrunk, hg]

theorem erase_eq_of_some [DecidableEq K] (hash : K → Nat) (fuel : Nat) (m m1 : HashMap K V)
    (k : K) (b : Bool) (hm : Inv hash m) (h : erase hash fuel m k = some (b, m1)) :
    (contains_key hash m k = true ∧ b = true ∧ m1 = erased hash m k) ∨
      (contains_key hash m k = false ∧ b = false ∧ m1 = m) := by
  cases hk : contains_key hash m k with
  | false =>
    simp only [erase, hk, Bool.not_false, if_true, Option.some.injEq, Prod.mk.injEq] at h
    exact Or.inr ⟨rfl, h.1.symm, h.2.symm⟩
  | true =>
    refine Or.inl ⟨rfl, ?_⟩
    have hr := erasedRaw_spec hash m k hm hk
    have hl := hr.1.lower
    have hse := hr.1.size_eq
    simp only [erase, hk, Bool.not_true, Bool.false_eq_true, if_false] at h
    change (if (erasedRaw hash m k)._size < (erasedRaw hash m k)._lowerSizeLimit then
      Option.map (fun m2 => (true, m2)) (_reHash hash fuel (erasedRaw hash m k)
        REHASH_DOWN_FACTOR) else some (true, erasedRaw hash m k)) = _ at h
    by_cases hg : (erasedRaw hash m k)._size < (erasedRaw hash m k)._lowerSizeLimit
    · have h1 : 1 < (erasedRaw hash m k)._capacity := by
        have := pow_two_pos _ hr.1.cap_pow
        omega
      have hh := pow_two_half _ hr.1.cap_pow h1
      rw [if_pos hg] at h
      cases hre : _reHash hash fuel (erasedRaw hash m k) REHASH_DOWN_FACTOR with
      | none => rw [hre] at h; simp at h
      | some r =>
        rw [hre] at h
        have := reHash_cases hash fuel _ r REHASH_DOWN_FACTOR hr.1.len
          (by simp only [REHASH_DOWN_FACTOR, Nat.mul_one]; omega) hre
        simp only [Option.map_some', Option.some.injEq, Prod.mk.injEq] at h
        refine ⟨h.1.symm, ?_⟩
        rw [← h.2, this]
        simp [erased, shrunk, hg, REHASH_DOWN_FACTOR]
    · rw [if_neg hg] at h
      simp only [Option.some.injEq, Prod.mk.injEq] at h
      refine ⟨h.1.symm, ?_⟩
      rw [← h.2]
      simp [erased, shrunk, hg]

/-! ## `_overrideExisting`, `clear`, copies -/

theorem overrideLoop_map_fst [DecidableEq K] (k : K) (v : V) (b : List (K × V)) :
    (overrideLoop k v b).map Prod.fst = b.map Prod.fst := by
  induction b with
  | nil => rfl
  | cons p b ih =>
    simp only [overrideLoop]
    split
    · simp
    · simp [ih]

theorem mem_overrideLoop [DecidableEq K] (k : K) (v : V) (b : List (K × V))
    (hnd : (b.map Prod.fst).Nodup) (p : K × V) :
    p ∈ overrideLoop k v b ↔ (p.1 ≠ k ∧ p ∈ b) ∨ (p = (k, v) ∧ k ∈ b.map Prod.fst) := by
  induction b with
  | nil => simp [overrideLoop]
  | cons q b ih =>
    simp only [List.map_cons, List.nodup_cons] at hnd
    simp only [overrideLoop]
    by_cases hq : q.1 = k
    · rw [if_pos hq]
      have hkb : k ∉ b.map Prod.fst := hq ▸ hnd.1
      simp only [List.mem_cons, List.map_cons]
      constructor
      · rintro (h | h)
        · exact Or.inr ⟨by rw [h, hq], Or.inl hq.symm⟩
        · refine Or.inl ⟨?_, Or.inr h⟩
          intro hp
          exact hkb (List.mem_map.mpr ⟨p, h, hp⟩)
      · rintro (⟨h1, h2 | h2⟩ | ⟨h1, _⟩)
        · exact absurd (h2 ▸ hq) h1
        · exact Or.inr h2
        · exact Or.inl (by rw [h1, hq])
    · rw [if_neg hq]
      simp only [List.mem_cons, List.map_cons, ih hnd.2]
      constructor
      · rintro (h | ⟨h1, h2⟩ | ⟨h1, h2⟩)
        · exact Or.inl ⟨h ▸ hq, Or.inl h⟩
        · exact Or.inl ⟨h1, Or.inr h2⟩
        · exact Or.inr ⟨h1, Or.inr h2⟩
      · rintro (⟨h1, h2 | h2⟩ | ⟨h1, h2 | h2⟩)
        · exact Or.inl h2
        · exact Or.inr (Or.inl ⟨h1, h2⟩)
        · exact absurd h2.symm hq
        · exact Or.inr (Or.inr ⟨h1, h2⟩)

theorem nodup_bucket (hash : K → Nat) (m : HashMap K V) (i : Nat) (hm : Inv hash m) :
    ((bucket m i).map Prod.fst).Nodup := by
  by_cases hi : i < m._hashTable.length
  · have h := hm.nodup
    rw [toList, flatten_split m._hashTable i hi] at h
    simp only [List.map_append] at h
    exact (List.nodup_append.mp (List.nodup_append.mp h).1).2.1
  · simp [bucket, List.getD_eq_getElem?_getD, List.getElem?_eq_none (Nat.le_of_not_lt hi)]

theorem bucket_overrideExisting [DecidableEq K] (hash : K → Nat) (m : HashMap K V) (k : K)
    (v : V) (i : Nat) (h : _findHash hash m k < m._hashTable.length) :
    bucket (_overrideExisting hash m k v) i
      = if i = _findHash hash m k then overrideLoop k v (bucket m i) else bucket m i := by
  simp only [bucket, _overrideExisting]
  rw [getD_set _ _ _ _ h]
  by_cases hi : i = _findHash hash m k
  · simp [hi, bucket]
  · simp [hi]

theorem keys_overrideExisting [DecidableEq K] (hash : K → Nat) (m : HashMap K V) (k : K)
    (v : V) (h : _findHash hash m k < m._hashTable.length) :
    (toList (_overrideExisting hash m k v)).map Prod.fst = (toList m).map Prod.fst := by
  simp only [toList, _overrideExisting]
  rw [flatten_set_eq _ _ h]
  conv_rhs => rw [flatten_split m._hashTable _ h]
  simp only [List.map_append, overrideLoop_map_fst, bucket]

theorem overrideExisting_spec [DecidableEq K] (hash : K → Nat) (m : HashMap K V) (k : K)
    (v : V) (hm : Inv hash m) :
    Inv hash (_overrideExisting hash m k v) ∧
      (toList (_overrideExisting hash m k v)).map Prod.fst = (toList m).map Prod.fst ∧
      ∀ p, p ∈ toList (_overrideExisting hash m k v) ↔
        (p.1 ≠ k ∧ p ∈ toList m) ∨ (p = (k, v) ∧ k ∈ (toList m).map Prod.fst) := by
  have hlt : _findHash hash m k < m._hashTable.length := by
    rw [hm.len]; exact findHash_lt hash m k hm.cap_pow
  have hkeys := keys_overrideExisting hash m k v hlt
  have hb := bucket_overrideExisting hash m k v
  have hidx : ∀ i p, p ∈ bucket (_overrideExisting hash m k v) i →
      _findHash hash (_overrideExisting hash m k v) p.1 = i := by
    intro i p hp
    rw [findHash_congr hash m (_overrideExisting hash m k v) p.1 rfl]
    rw [hb i hlt] at hp
    split at hp
    · have : p.1 ∈ (overrideLoop k v (bucket m i)).map Prod.fst :=
        List.mem_map.mpr ⟨p, hp, rfl⟩
      rw [overrideLoop_map_fst] at this
      obtain ⟨q, hq, hqp⟩ := List.mem_map.mp this
      rw [← hqp]; exact hm.idx i q hq
    · exact hm.idx i p hp
  have hinv : Inv hash (_overrideExisting hash m k v) :=
    ⟨hm.cap_pow, by simp [_overrideExisting, hm.len], hm.upper, hm.lower,
      by
        have h1 := congrArg List.length hkeys
        simp only [List.length_map] at h1
        rw [h1]; exact hm.size_eq,
      hm.size_le, hidx, by rw [hkeys]; exact hm.nodup⟩
  refine ⟨hinv, hkeys, ?_⟩
  intro p
  rw [mem_toList_iff_bucket hash _ p hidx,
    findHash_congr hash m (_overrideExisting hash m k v) p.1 rfl, hb _ hlt]
  have hkk : k ∈ (toList m).map Prod.fst ↔ k ∈ (bucket m (_findHash hash m k)).map Prod.fst := by
    constructor
    · intro h
      obtain ⟨q, hq, hqk⟩ := List.mem_map.mp h
      have := (mem_toList_iff_bucket hash m q hm.idx).mp hq
      rw [hqk] at this
      exact List.mem_map.mpr ⟨q, this, hqk⟩
    · intro h
      obtain ⟨q, hq, hqk⟩ := List.mem_map.mp h
      exact List.mem_map.mpr ⟨q, (mem_toList_iff m q).mpr ⟨_, hq⟩, hqk⟩
  by_cases hi : _findHash hash m p.1 = _findHash hash m k
  · rw [if_pos hi, mem_overrideLoop k v _ (nodup_bucket hash m _ hm) p, hkk, hi]
    constructor
    · rintro (⟨h1, h2⟩ | h)
      · exact Or.inl ⟨h1, (mem_toList_iff m p).mpr ⟨_, h2⟩⟩
      · exact Or.inr h
    · rintro (⟨h1, h2⟩ | h)
      · refine Or.inl ⟨h1, ?_⟩
        have := (mem_toList_iff_bucket hash m p hm.idx).mp h2
        rwa [hi] at this
      · exact Or.inr h
  · rw [if_neg hi, ← mem_toList_iff_bucket hash m p hm.idx]
    have hne : p.1 ≠ k := fun h => hi (by rw [h])
    constructor
    · intro h; exact Or.inl ⟨hne, h⟩
    · rintro (⟨_, h2⟩ | ⟨h1, _⟩)
      · exact h2
      · exact absurd (by rw [h1]) hne

theorem clear_eq_init (hash : K → Nat) (m : HashMap K V) (hm : Inv hash m) :
    clear m = _init m._capacity := by
  have h := foldl_range_set (fun _ => ([] : List (K × V))) m._hashTable m._capacity
    (by rw [hm.len])
  simp only [clear, _init, h, hm.upper, hm.lower]
  congr 1
  rw [← hm.len, List.drop_length, List.append_nil]
  apply List.ext_getElem
  · simp
  · intro n h1 h2; simp

theorem copy_eq_self (hash : K → Nat) (m : HashMap K V) (hm : Inv hash m) :
    copy m = m := by
  have h := foldl_range_set (fun i => m._hashTable.getD i []) (List.replicate m._capacity [])
    m._capacity (by simp)
  have e : (List.range m._capacity).map (fun i => m._hashTable.getD i []) = m._hashTable := by
    apply List.ext_getElem
    · simp [hm.len]
    · intro n h1 h2
      simp [List.getD_eq_getElem?_getD, List.getElem?_eq_getElem h2]
  have hd : List.drop m._capacity (List.replicate m._capacity ([] : List (K × V))) = [] := by
    simp
  cases m with
  | mk s c t u l =>
    simp only [copy, _init] at h e hd ⊢
    simp only [h, e, hd, List.append_nil]
    have hu := hm.upper
    have hl := hm.lower
    simp only at hu hl
    rw [hu, hl]

/-! ## Every reachable map satisfies the invariant -/

theorem foldlM_inv {α β : Type} (P : β → Prop) (f : β → α → Option β) (l : List α)
    (init r : β) (hP : P init) (hstep : ∀ a x b, P a → f a x = some b → P b)
    (h : l.foldlM f init = some r) : P r := by
  induction l generalizing init with
  | nil =>
    simp only [List.foldlM_nil] at h
    cases h; exact hP
  | cons x l ih =>
    rw [List.foldlM_cons] at h
    cases hx : f init x with
    | none => rw [hx] at h; simp at h
    | some b =>
      rw [hx] at h
      exact ih b (hstep init x b hP hx) h

theorem insert_eq_added [DecidableEq K] (hash : K → Nat) (fuel : Nat) (m : HashMap K V)
    (k : K) (v : V) (hm : Inv hash m) (hk : contains_key hash m k = false)
    (hf : 3 ≤ fuel) : insert hash fuel m k v = some (true, added hash m k v) := by
  simp [insert, hk, addNew_eq_added hash fuel m k v hm hf]

theorem insert_eq_of_contains [DecidableEq K] (hash : K → Nat) (fuel : Nat)
    (m : HashMap K V) (k : K) (v : V) (hk : contains_key hash m k = true) :
    insert hash fuel m k v = some (false, m) := by
  simp [insert, hk]

theorem insert_eq_of_some [DecidableEq K] (hash : K → Nat) (fuel : Nat)
    (m m1 : HashMap K V) (k : K) (v : V) (b : Bool) (hm : Inv hash m)
    (h : insert hash fuel m k v = some (b, m1)) :
    (contains_key hash m k = true ∧ b = false ∧ m1 = m) ∨
      (contains_key hash m k = false ∧ b = true ∧ m1 = added hash m k v) := by
  cases hk : contains_key hash m k with
  | true =>
    rw [insert_eq_of_contains hash fuel m k v hk] at h
    simp only [Option.some.injEq, Prod.mk.injEq] at h
    exact Or.inl ⟨rfl, h.1.symm, h.2.symm⟩
  | false =>
    refine Or.inr ⟨rfl, ?_⟩
    simp only [insert, hk, Bool.false_eq_true, if_false] at h
    cases ha : _addNew hash fuel m k v with
    | none => rw [ha] at h; simp at h
    | some r =>
      rw [ha] at h
      simp only [Option.map_some', Option.some.injEq, Prod.mk.injEq] at h
      exact ⟨h.1.symm, by rw [← h.2]; exact addNew_eq_of_some hash fuel m r k v hm ha⟩

theorem addAllowOverride_inv [DecidableEq K] (hash : K → Nat) (fuel : Nat)
    (m m1 : HashMap K V) (k : K) (v : V) (hm : Inv hash m)
    (h : _addAllowOverride hash fuel m k v = some m1) : Inv hash m1 := by
  cases hk : contains_key hash m k with
  | true =>
    simp only [_addAllowOverride, hk, if_true, Option.some.injEq] at h
    rw [← h]; exact (overrideExisting_spec hash m k v hm).1
  | false =>
    simp only [_addAllowOverride, hk, Bool.false_eq_true, if_false] at h
    rw [addNew_eq_of_some hash fuel m m1 k v hm h]
    exact (added_spec hash m k v hm hk).1

theorem inv_new (hash : K → Nat) : Inv hash (new : HashMap K V) :=
  inv_init hash DEFAULT_CAPACITY ⟨4, rfl⟩

theorem fromRange_inv [DecidableEq K] (hash : K → Nat) (fuel : Nat) (keys : List K)
    (values : List V) (m : HashMap K V)
    (h : fromRange hash fuel keys values = some (Except.ok m)) : Inv hash m := by
  simp only [fromRange] at h
  split at h
  · simp at h
  · cases hf : (keys.zip values).foldlM
        (fun m p => _addAllowOverride hash fuel m p.1 p.2) (_init DEFAULT_CAPACITY) with
    | none => rw [hf] at h; simp at h
    | some r =>
      rw [hf] at h
      simp only [Option.map_some', Option.some.injEq, Except.ok.injEq] at h
      rw [← h]
      exact foldlM_inv (Inv hash) _ _ _ r (inv_new hash)
        (fun a x b ha hb => addAllowOverride_inv hash fuel a b x.1 x.2 ha hb) hf

theorem subscript_eq_of_some [DecidableEq K] [Inhabited V] (hash : K → Nat) (fuel : Nat)
    (m m1 : HashMap K V) (k : K) (newVal r : V) (hm : Inv hash m)
    (h : subscript hash fuel m k newVal = some (r, m1)) :
    (contains_key hash m k = true ∧ m1 = m) ∨
      (contains_key hash m k = false ∧ m1 = added hash m k newVal) := by
  cases hk : contains_key hash m k with
  | true =>
    simp only [subscript, hk, Bool.not_true, Bool.false_eq_true, if_false, Option.map_some',
      Option.some.injEq, Prod.mk.injEq] at h
    exact Or.inl ⟨rfl, h.2.symm⟩
  | false =>
    refine Or.inr ⟨rfl, ?_⟩
    simp only [subscript, hk, Bool.not_false, if_true] at h
    cases ha : _addNew hash fuel m k newVal with
    | none => rw [ha] at h; simp at h
    | some r =>
      rw [ha] at h
      simp only [Option.map_some', Option.some.injEq, Prod.mk.injEq] at h
      rw [← h.2]; exact addNew_eq_of_some hash fuel m r k newVal hm ha

theorem reachable_inv [DecidableEq K] [Inhabited V] (hash : K → Nat) (m : HashMap K V)
    (h : Reachable hash m) : Inv hash m := by
  induction h with
  | new => exact inv_new hash
  | fromRange h => exact fromRange_inv hash _ _ _ _ h
  | copy _ ih => rw [copy_eq_self hash _ ih]; exact ih
  | insert _ h ih =>
    rcases insert_eq_of_some hash _ _ _ _ _ _ ih h with ⟨_, _, e⟩ | ⟨hk, _, e⟩
    · rw [e]; exact ih
    · rw [e]; exact (added_spec hash _ _ _ ih hk).1
  | erase _ h ih =>
    rcases erase_eq_of_some hash _ _ _ _ _ ih h with ⟨hk, _, e⟩ | ⟨_, _, e⟩
    · rw [e]; exact (erased_spec hash _ _ ih hk).1
    · rw [e]; exact ih
  | subscript _ h ih =>
    rcases subscript_eq_of_some hash _ _ _ _ _ _ ih h with ⟨_, e⟩ | ⟨hk, e⟩
    · rw [e]; exact ih
    · rw [e]; exact (added_spec hash _ _ _ ih hk).1
  | write _ _ ih => exact (overrideExisting_spec hash _ _ _ ih).1
  | clear _ ih => rw [clear_eq_init hash _ ih]; exact inv_init hash _ ih.cap_pow

/-! ## Runs of `insert` -/

theorem insertMany_spec [DecidableEq K] (hash : K → Nat) (fuel : Nat) (kvs : List (K × V))
    (m : HashMap K V) (hm : Inv hash m) (hnd : (kvs.map Prod.fst).Nodup)
    (hdisj : ∀ k, k ∈ kvs.map Prod.fst → k ∉ (toList m).map Prod.fst) (hf : 3 ≤ fuel) :
    ∃ m1, insertMany hash fuel m kvs = some (List.replicate kvs.length true, m1) ∧
      Inv hash m1 ∧ (toList m1).Perm (toList m ++ kvs) := by
  induction kvs generalizing m with
  | nil => exact ⟨m, rfl, hm, by simp⟩
  | cons p kvs ih =>
    simp only [List.map_cons, List.nodup_cons] at hnd
    have hk : contains_key hash m p.1 = false := by
      cases h : contains_key hash m p.1 with
      | false => rfl
      | true =>
        exact absurd ((contains_key_iff_keys hash m p.1 hm.idx).mp h) (hdisj p.1 (by simp))
    have ha := added_spec hash m p.1 p.2 hm hk
    obtain ⟨m1, h1, h2, h3⟩ := ih (added hash m p.1 p.2) ha.1 hnd.2 (by
      intro k hk1 hmem
      rw [(ha.2.1.map Prod.fst).mem_iff] at hmem
      simp only [List.map_append, List.map_cons, List.map_nil, List.mem_append,
        List.mem_singleton] at hmem
      rcases hmem with h | h
      · exact hdisj k (by simp only [List.map_cons, List.mem_cons]; exact Or.inr hk1) h
      · subst h; exact hnd.1 hk1)
    refine ⟨m1, ?_, h2, ?_⟩
    · simp only [insertMany, insert_eq_added hash fuel m p.1 p.2 hm hk hf, h1,
        Option.map_some', List.length_cons, List.replicate_succ]
    · refine h3.trans ?_
      refine (ha.2.1.append_right kvs).trans ?_
      simp

theorem reachable_insertMany [DecidableEq K] [Inhabited V] (hash : K → Nat) (fuel : Nat)
    (kvs : List (K × V)) (m m1 : HashMap K V) (fl : List Bool) (hr : Reachable hash m)
    (h : insertMany hash fuel m kvs = some (fl, m1)) : Reachable hash m1 := by
  induction kvs generalizing m fl with
  | nil =>
    simp only [insertMany, Option.some.injEq, Prod.mk.injEq] at h
    rw [← h.2]; exact hr
  | cons p kvs ih =>
    simp only [insertMany] at h
    cases hi : insert hash fuel m p.1 p.2 with
    | none => rw [hi] at h; simp at h
    | some r =>
      obtain ⟨b, m2⟩ := r
      rw [hi] at h
      dsimp only at h
      cases hrest : insertMany hash fuel m2 kvs with
      | none => rw [hrest] at h; simp at h
      | some r2 =>
        obtain ⟨fl2, m3⟩ := r2
        rw [hrest] at h
        simp only [Option.map_some', Option.some.injEq, Prod.mk.injEq] at h
        rw [h.2] at hrest
        exact ih m2 fl2 (Reachable.insert hr hi) hrest

/-- The map the range constructor returns is reachable. -/
theorem reachable_fromRange [DecidableEq K] [Inhabited V] (hash : K → Nat) (fuel : Nat)
    (keys : List K) (values : List V) (m : HashMap K V)
    (h : fromRange hash fuel keys values = some (Except.ok m)) : Reachable hash m :=
  Reachable.fromRange h

/-! ## The constructor from two ranges -/

theorem lastValue_append [DecidableEq K] (k : K) (l : List (K × V)) (p : K × V) :
    lastValue k (l ++ [p]) = if p.1 = k then some p.2 else lastValue k l := by
  induction l with
  | nil => simp [lastValue]
  | cons q l ih =>
    rw [List.cons_append, lastValue, ih]
    by_cases hp : p.1 = k
    · rw [if_pos hp, if_pos hp]
    · rw [if_neg hp, if_neg hp, lastValue]

theorem lastValue_eq_none_iff [DecidableEq K] (k : K) (l : List (K × V)) :
    lastValue k l = none ↔ k ∉ l.map Prod.fst := by
  induction l with
  | nil => simp [lastValue]
  | cons q l ih =>
    rw [lastValue, List.map_cons, List.mem_cons, not_or]
    cases h : lastValue k l with
    | some v =>
      constructor
      · intro hm; cases hm
      · rintro ⟨_, hn⟩
        rw [ih.mpr hn] at h; cases h
    | none =>
      have hn := ih.mp h
      by_cases hq : q.1 = k
      · constructor
        · intro hm; rw [if_pos hq] at hm; cases hm
        · rintro ⟨hne, _⟩; exact absurd hq.symm hne
      · constructor
        · intro _; exact ⟨fun e => hq e.symm, hn⟩
        · intro _; rw [if_neg hq]

theorem lastValue_of_index [DecidableEq K] (keys : List K) (values : List V) (i : Nat)
    (k : K) (v : V) (hk : keys[i]? = some k) (hv : values[i]? = some v)
    (hlast : ∀ j, i < j → keys[j]? ≠ some k) :
    lastValue k (keys.zip values) = some v := by
  induction keys generalizing values i with
  | nil => simp at hk
  | cons k0 ks ih =>
    cases values with
    | nil => simp at hv
    | cons v0 vs =>
      cases i with
      | zero =>
        simp only [List.getElem?_cons_zero, Option.some.injEq] at hk hv
        have hnot : k ∉ (ks.zip vs).map Prod.fst := by
          intro hmem
          obtain ⟨q, hq, hqk⟩ := List.mem_map.mp hmem
          have hks : k ∈ ks := by
            rw [← hqk]; exact (List.of_mem_zip (a := q.1) (b := q.2) hq).1
          obtain ⟨j, hj, hjk⟩ := List.mem_iff_getElem.mp hks
          exact hlast (j + 1) (Nat.succ_pos j)
            (by rw [List.getElem?_cons_succ, List.getElem?_eq_getElem hj, hjk])
        rw [List.zip_cons_cons, lastValue, (lastValue_eq_none_iff k _).mpr hnot]
        simp only [hk, hv, if_true]
      | succ i =>
        simp only [List.getElem?_cons_succ] at hk hv
        have := ih vs i hk hv (fun j hj => by
          have := hlast (j + 1) (Nat.succ_lt_succ hj)
          rwa [List.getElem?_cons_succ] at this)
        rw [List.zip_cons_cons, lastValue, this]

theorem addAllowOverride_fold [DecidableEq K] (hash : K → Nat) (fuel : Nat)
    (l : List (K × V)) (hf : 3 ≤ fuel) :
    ∃ m, l.foldlM (fun m p => _addAllowOverride hash fuel m p.1 p.2)
        (_init DEFAULT_CAPACITY) = some m ∧ Inv hash m ∧
      ∀ k v, (k, v) ∈ toList m ↔ lastValue k l = some v := by
  induction l using List.reverseRecOn with
  | nil =>
    refine ⟨_init DEFAULT_CAPACITY, rfl, inv_new hash, ?_⟩
    intro k v
    simp [_init, toList, lastValue]
  | append_singleton l p ih =>
    obtain ⟨m, h1, hm, h3⟩ := ih
    rw [List.foldlM_append, h1]
    simp only [Option.some_bind, List.foldlM_cons, List.foldlM_nil]
    cases hc : contains_key hash m p.1 with
    | true =>
      have ho := overrideExisting_spec hash m p.1 p.2 hm
      refine ⟨_overrideExisting hash m p.1 p.2, by simp [_addAllowOverride, hc], ho.1, ?_⟩
      intro k v
      rw [ho.2.2, lastValue_append]
      have hkeys := (contains_key_iff_keys hash m p.1 hm.idx).mp hc
      by_cases hp : p.1 = k
      · simp only [hp, if_true, ne_eq, not_true_eq_false, false_and, false_or]
        rw [← hp]
        constructor
        · rintro ⟨h, _⟩; rw [(Prod.mk.inj h).2]
        · intro h; exact ⟨by rw [Option.some.inj h], hkeys⟩
      · simp only [hp, if_false]
        rw [← h3]
        constructor
        · rintro (⟨_, h⟩ | ⟨h, _⟩)
          · exact h
          · exact absurd (Prod.mk.inj h).1.symm hp
        · intro h; exact Or.inl ⟨fun e => hp e.symm, h⟩
    | false =>
      have ha := added_spec hash m p.1 p.2 hm hc
      refine ⟨added hash m p.1 p.2,
        by simp [_addAllowOverride, hc, addNew_eq_added hash fuel m p.1 p.2 hm hf], ha.1, ?_⟩
      intro k v
      rw [ha.2.1.mem_iff, lastValue_append]
      simp only [List.mem_append, List.mem_singleton]
      have hkeys : p.1 ∉ (toList m).map Prod.fst := by
        rw [← contains_key_iff_keys hash m p.1 hm.idx, hc]; simp
      by_cases hp : p.1 = k
      · simp only [hp, if_true]
        constructor
        · rintro (h | h)
          · exact absurd (List.mem_map.mpr ⟨(k, v), h, hp.symm⟩) hkeys
          · rw [(Prod.mk.inj h).2]
        · intro h
          exact Or.inr (by rw [Option.some.inj h])
      · simp only [hp, if_false]
        rw [← h3]
        constructor
        · rintro (h | h)
          · exact h
          · exact absurd (Prod.mk.inj h).1.symm hp
        · intro h; exact Or.inl h

theorem fromRange_eq_ok [DecidableEq K] (hash : K → Nat) (fuel : Nat) (keys : List K)
    (values : List V) (hlen : keys.length = values.length) (hf : 3 ≤ fuel) :
    ∃ m, fromRange hash fuel keys values = some (Except.ok m) ∧ Inv hash m ∧
      ∀ k v, (k, v) ∈ toList m ↔ lastValue k (keys.zip values) = some v := by
  obtain ⟨m, h1, h2, h3⟩ := addAllowOverride_fold hash fuel (keys.zip values) hf
  refine ⟨m, ?_, h2, h3⟩
  simp only [fromRange, ne_eq, hlen, not_true_eq_false, if_false, h1, Option.map_some']

/-- After `erase` of a contained key the key is gone and every other key has the
pairs it had. -/
theorem erased_content [DecidableEq K] (hash : K → Nat) (m : HashMap K V) (k : K)
    (hm : Inv hash m) (hk : contains_key hash m k = true) :
    contains_key hash (erased hash m k) k = false ∧
      ∀ k1 v, k1 ≠ k → ((k1, v) ∈ toList (erased hash m k) ↔ (k1, v) ∈ toList m) := by
  have he := erased_spec hash m k hm hk
  obtain ⟨w, hw⟩ := he.2.1
  have hnd := (hw.map Prod.fst).nodup_iff.mp hm.nodup
  simp only [List.map_cons, List.nodup_cons] at hnd
  constructor
  · cases h : contains_key hash (erased hash m k) k with
    | false => rfl
    | true => exact absurd ((contains_key_iff_keys hash _ k he.1.idx).mp h) hnd.1
  · intro k1 v hne
    rw [hw.mem_iff, List.mem_cons]
    constructor
    · intro h; exact Or.inr h
    · rintro (h | h)
      · exact absurd (Prod.mk.inj h).1 hne
      · exact h

/-- A run of inserts that stays within the upper limit keeps the capacity. -/
theorem insertMany_capacity [DecidableEq K] (hash : K → Nat) (fuel : Nat)
    (kvs : List (K × V)) (m m1 : HashMap K V) (fl : List Bool) (hm : Inv hash m)
    (hroom : m._size + kvs.length ≤ m._upperSizeLimit)
    (h : insertMany hash fuel m kvs = some (fl, m1)) : m1._capacity = m._capacity := by
  induction kvs generalizing m fl with
  | nil =>
    simp only [insertMany, Option.some.injEq, Prod.mk.injEq] at h
    rw [← h.2]
  | cons p kvs ih =>
    simp only [insertMany] at h
    simp only [List.length_cons] at hroom
    cases hi : insert hash fuel m p.1 p.2 with
    | none => rw [hi] at h; simp at h
    | some r =>
      obtain ⟨b, m2⟩ := r
      rw [hi] at h
      dsimp only at h
      cases hrest : insertMany hash fuel m2 kvs with
      | none => rw [hrest] at h; simp at h
      | some r2 =>
        obtain ⟨fl2, m3⟩ := r2
        rw [hrest] at h
        simp only [Option.map_some', Option.some.injEq, Prod.mk.injEq] at h
        rw [h.2] at hrest
        rcases insert_eq_of_some hash fuel m m2 p.1 p.2 b hm hi with ⟨_, _, e⟩ | ⟨hk, _, e⟩
        · rw [e] at hrest
          exact ih m fl2 hm (by omega) hrest
        · have ha := added_spec hash m p.1 p.2 hm hk
          have hcap : (added hash m p.1 p.2)._capacity = m._capacity := by
            rw [ha.2.2.1, if_neg (by omega)]
          have hup : (added hash m p.1 p.2)._upperSizeLimit = m._upperSizeLimit := by
            rw [ha.1.upper, hm.upper, hcap]
          rw [e] at hrest
          rw [ih (added hash m p.1 p.2) fl2 ha.1 (by rw [ha.2.2.2, hup]; omega) hrest, hcap]

/-! ## The examples of the specification, for every hash function -/

theorem toList_new : toList (new : HashMap K V) = [] := by
  simp [new, _init, toList]

/-- Default map, `insert("a", 1)`, `insert("b", 2)`, `insert("a", 3)`: the third call
returns `false`, `at("a")` is `1` and the size is `2`. -/
theorem example_duplicate_insert (hash : String → Nat) (fuel : Nat) (hf : 3 ≤ fuel) :
    ∃ m1 m2 : HashMap String Nat, insert hash fuel new "a" 1 = some (true, m1) ∧
      insert hash fuel m1 "b" 2 = some (true, m2) ∧
      insert hash fuel m2 "a" 3 = some (false, m2) ∧
      at_ hash m2 "a" = Except.ok 1 ∧ size m2 = 2 := by
  have h0 : Inv hash (new : HashMap String Nat) := inv_new hash
  have hc0 : contains_key hash (new : HashMap String Nat) "a" = false := by
    cases h : contains_key hash (new : HashMap String Nat) "a" with
    | false => rfl
    | true =>
      have := (contains_key_iff_keys hash _ _ h0.idx).mp h
      simp [toList_new] at this
  have ha := added_spec hash new "a" 1 h0 hc0
  have hl1 := ha.2.1
  rw [toList_new, List.nil_append] at hl1
  have hc1 : contains_key hash (added hash (new : HashMap String Nat) "a" 1) "b" = false := by
    cases h : contains_key hash (added hash (new : HashMap String Nat) "a" 1) "b" with
    | false => rfl
    | true =>
      have := (contains_key_iff_keys hash _ _ ha.1.idx).mp h
      rw [(hl1.map Prod.fst).mem_iff] at this
      simp at this
  have hb := added_spec hash (added hash new "a" 1) "b" 2 ha.1 hc1
  have hl2 := hb.2.1.trans (hl1.append_right _)
  have hmem : ("a", 1) ∈ toList (added hash (added hash (new : HashMap String Nat) "a" 1) "b" 2) :=
    hl2.mem_iff.mpr (by simp)
  refine ⟨_, _, insert_eq_added hash fuel new "a" 1 h0 hc0 hf,
    insert_eq_added hash fuel _ "b" 2 ha.1 hc1 hf,
    insert_eq_of_contains hash fuel _ "a" 3
      ((contains_key_iff hash _ "a" hb.1.idx).mpr ⟨1, hmem⟩),
    at_eq_ok hash _ "a" 1 hb.1 hmem, ?_⟩
  rw [size, hb.2.2.2, ha.2.2.2]
  rfl

/-- The map built from keys `[1, 2, 3]` and values `[10, 20, 30]`, then `erase(2)`:
the size is 2, key 2 is not contained and the stored pairs are `(1, 10)` and `(3, 30)`
in some order. -/
theorem example_erase (hash : Nat → Nat) (fuel : Nat) (hf : 3 ≤ fuel) :
    ∃ m m1 : HashMap Nat Nat, fromRange hash fuel [1, 2, 3] [10, 20, 30] = some (Except.ok m) ∧
      erase hash fuel m 2 = some (true, m1) ∧ size m1 = 2 ∧
      contains_key hash m1 2 = false ∧ (toList m1).Perm [(1, 10), (3, 30)] := by
  obtain ⟨m, h1, hm, h3⟩ := fromRange_eq_ok hash fuel [1, 2, 3] [10, 20, 30] rfl hf
  have hperm : (toList m).Perm [(1, 10), (2, 20), (3, 30)] := by
    rw [List.perm_ext_iff_of_nodup (List.Nodup.of_map _ hm.nodup) (by decide)]
    rintro ⟨k, v⟩
    rw [h3]
    simp only [List.zip_cons_cons, List.zip_nil_right, lastValue, List.mem_cons,
      Prod.mk.injEq, List.mem_singleton, List.not_mem_nil, or_false]
    by_cases h3k : 3 = k
    · subst h3k; simp; exact eq_comm
    · by_cases h2k : 2 = k
      · subst h2k; simp; exact eq_comm
      · by_cases h1k : 1 = k
        · subst h1k; simp; exact eq_comm
        · simp [h1k, h2k, h3k, Ne.symm h1k, Ne.symm h2k, Ne.symm h3k]
  have hk : contains_key hash m 2 = true :=
    (contains_key_iff hash m 2 hm.idx).mpr ⟨20, hperm.mem_iff.mpr (by simp)⟩
  have he := erased_spec hash m 2 hm hk
  obtain ⟨w, hw⟩ := he.2.1
  have hw20 : w = 20 :=
    snd_eq_of_nodup_fst (toList m) hm.nodup 2 w 20 (hw.mem_iff.mpr (by simp))
      (hperm.mem_iff.mpr (by simp))
  subst hw20
  have hp2 : ((2, 20) :: toList (erased hash m 2)).Perm ((2, 20) :: [(1, 10), (3, 30)]) :=
    hw.symm.trans (hperm.trans (by decide))
  have hp3 := hp2.cons_inv
  refine ⟨m, erased hash m 2, h1, erase_eq_erased hash fuel m 2 hm hk (by omega), ?_,
    (erased_content hash m 2 hm hk).1, hp3⟩
  rw [size, he.1.size_eq, hp3.length_eq]
  rfl

/-- Thirteen pairs with distinct keys into a default map: the capacity is 16 after each
of the first twelve inserts and 32 after the thirteenth. -/
theorem example_growth [DecidableEq K] (hash : K → Nat) (fuel : Nat) (kvs : List (K × V))
    (k : K) (v : V) (hf : 3 ≤ fuel) (hlen : kvs.length = 12)
    (hnd : ((kvs ++ [(k, v)]).map Prod.fst).Nodup) :
    (∀ n, n ≤ 12 → ∃ m, insertMany hash fuel new (kvs.take n)
        = some (List.replicate n true, m) ∧ capacity m = 16) ∧
    ∃ m12 m13, insertMany hash fuel new kvs = some (List.replicate 12 true, m12) ∧
      insert hash fuel m12 k v = some (true, m13) ∧ capacity m13 = 32 := by
  simp only [List.map_append, List.map_cons, List.map_nil] at hnd
  have hnd1 := (List.nodup_append.mp hnd).1
  have hdis := (List.nodup_append.mp hnd).2.2
  have h0 : Inv hash (new : HashMap K V) := inv_new hash
  constructor
  · intro n hn
    have hl : (kvs.take n).length = n := by rw [List.length_take]; omega
    obtain ⟨m, h1, _, _⟩ := insertMany_spec hash fuel (kvs.take n) new h0
      ((List.take_sublist n kvs).map Prod.fst |>.nodup hnd1)
      (by intro k _; simp [toList_new]) hf
    rw [hl] at h1
    refine ⟨m, h1, ?_⟩
    rw [capacity, insertMany_capacity hash fuel _ new m _ h0 (by rw [hl]; show 0 + n ≤ 12; omega) h1]
    rfl
  · obtain ⟨m, h1, hm, hp⟩ := insertMany_spec hash fuel kvs new h0 hnd1
      (by intro k _; simp [toList_new]) hf
    rw [hlen] at h1
    have hcap : m._capacity = 16 :=
      insertMany_capacity hash fuel kvs new m _ h0 (by rw [hlen]; exact Nat.le_refl 12) h1
    rw [toList_new, List.nil_append] at hp
    have hsz : m._size = 12 := by rw [hm.size_eq, hp.length_eq, hlen]
    have hk : contains_key hash m k = false := by
      cases h : contains_key hash m k with
      | false => rfl
      | true =>
        have := (contains_key_iff_keys hash m k hm.idx).mp h
        rw [(hp.map Prod.fst).mem_iff] at this
        exact (hdis this (List.mem_singleton.mpr rfl)).elim
    have ha := added_spec hash m k v hm hk
    refine ⟨m, added hash m k v, h1, insert_eq_added hash fuel m k v hm hk hf, ?_⟩
    rw [capacity, ha.2.2.1, hm.upper, hcap, hsz]
    rfl

/-! ## Runs of `erase` and predicates kept along a run -/

theorem pow_two_cases (c : Nat) (hc : ∃ e, c = 2 ^ e) :
    c = 1 ∨ c = 2 ∨ c = 4 ∨ ∃ t, c = 8 * t := by
  obtain ⟨e, rfl⟩ := hc
  match e with
  | 0 => exact Or.inl rfl
  | 1 => exact Or.inr (Or.inl rfl)
  | 2 => exact Or.inr (Or.inr (Or.inl rfl))
  | e + 3 => exact Or.inr (Or.inr (Or.inr ⟨2 ^ e, by rw [Nat.pow_add]; omega⟩))

theorem eraseMany_spec [DecidableEq K] (hash : K → Nat) (fuel : Nat) (ks : List K)
    (m : HashMap K V) (hm : Inv hash m) (hnd : ks.Nodup)
    (hin : ∀ k, k ∈ ks → k ∈ (toList m).map Prod.fst) (hf : 2 ≤ fuel) :
    ∃ m1, eraseMany hash fuel m ks = some (List.replicate ks.length true, m1) ∧
      Inv hash m1 ∧ m1._size + ks.length = m._size ∧
      ∀ p, p ∈ toList m1 ↔ p ∈ toList m ∧ p.1 ∉ ks := by
  induction ks generalizing m with
  | nil => exact ⟨m, rfl, hm, rfl, by simp⟩
  | cons k ks ih =>
    simp only [List.nodup_cons] at hnd
    have hk : contains_key hash m k = true :=
      (contains_key_iff_keys hash m k hm.idx).mpr (hin k (List.mem_cons_self k ks))
    have he := erased_spec hash m k hm hk
    have hc := erased_content hash m k hm hk
    have hmem : ∀ p, p ∈ toList (erased hash m k) ↔ p ∈ toList m ∧ p.1 ≠ k := by
      intro p
      constructor
      · intro hp
        have hne : p.1 ≠ k := by
          intro e
          have := (contains_key_iff_keys hash _ k he.1.idx).mpr
            (List.mem_map.mpr ⟨p, hp, e⟩)
          rw [hc.1] at this; cases this
        exact ⟨(hc.2 p.1 p.2 hne).mp hp, hne⟩
      · rintro ⟨hp, hne⟩
        exact (hc.2 p.1 p.2 hne).mpr hp
    obtain ⟨m1, h1, h2, h3, h4⟩ := ih (erased hash m k) he.1 hnd.2 (by
      intro k1 hk1
      obtain ⟨p, hp, hpk⟩ := List.mem_map.mp (hin k1 (List.mem_cons_of_mem k hk1))
      refine List.mem_map.mpr ⟨p, (hmem p).mpr ⟨hp, ?_⟩, hpk⟩
      rw [hpk]; intro e; exact hnd.1 (e ▸ hk1))
    refine ⟨m1, ?_, h2, ?_, ?_⟩
    · simp only [eraseMany, erase_eq_erased hash fuel m k hm hk hf, h1, Option.map_some',
        List.length_cons, List.replicate_succ]
    · have := he.2.2.2
      simp only [List.length_cons]
      omega
    · intro p
      rw [h4, hmem, List.mem_cons, not_or, and_assoc]

theorem reachable_eraseMany [DecidableEq K] [Inhabited V] (hash : K → Nat) (fuel : Nat)
    (ks : List K) (m m1 : HashMap K V) (fl : List Bool) (hr : Reachable hash m)
    (h : eraseMany hash fuel m ks = some (fl, m1)) : Reachable hash m1 := by
  induction ks generalizing m fl with
  | nil =>
    simp only [eraseMany, Option.some.injEq, Prod.mk.injEq] at h
    rw [← h.2]; exact hr
  | cons k ks ih =>
    simp only [eraseMany] at h
    cases hi : erase hash fuel m k with
    | none => rw [hi] at h; simp at h
    | some r =>
      obtain ⟨b, m2⟩ := r
      rw [hi] at h
      dsimp only at h
      cases hrest : eraseMany hash fuel m2 ks with
      | none => rw [hrest] at h; simp at h
      | some r2 =>
        obtain ⟨fl2, m3⟩ := r2
        rw [hrest] at h
        simp only [Option.map_some', Option.some.injEq, Prod.mk.injEq] at h
        rw [h.2] at hrest
        exact ih m2 fl2 (Reachable.erase hr hi) hrest

/-- A predicate that every `insert` of an absent key keeps holds after a run of
inserts. -/
theorem insertMany_pred [DecidableEq K] (hash : K → Nat) (P : HashMap K V → Prop)
    (hstep : ∀ m k v, Inv hash m → contains_key hash m k = false → P m →
      P (added hash m k v))
    (fuel : Nat) (kvs : List (K × V)) (m m1 : HashMap K V) (fl : List Bool)
    (hm : Inv hash m) (hP : P m) (h : insertMany hash fuel m kvs = some (fl, m1)) :
    P m1 := by
  induction kvs generalizing m fl with
  | nil =>
    simp only [insertMany, Option.some.injEq, Prod.mk.injEq] at h
    rw [← h.2]; exact hP
  | cons p kvs ih =>
    simp only [insertMany] at h
    cases hi : insert hash fuel m p.1 p.2 with
    | none => rw [hi] at h; simp at h
    | some r =>
      obtain ⟨b, m2⟩ := r
      rw [hi] at h
      dsimp only at h
      cases hrest : insertMany hash fuel m2 kvs with
      | none => rw [hrest] at h; simp at h
      | some r2 =>
        obtain ⟨fl2, m3⟩ := r2
        rw [hrest] at h
        simp only [Option.map_some', Option.some.injEq, Prod.mk.injEq] at h
        rw [h.2] at hrest
        rcases insert_eq_of_some hash fuel m m2 p.1 p.2 b hm hi with ⟨_, _, e⟩ | ⟨hk, _, e⟩
        · rw [e] at hrest
          exact ih m fl2 hm hP hrest
        · rw [e] at hrest
          exact ih _ fl2 (added_spec hash m p.1 p.2 hm hk).1 (hstep m p.1 p.2 hm hk hP) hrest

/-- A predicate that every `erase` of a contained key keeps holds after a run of
erases. -/
theorem eraseMany_pred [DecidableEq K] (hash : K → Nat) (P : HashMap K V → Prop)
    (hstep : ∀ m k, Inv hash m → contains_key hash m k = true → P m → P (erased hash m k))
    (fuel : Nat) (ks : List K) (m m1 : HashMap K V) (fl : List Bool)
    (hm : Inv hash m) (hP : P m) (h : eraseMany hash fuel m ks = some (fl, m1)) :
    P m1 := by
  induction ks generalizing m fl with
  | nil =>
    simp only [eraseMany, Option.some.injEq, Prod.mk.injEq] at h
    rw [← h.2]; exact hP
  | cons k ks ih =>
    simp only [eraseMany] at h
    cases hi : erase hash fuel m k with
    | none => rw [hi] at h; simp at h
    | some r =>
      obtain ⟨b, m2⟩ := r
      rw [hi] at h
      dsimp only at h
      cases hrest : eraseMany hash fuel m2 ks with
      | none => rw [hrest] at h; simp at h
      | some r2 =>
        obtain ⟨fl2, m3⟩ := r2
        rw [hrest] at h
        simp only [Option.map_some', Option.some.injEq, Prod.mk.injEq] at h
        rw [h.2] at hrest
        rcases erase_eq_of_some hash fuel m m2 k b hm hi with ⟨hk, _, e⟩ | ⟨_, _, e⟩
        · rw [e] at hrest
          exact ih _ fl2 (erased_spec hash m k hm hk).1 (hstep m k hm hk hP) hrest
        · rw [e] at hrest
          exact ih m fl2 hm hP hrest

/-! ## The two `operator[]` and the assignment through a reference -/

theorem subscript_const_of_mem [DecidableEq K] [Inhabited V] (hash : K → Nat)
    (m : HashMap K V) (k : K) (newVal w : V) (hm : Inv hash m) (hw : (k, w) ∈ toList m) :
    subscript_const hash m k newVal = w := by
  have hc : contains_key hash m k = true := (contains_key_iff hash m k hm.idx).mpr ⟨w, hw⟩
  simp only [subscript_const, hc, scan_eq_some hash m k w hm hw]
  rfl

theorem subscript_const_of_absent [DecidableEq K] [Inhabited V] (hash : K → Nat)
    (m : HashMap K V) (k : K) (newVal : V) (hc : contains_key hash m k = false) :
    subscript_const hash m k newVal = newVal := by
  simp [subscript_const, hc]

theorem subscript_of_mem [DecidableEq K] [Inhabited V] (hash : K → Nat) (fuel : Nat)
    (m : HashMap K V) (k : K) (newVal w : V) (hm : Inv hash m) (hw : (k, w) ∈ toList m) :
    subscript hash fuel m k newVal = some (w, m) := by
  have hc : contains_key hash m k = true := (contains_key_iff hash m k hm.idx).mpr ⟨w, hw⟩
  simp only [subscript, hc, Bool.not_true, Bool.false_eq_true, if_false, Option.map_some',
    scan_eq_some hash m k w hm hw]

theorem subscript_of_absent [DecidableEq K] [Inhabited V] (hash : K → Nat) (fuel : Nat)
    (m : HashMap K V) (k : K) (newVal : V) (hm : Inv hash m)
    (hc : contains_key hash m k = false) (hf : 3 ≤ fuel) :
    subscript hash fuel m k newVal = some (newVal, added hash m k newVal) := by
  have ha := added_spec hash m k newVal hm hc
  have hmem : (k, newVal) ∈ toList (added hash m k newVal) :=
    ha.2.1.mem_iff.mpr (by simp)
  simp only [subscript, hc, Bool.not_false, if_true,
    addNew_eq_added hash fuel m k newVal hm hf, Option.map_some',
    scan_eq_some hash _ k newVal ha.1 hmem]

/-- `_overrideExisting` keeps the keys of every chain, in order. -/
theorem bucket_keys_overrideExisting [DecidableEq K] (hash : K → Nat) (m : HashMap K V)
    (k : K) (v : V) (i : Nat) (hm : Inv hash m) :
    (bucket (_overrideExisting hash m k v) i).map Prod.fst = (bucket m i).map Prod.fst := by
  have hlt : _findHash hash m k < m._hashTable.length := by
    rw [hm.len]; exact findHash_lt hash m k hm.cap_pow
  rw [bucket_overrideExisting hash m k v i hlt]
  split
  · exact overrideLoop_map_fst k v _
  · rfl

/-- `clear` leaves no pair. -/
theorem toList_init (c : Nat) : toList (_init c : HashMap K V) = [] := by
  simp [_init, toList]

theorem bucket_init (c i : Nat) : bucket (_init c : HashMap K V) i = [] := by
  simp only [bucket, _init, List.getD_eq_getElem?_getD, List.getElem?_replicate]
  split <;> rfl

theorem contains_key_of_toList_nil [DecidableEq K] (hash : K → Nat) (m : HashMap K V)
    (k : K) (hm : Inv hash m) (h : toList m = []) : contains_key hash m k = false := by
  cases hc : contains_key hash m k with
  | false => rfl
  | true =>
    have := (contains_key_iff_keys hash m k hm.idx).mp hc
    rw [h] at this
    simp at this

/-! ## The capacity along a run of inserts followed by a run of erases -/

/-- While keys are inserted into a default map the capacity is at least 16 and, above
16, at most 16 times the size. -/
theorem added_capacity_bounds [DecidableEq K] (hash : K → Nat) (m : HashMap K V) (k : K)
    (v : V) (hm : Inv hash m) (hk : contains_key hash m k = false)
    (hP : 16 ≤ m._capacity ∧ (m._capacity ≤ 16 ∨ m._capacity ≤ 16 * m._size)) :
    16 ≤ (added hash m k v)._capacity ∧
      ((added hash m k v)._capacity ≤ 16 ∨
        (added hash m k v)._capacity ≤ 16 * (added hash m k v)._size) := by
  have ha := added_spec hash m k v hm hk
  have hu := hm.upper
  rw [ha.2.2.1, ha.2.2.2]
  split <;> omega

/-- While keys are erased the capacity stays at least 2 (at least 4 while a key is
left) and, above 8, at most 16 times the size. -/
theorem erased_capacity_bounds [DecidableEq K] (hash : K → Nat) (m : HashMap K V) (k : K)
    (hm : Inv hash m) (hk : contains_key hash m k = true)
    (hP : 2 ≤ m._capacity ∧ (1 ≤ m._size → 4 ≤ m._capacity) ∧
      (m._capacity ≤ 8 ∨ m._capacity ≤ 16 * m._size)) :
    2 ≤ (erased hash m k)._capacity ∧
      (1 ≤ (erased hash m k)._size → 4 ≤ (erased hash m k)._capacity) ∧
      ((erased hash m k)._capacity ≤ 8 ∨
        (erased hash m k)._capacity ≤ 16 * (erased hash m k)._size) := by
  have he := erased_spec hash m k hm hk
  have hl := hm.lower
  have hs := he.2.2.2
  rw [he.2.2.1]
  rcases pow_two_cases m._capacity hm.cap_pow with h | h | h | ⟨t, h⟩ <;>
    split <;> omega

/-- Inserting pairs with distinct keys into a default map and erasing the keys again,
in any order: every call succeeds, the map ends empty, and its capacity is between 2 and
16, 16 only when no key was inserted and at most 8 otherwise. -/
theorem round_trip [DecidableEq K] (hash : K → Nat) (kvs : List (K × V)) (ks : List K)
    (fuel : Nat) (hnd : (kvs.map Prod.fst).Nodup) (hperm : ks.Perm (kvs.map Prod.fst))
    (hf : 3 ≤ fuel) :
    ∃ m m1, insertMany hash fuel new kvs = some (List.replicate kvs.length true, m) ∧
      eraseMany hash fuel m ks = some (List.replicate ks.length true, m1) ∧
      Inv hash m1 ∧ toList m1 = [] ∧ m1._size = 0 ∧
      2 ≤ m1._capacity ∧ m1._capacity ≤ 16 ∧
      (kvs = [] → m1._capacity = 16) ∧ (kvs ≠ [] → m1._capacity ≤ 8) := by
  have h0 : Inv hash (new : HashMap K V) := inv_new hash
  obtain ⟨m, h1, hm, hp⟩ := insertMany_spec hash fuel kvs new h0 hnd
    (by intro k _; simp [toList_new]) hf
  rw [toList_new, List.nil_append] at hp
  have hkeys : ∀ k, k ∈ ks → k ∈ (toList m).map Prod.fst := by
    intro k hk
    rw [(hp.map Prod.fst).mem_iff]
    exact hperm.mem_iff.mp hk
  obtain ⟨m1, h2, hm1, hsz, hmem⟩ := eraseMany_spec hash fuel ks m hm
    (hperm.nodup_iff.mpr hnd) hkeys (by omega)
  have hnil : toList m1 = [] := by
    apply List.eq_nil_iff_forall_not_mem.mpr
    intro p hp1
    have h3 := (hmem p).mp hp1
    exact h3.2 (hperm.mem_iff.mpr ((hp.map Prod.fst).mem_iff.mp
      (List.mem_map.mpr ⟨p, h3.1, rfl⟩)))
  have hs0 : m1._size = 0 := by rw [hm1.size_eq, hnil]; rfl
  have hlen : ks.length = kvs.length := by rw [hperm.length_eq, List.length_map]
  have hmsz : m._size = kvs.length := by rw [hm.size_eq, hp.length_eq]
  have hI := insertMany_pred hash
    (fun x => 16 ≤ x._capacity ∧ (x._capacity ≤ 16 ∨ x._capacity ≤ 16 * x._size))
    (fun x k v hx hk hP => added_capacity_bounds hash x k v hx hk hP)
    fuel kvs new m _ h0 ⟨Nat.le_refl 16, Or.inl (Nat.le_refl 16)⟩ h1
  refine ⟨m, m1, h1, h2, hm1, hnil, hs0, ?_⟩
  cases kvs with
  | nil =>
    have hks : ks = [] := List.length_eq_zero.mp hlen
    subst hks
    simp only [insertMany, eraseMany, Option.some.injEq, Prod.mk.injEq, List.length_nil,
      List.replicate_zero, true_and] at h1 h2
    rw [← h2, ← h1]
    exact ⟨Nat.le_of_ble_eq_true rfl, Nat.le_refl 16, fun _ => rfl, fun h => absurd rfl h⟩
  | cons p kvs =>
    simp only [List.length_cons] at hmsz
    have hE := eraseMany_pred hash
      (fun x => 2 ≤ x._capacity ∧ (1 ≤ x._size → 4 ≤ x._capacity) ∧
        (x._capacity ≤ 8 ∨ x._capacity ≤ 16 * x._size))
      (fun x k hx hk hP => erased_capacity_bounds hash x k hx hk hP)
      fuel ks m m1 _ hm ⟨by omega, by omega, by omega⟩ h2
    simp only at hE
    have h8 : m1._capacity ≤ 8 := by omega
    exact ⟨hE.1, by omega, fun h => List.noConfusion h, fun _ => h8⟩

/-! ## `operator==` -/

/-- Two duplicate-free lists have the same length and the first is contained in the
second exactly when they have the same members. -/
theorem same_members_iff {α : Type} (l₁ l₂ : List α) (h₁ : l₁.Nodup) (h₂ : l₂.Nodup) :
    (l₁.length = l₂.length ∧ ∀ p, p ∈ l₁ → p ∈ l₂) ↔ ∀ p, p ∈ l₁ ↔ p ∈ l₂ := by
  constructor
  · rintro ⟨hlen, hsub⟩
    have hp : l₁.Perm l₂ :=
      (List.subperm_of_subset h₁ hsub).perm_of_length_le (Nat.le_of_eq hlen.symm)
    exact fun p => hp.mem_iff
  · intro h
    have hp : l₁.Perm l₂ := (List.perm_ext_iff_of_nodup h₁ h₂).mpr h
    exact ⟨hp.length_eq, fun p hp1 => (h p).mp hp1⟩

theorem contains_true_iff {α : Type} [BEq α] [LawfulBEq α] (l : List α) (p : α) :
    l.contains p = true ↔ p ∈ l :=
  List.elem_iff

theorem nodup_bucket_pairs (hash : K → Nat) (m : HashMap K V) (i : Nat) (hm : Inv hash m) :
    (bucket m i).Nodup :=
  List.Nodup.of_map _ (nodup_bucket hash m i hm)

theorem operator_eq_iff [DecidableEq K] [DecidableEq V] (hash : K → Nat) (a b : HashMap K V)
    (ha : Inv hash a) (hb : Inv hash b) :
    operator_eq a b = true ↔
      a._capacity = b._capacity ∧ a._size = b._size ∧
        ∀ i, i < a._capacity → ∀ p, p ∈ bucket a i ↔ p ∈ bucket b i := by
  have hbk : ∀ i, ((bucket a i).length = (bucket b i).length ∧
      ∀ p, p ∈ bucket a i → p ∈ bucket b i) ↔ ∀ p, p ∈ bucket a i ↔ p ∈ bucket b i :=
    fun i => same_members_iff _ _ (nodup_bucket_pairs hash a i ha)
      (nodup_bucket_pairs hash b i hb)
  by_cases hc : a._capacity = b._capacity
  · by_cases hs : a._size = b._size
    · simp only [operator_eq, hc, hs, ne_eq, not_true_eq_false, or_self, if_false,
        List.all_eq_true, List.mem_range, Bool.and_eq_true, decide_eq_true_eq,
        contains_true_iff, true_and]
      rw [← hc]
      exact forall_congr' fun i => imp_congr_right fun _ => hbk i
    · simp [operator_eq, hs]
  · simp [operator_eq, hc]

/-! ## The iterator -/

theorem flatten_drop_succ {α : Type} (t : List (List α)) (i : Nat) (chain : List α)
    (h : t[i]? = some chain) : (t.drop i).flatten = chain ++ (t.drop (i + 1)).flatten := by
  obtain ⟨hi, rfl⟩ := List.getElem?_eq_some.mp h
  rw [List.drop_eq_getElem_cons hi, List.flatten_cons]

theorem skipEmptyFrom_spec (rest : List (List (K × V))) (idx : Nat)
    (h : rest.flatten ≠ []) :
    ∃ j chain, skipEmptyFrom rest idx = some (idx + j) ∧ rest[j]? = some chain ∧
      chain ≠ [] ∧ rest.flatten = chain ++ (rest.drop (j + 1)).flatten := by
  induction rest generalizing idx with
  | nil => exact absurd rfl h
  | cons c rest ih =>
    cases c with
    | nil =>
      obtain ⟨j, chain, h1, h2, h3, h4⟩ := ih (idx + 1) (by simpa using h)
      refine ⟨j + 1, chain, ?_, by simpa using h2, h3, by simpa using h4⟩
      simp only [skipEmptyFrom, List.isEmpty_nil, if_true, h1]
      congr 1; omega
    | cons p c =>
      exact ⟨0, p :: c, by simp [skipEmptyFrom], by simp, by simp, by simp⟩

theorem skipEmptyBelow_spec (m : HashMap K V) (n idx : Nat)
    (h : idx + n = m._hashTable.length) :
    ∃ j, skipEmptyBelow m n idx = some j ∧ idx ≤ j ∧ j ≤ m._hashTable.length ∧
      (m._hashTable.drop idx).flatten = (m._hashTable.drop j).flatten ∧
      (j < m._hashTable.length → ∃ chain, m._hashTable[j]? = some chain ∧ chain ≠ []) := by
  induction n generalizing idx with
  | zero =>
    refine ⟨idx, rfl, Nat.le_refl _, by omega, rfl, fun hlt => ?_⟩
    omega
  | succ n ih =>
    have hi : idx < m._hashTable.length := by omega
    have hget : m._hashTable[idx]? = some m._hashTable[idx] := List.getElem?_eq_getElem hi
    cases hc : m._hashTable[idx] with
    | nil =>
      obtain ⟨j, h1, h2, h3, h4, h5⟩ := ih (idx + 1) (by omega)
      refine ⟨j, ?_, by omega, h3, ?_, h5⟩
      · simp only [skipEmptyBelow, readBucket, hget, hc, List.isEmpty_nil, if_true, h1]
      · rw [flatten_drop_succ _ idx _ hget, hc, List.nil_append, h4]
    | cons p c =>
      refine ⟨idx, ?_, Nat.le_refl _, Nat.le_of_lt hi, rfl, fun _ => ⟨_, hget, ?_⟩⟩
      · simp only [skipEmptyBelow, readBucket, hget, hc, List.isEmpty_cons,
          Bool.false_eq_true, if_false]
      · rw [hc]; simp

theorem collectFrom_end (fuel : Nat) (it : ConstIterator K V) (h : it._cur = none) :
    collectFrom fuel it = some [] := by
  cases fuel <;> simp [collectFrom, h]

theorem collectFrom_spec (fuel : Nat) (it : ConstIterator K V) (chain : List (K × V))
    (p : K × V) (hlen : it._hashMap._hashTable.length = it._hashMap._capacity)
    (h1 : it._hashMap._hashTable[it._curIdx]? = some chain)
    (h2 : chain[it._curListIter]? = some p) (h3 : it._cur = some p)
    (hf : (chain.drop it._curListIter
      ++ (it._hashMap._hashTable.drop (it._curIdx + 1)).flatten).length ≤ fuel) :
    collectFrom fuel it = some (chain.drop it._curListIter
      ++ (it._hashMap._hashTable.drop (it._curIdx + 1)).flatten) := by
  induction fuel generalizing it chain p with
  | zero =>
    obtain ⟨hpos, _⟩ := List.getElem?_eq_some.mp h2
    simp only [List.length_append, List.length_drop] at hf
    omega
  | succ fuel ih =>
    obtain ⟨hpos, hp⟩ := List.getElem?_eq_some.mp h2
    obtain ⟨hidx, _⟩ := List.getElem?_eq_some.mp h1
    have hdrop : chain.drop it._curListIter = p :: chain.drop (it._curListIter + 1) := by
      rw [List.drop_eq_getElem_cons hpos, hp]
    rw [hdrop] at hf ⊢
    simp only [List.cons_append, List.length_cons] at hf
    rw [List.cons_append]
    simp only [collectFrom, h3, ConstIterator._advanceIterator, readBucket, h1]
    by_cases hne : it._curListIter + 1 ≠ chain.length
    · have hlt : it._curListIter + 1 < chain.length := by omega
      have hq : chain[it._curListIter + 1]? = some chain[it._curListIter + 1] :=
        List.getElem?_eq_getElem hlt
      simp only [if_pos hne, hq]
      have := ih { it with _curListIter := it._curListIter + 1,
                           _cur := some chain[it._curListIter + 1] }
        chain chain[it._curListIter + 1] hlen h1 hq rfl (by dsimp only; omega)
      simp only at this
      rw [this]
      rfl
    · have heq : it._curListIter + 1 = chain.length := by omega
      have hnil : chain.drop (it._curListIter + 1) = [] := by
        rw [List.drop_eq_nil_iff]; omega
      rw [hnil, List.nil_append] at hf ⊢
      obtain ⟨j, hj1, hj2, hj3, hj4, hj5⟩ := skipEmptyBelow_spec it._hashMap
        (it._hashMap._capacity - (it._curIdx + 1)) (it._curIdx + 1) (by omega)
      simp only [if_neg hne, hj1]
      by_cases hge : j ≥ it._hashMap._capacity
      · simp only [if_pos hge]
        rw [collectFrom_end fuel _ rfl, hj4, List.drop_eq_nil_iff.mpr (by omega)]
        rfl
      · have hjlt : j < it._hashMap._hashTable.length := by omega
        obtain ⟨chain1, hc1, hc2⟩ := hj5 hjlt
        obtain ⟨q, hq⟩ : ∃ q, chain1[0]? = some q := by
          cases chain1 with
          | nil => exact absurd rfl hc2
          | cons q c => exact ⟨q, by simp⟩
        simp only [if_neg hge, hc1, hq]
        have hrest : (it._hashMap._hashTable.drop (it._curIdx + 1)).flatten
            = chain1.drop 0 ++ (it._hashMap._hashTable.drop (j + 1)).flatten := by
          rw [hj4, flatten_drop_succ _ j _ hc1]; rfl
        have := ih { it with _curIdx := j, _curListIter := 0, _cur := some q }
          chain1 q hlen hc1 hq rfl (by dsimp only; rw [← hrest]; omega)
        simp only at this
        rw [this, ← hrest]
        rfl

theorem begin_spec [DecidableEq K] (hash : K → Nat) (m : HashMap K V) (hm : Inv hash m) :
    ∃ it, begin m = some it ∧ it._hashMap = m ∧
      (m._size = 0 → it._cur = none) ∧
      ∀ fuel, (toList m).length ≤ fuel → collectFrom fuel it = some (toList m) := by
  have hcopy := copy_eq_self hash m hm
  by_cases hs : m._size = 0
  · have hnil : toList m = [] := List.length_eq_zero.mp (hm.size_eq ▸ hs)
    refine ⟨{ _hashMap := m, _cur := none, _curIdx := 0, _curListIter := 0 }, ?_, rfl,
      fun _ => rfl, fun fuel _ => ?_⟩
    · simp [begin, ConstIterator.ofMap, hcopy, empty, hs]
    · rw [hnil]; exact collectFrom_end fuel _ rfl
  · have hne : m._hashTable.flatten ≠ [] := by
      intro h
      apply hs
      rw [hm.size_eq, toList, h]; rfl
    obtain ⟨j, chain, h1, h2, h3, h4⟩ := skipEmptyFrom_spec m._hashTable 0 hne
    rw [Nat.zero_add] at h1
    obtain ⟨q, hq⟩ : ∃ q, chain[0]? = some q := by
      cases chain with
      | nil => exact absurd rfl h3
      | cons q c => exact ⟨q, by simp⟩
    have hb : bucket m j = chain := by
      simp [bucket, List.getD_eq_getElem?_getD, h2]
    refine ⟨{ _hashMap := m, _cur := some q, _curIdx := j, _curListIter := 0 }, ?_, rfl,
      fun h => absurd h hs, fun fuel hf => ?_⟩
    · simp [begin, ConstIterator.ofMap, hcopy, empty, hs, h1, hb, hq]
    · have := collectFrom_spec fuel
        { _hashMap := m, _cur := some q, _curIdx := j, _curListIter := 0 } chain q hm.len
        h2 hq rfl (by simp only [List.drop_zero]; rw [← h4]; exact hf)
      simp only [List.drop_zero] at this
      rw [this, ← h4]; rfl

theorem iterate_eq_toList [DecidableEq K] (hash : K → Nat) (m : HashMap K V) (fuel : Nat)
    (hm : Inv hash m) (hf : (toList m).length ≤ fuel) : iterate fuel m = some (toList m) := by
  obtain ⟨it, h1, _, _, h4⟩ := begin_spec hash m hm
  simp only [iterate, h1, h4 fuel hf]

/-! ## What a rehash does to the chains -/

theorem rebuildFrom_fields (hash : K → Nat) (ps : List (K × V)) (acc : HashMap K V) :
    (rebuildFrom hash acc ps)._capacity = acc._capacity ∧
      (rebuildFrom hash acc ps)._upperSizeLimit = acc._upperSizeLimit ∧
      (rebuildFrom hash acc ps)._lowerSizeLimit = acc._lowerSizeLimit ∧
      (rebuildFrom hash acc ps)._size = acc._size + ps.length ∧
      (rebuildFrom hash acc ps)._hashTable.length = acc._hashTable.length := by
  induction ps generalizing acc with
  | nil => exact ⟨rfl, rfl, rfl, rfl, rfl⟩
  | cons p ps ih =>
    have h := ih (pushBack hash acc p.1 p.2)
    simp only [pushBack_capacity, pushBack_upper, pushBack_lower, pushBack_size,
      pushBack_length] at h
    simp only [rebuildFrom, List.foldl_cons, List.length_cons] at h ⊢
    refine ⟨h.1, h.2.1, h.2.2.1, ?_, h.2.2.2.2⟩
    rw [h.2.2.2.1]; omega

theorem bucket_rebuildFrom (hash : K → Nat) (ps : List (K × V)) (acc : HashMap K V)
    (i : Nat) (hc : ∃ e, acc._capacity = 2 ^ e)
    (hl : acc._hashTable.length = acc._capacity) :
    bucket (rebuildFrom hash acc ps) i
      = bucket acc i ++ ps.filter (fun p => decide (hash p.1 &&& (acc._capacity - 1) = i)) := by
  induction ps generalizing acc with
  | nil => simp [rebuildFrom]
  | cons p ps ih =>
    have hlt : _findHash hash acc p.1 < acc._hashTable.length := by
      rw [hl]; exact findHash_lt hash acc p.1 hc
    have h := ih (pushBack hash acc p.1 p.2) hc (by rw [pushBack_length, hl]; rfl)
    simp only [pushBack_capacity] at h
    simp only [rebuildFrom, List.foldl_cons] at h ⊢
    rw [h, bucket_pushBack hash acc p.1 p.2 i hlt, List.filter_cons]
    by_cases hi : hash p.1 &&& (acc._capacity - 1) = i
    · have hi2 : i = _findHash hash acc p.1 := hi.symm
      simp only [hi, decide_True, if_true]
      rw [if_pos hi2, List.append_assoc]
      rfl
    · have hi2 : ¬ i = _findHash hash acc p.1 := fun e => hi e.symm
      simp only [hi, decide_False, Bool.false_eq_true, if_false]
      rw [if_neg hi2]

theorem bucket_sublist_toList (m : HashMap K V) (j : Nat) :
    (bucket m j).Sublist (toList m) := by
  by_cases hj : j < m._hashTable.length
  · have : bucket m j = m._hashTable[j] := by
      simp [bucket, List.getD_eq_getElem?_getD, List.getElem?_eq_getElem hj]
    rw [this]
    exact List.sublist_flatten_of_mem (List.getElem_mem hj)
  · have : bucket m j = [] := by
      simp [bucket, List.getD_eq_getElem?_getD, List.getElem?_eq_none (Nat.le_of_not_lt hj)]
    rw [this]
    exact List.nil_sublist _

/-- The table rebuilt from the pairs of `m0` at a capacity with room for them is the
rehash of `m0`. -/
theorem rehashed_rebuild (hash : K → Nat) (m0 : HashMap K V) (c : Nat)
    (hnd : ((toList m0).map Prod.fst).Nodup) (hsz : m0._size = (toList m0).length)
    (hc : ∃ e, c = 2 ^ e) (hroom : (toList m0).length ≤ c * 3 / 4) :
    Rehashed hash m0 (rebuildFrom hash (_init c) (toList m0)) c := by
  have h := inv_rebuild hash m0 c hnd hc hroom
  have hb : ∀ i, bucket (rebuildFrom hash (_init c) (toList m0)) i
      = (toList m0).filter (fun p => decide (hash p.1 &&& (c - 1) = i)) := by
    intro i
    rw [bucket_rebuildFrom hash (toList m0) (_init c) i hc (by simp [_init]), bucket_init]
    rfl
  refine ⟨h.2.2, ?_, h.2.1, ?_, hb, ?_⟩
  · rw [h.1.size_eq, h.2.1.length_eq, hsz]
  · intro i p hp
    have := h.1.idx i p hp
    rw [_findHash, h.2.2] at this
    exact this
  · intro i j
    rw [hb i]
    exact (bucket_sublist_toList m0 j).filter _

theorem mem_bucket_iff (hash : K → Nat) (m : HashMap K V) (i : Nat) (p : K × V)
    (hm : Inv hash m) : p ∈ bucket m i ↔ p ∈ toList m ∧ _findHash hash m p.1 = i := by
  constructor
  · intro h
    exact ⟨(mem_toList_iff m p).mpr ⟨i, h⟩, hm.idx i p h⟩
  · rintro ⟨h, rfl⟩
    exact (mem_toList_iff_bucket hash m p hm.idx).mp h

theorem table_eq_map_bucket (hash : K → Nat) (m : HashMap K V) (hm : Inv hash m) :
    m._hashTable = (List.range m._capacity).map (fun i => bucket m i) := by
  apply List.ext_getElem
  · simp [hm.len]
  · intro n h1 h2
    simp [bucket, List.getD_eq_getElem?_getD, List.getElem?_eq_getElem h1]

theorem addNew_one_of_full (hash : K → Nat) (m : HashMap K V) (k : K) (v : V)
    (h : m._size + 1 > m._upperSizeLimit) : _addNew hash 1 m k v = none := by
  simp [_addNew, h, _reHash]

/-! ## The table as the list of its chains, two inserts in either order -/

theorem toList_eq_buckets (hash : K → Nat) (m : HashMap K V) (hm : Inv hash m) :
    toList m = ((List.range m._capacity).map (fun i => bucket m i)).flatten := by
  rw [← table_eq_map_bucket hash m hm]; rfl

theorem size_eq_sum_buckets (hash : K → Nat) (m : HashMap K V) (hm : Inv hash m) :
    m._size = ((List.range m._capacity).map (fun i => (bucket m i).length)).sum := by
  rw [hm.size_eq, toList_eq_buckets hash m hm, List.length_flatten, List.map_map]
  rfl

theorem noNestedRehash_of_room (hash : K → Nat) (m0 : HashMap K V) (c : Nat)
    (hroom : (toList m0).length ≤ c * 3 / 4) : NoNestedRehash hash m0 c := by
  intro n hn
  have hlen : ((toList m0).take n).length = n := by
    rw [List.length_take]; omega
  have hf := rebuildFrom_fields hash ((toList m0).take n) (_init c)
  refine ⟨foldlM_addNew_of_room hash 0 _ _ ?_, ?_⟩
  · rw [hlen]; simp only [_init]; omega
  · rw [hf.2.2.2.1, hf.2.1, hlen]; simp only [_init]; omega

theorem operator_eq_of_perm [DecidableEq K] [DecidableEq V] (hash : K → Nat)
    (a b : HashMap K V) (ha : Inv hash a) (hb : Inv hash b)
    (hc : a._capacity = b._capacity) (hp : (toList a).Perm (toList b)) :
    operator_eq a b = true := by
  rw [operator_eq_iff hash a b ha hb]
  refine ⟨hc, ?_, fun i _ p => ?_⟩
  · rw [ha.size_eq, hb.size_eq, hp.length_eq]
  · rw [mem_bucket_iff hash a i p ha, mem_bucket_iff hash b i p hb, hp.mem_iff,
      _findHash, _findHash, hc]

theorem contains_added_other [DecidableEq K] (hash : K → Nat) (m : HashMap K V)
    (k k1 : K) (v : V) (hm : Inv hash m) (hk : contains_key hash m k = false)
    (hk1 : contains_key hash m k1 = false) (hne : k1 ≠ k) :
    contains_key hash (added hash m k v) k1 = false := by
  have hadd := added_spec hash m k v hm hk
  cases h : contains_key hash (added hash m k v) k1 with
  | false => rfl
  | true =>
    obtain ⟨w, hw⟩ := (contains_key_iff hash _ k1 hadd.1.idx).mp h
    rw [hadd.2.1.mem_iff, List.mem_append, List.mem_singleton] at hw
    rcases hw with hw | hw
    · have := (contains_key_iff hash m k1 hm.idx).mpr ⟨w, hw⟩
      rw [hk1] at this; cases this
    · exact absurd (Prod.mk.inj hw).1 hne

/-! ## The claims -/

/-- C1: on a reachable map, `insert(k, v)` of a key that is not contained returns
`true`; afterwards `contains_key(k)` holds, `at(k)` returns `v` and the size is the old
size plus one. This holds for every hash function. -/
theorem insert_absent_key [DecidableEq K] [Inhabited V] (hash : K → Nat) (m : HashMap K V)
    (k : K) (v : V) (fuel : Nat) (hr : Reachable hash m)
    (hk : contains_key hash m k = false) (hf : 3 ≤ fuel) :
    ∃ m1, insert hash fuel m k v = some (true, m1) ∧ contains_key hash m1 k = true ∧
      at_ hash m1 k = Except.ok v ∧ size m1 = size m + 1 := by
  have hm := reachable_inv hash m hr
  have ha := added_spec hash m k v hm hk
  have hmem : (k, v) ∈ toList (added hash m k v) := ha.2.1.mem_iff.mpr (by simp)
  exact ⟨added hash m k v, insert_eq_added hash fuel m k v hm hk hf,
    (contains_key_iff hash _ k ha.1.idx).mpr ⟨v, hmem⟩,
    at_eq_ok hash _ k v ha.1 hmem, ha.2.2.2⟩

/-- Witness of C1: the thirteenth insert into a default map (the hash of a number is
the number), which has to grow the table first. -/
theorem insert_absent_key_witness :
    insertMany natHash 3 (new : HashMap Nat Nat) ((List.range 12).map (fun i => (i, 10 * i)))
      = some (List.replicate 12 true,
          rebuildFrom natHash new ((List.range 12).map (fun i => (i, 10 * i)))) ∧
    contains_key natHash
      (rebuildFrom natHash (new : HashMap Nat Nat) ((List.range 12).map (fun i => (i, 10 * i))))
      12 = false ∧
    ∃ m1, insert natHash 3
        (rebuildFrom natHash (new : HashMap Nat Nat)
          ((List.range 12).map (fun i => (i, 10 * i)))) 12 120 = some (true, m1) ∧
      contains_key natHash m1 12 = true ∧ at_ natHash m1 12 = Except.ok 120 ∧
      size m1 = size (rebuildFrom natHash (new : HashMap Nat Nat)
          ((List.range 12).map (fun i => (i, 10 * i)))) + 1 :=
  ⟨by decide, by decide,
    insert_absent_key natHash _ 12 120 3
      (reachable_insertMany natHash 3 ((List.range 12).map (fun i => (i, 10 * i))) new _
        (List.replicate 12 true) Reachable.new (by decide))
      (by decide) (by decide)⟩

/-- C2: on a reachable map, `insert(k, v)` of a key that is already contained returns
`false` and hands back the very map it was given (same size, same capacity, same
chains), so `at(k)` still returns the value `w` that is stored with `k`, not `v`. -/
theorem insert_contained_key [DecidableEq K] [Inhabited V] (hash : K → Nat)
    (m : HashMap K V) (k : K) (v : V) (fuel : Nat) (hr : Reachable hash m)
    (hk : contains_key hash m k = true) :
    insert hash fuel m k v = some (false, m) ∧
      ∃ w, (k, w) ∈ toList m ∧ at_ hash m k = Except.ok w := by
  have hm := reachable_inv hash m hr
  obtain ⟨w, hw⟩ := (contains_key_iff hash m k hm.idx).mp hk
  exact ⟨insert_eq_of_contains hash fuel m k v hk, w, hw, at_eq_ok hash m k w hm hw⟩

/-- Witness of C2, the example of the specification: a default map after
`insert("a", 1)` and `insert("b", 2)`; the third call `insert("a", 3)` returns `false`,
`at("a")` is `1` and the size is `2`. First for every hash function, then evaluated for
one. -/
theorem insert_contained_key_witness :
    (∀ (hash : String → Nat) (fuel : Nat), 3 ≤ fuel →
      ∃ m1 m2 : HashMap String Nat, insert hash fuel new "a" 1 = some (true, m1) ∧
        insert hash fuel m1 "b" 2 = some (true, m2) ∧
        insert hash fuel m2 "a" 3 = some (false, m2) ∧
        at_ hash m2 "a" = Except.ok 1 ∧ size m2 = 2) ∧
    insertMany strHash 3 (new : HashMap String Nat) [("a", 1), ("b", 2)]
      = some ([true, true], rebuildFrom strHash new [("a", 1), ("b", 2)]) ∧
    contains_key strHash
      (rebuildFrom strHash (new : HashMap String Nat) [("a", 1), ("b", 2)]) "a" = true ∧
    (insert strHash 3 (rebuildFrom strHash (new : HashMap String Nat) [("a", 1), ("b", 2)])
        "a" 3
      = some (false, rebuildFrom strHash new [("a", 1), ("b", 2)]) ∧
      ∃ w, ("a", w) ∈ toList (rebuildFrom strHash (new : HashMap String Nat)
          [("a", 1), ("b", 2)]) ∧
        at_ strHash (rebuildFrom strHash (new : HashMap String Nat) [("a", 1), ("b", 2)]) "a"
          = Except.ok w) ∧
    at_ strHash (rebuildFrom strHash (new : HashMap String Nat) [("a", 1), ("b", 2)]) "a"
      = Except.ok 1 ∧
    size (rebuildFrom strHash (new : HashMap String Nat) [("a", 1), ("b", 2)]) = 2 :=
  ⟨fun hash fuel hf => example_duplicate_insert hash fuel hf, by decide, by decide,
    insert_contained_key strHash _ "a" 3 3
      (reachable_insertMany strHash 3 [("a", 1), ("b", 2)] new _ [true, true]
        Reachable.new (by decide))
      (by decide),
    by rfl, by decide⟩

/-- C3: each of `at(k)`, `bucket_size(k)` and `bucket_index(k)` throws
`std::out_of_range` exactly when `contains_key(k)` is false, and returns a value exactly
when it is true. The three are functions of the map that return only their result: they
assign no member. -/
theorem lookup_throws_iff_absent [DecidableEq K] [Inhabited V] (hash : K → Nat)
    (m : HashMap K V) (k : K) :
    ((at_ hash m k = Except.error MapError.out_of_range ↔ contains_key hash m k = false) ∧
      ((∃ r, at_ hash m k = Except.ok r) ↔ contains_key hash m k = true)) ∧
    ((bucket_size hash m k = Except.error MapError.out_of_range
        ↔ contains_key hash m k = false) ∧
      ((∃ r, bucket_size hash m k = Except.ok r) ↔ contains_key hash m k = true)) ∧
    ((bucket_index hash m k = Except.error MapError.out_of_range
        ↔ contains_key hash m k = false) ∧
      ((∃ r, bucket_index hash m k = Except.ok r) ↔ contains_key hash m k = true)) := by
  cases hc : contains_key hash m k with
  | false => simp [at_, bucket_size, bucket_index, hc]
  | true =>
    simp only [at_, bucket_size, bucket_index, hc, Bool.not_true, Bool.false_eq_true,
      if_false]
    refine ⟨⟨⟨?_, ?_⟩, ⟨?_, ?_⟩⟩, ⟨⟨?_, ?_⟩, ⟨?_, ?_⟩⟩, ⟨⟨?_, ?_⟩, ⟨?_, ?_⟩⟩⟩
    · intro h; split at h <;> cases h
    · intro h; cases h
    · intro _; trivial
    · intro _; split
      · exact ⟨_, rfl⟩
      · exact ⟨_, rfl⟩
    · intro h; cases h
    · intro h; cases h
    · intro _; trivial
    · intro _; exact ⟨_, rfl⟩
    · intro h; cases h
    · intro h; cases h
    · intro _; trivial
    · intro _; exact ⟨_, rfl⟩

/-- C4: inserting `n` pairs with pairwise distinct keys one by one into a default map
succeeds every time (each call returns `true`), whatever the hash function and however
often the table had to grow; afterwards the size is `n` and every inserted key is
contained. -/
theorem insert_distinct_keys [DecidableEq K] (hash : K → Nat) (kvs : List (K × V))
    (fuel : Nat) (hnd : (kvs.map Prod.fst).Nodup) (hf : 3 ≤ fuel) :
    ∃ m, insertMany hash fuel new kvs = some (List.replicate kvs.length true, m) ∧
      size m = kvs.length ∧ ∀ k, k ∈ kvs.map Prod.fst → contains_key hash m k = true := by
  obtain ⟨m, h1, h2, h3⟩ := insertMany_spec hash fuel kvs new (inv_new hash) hnd
    (by intro k _; simp [new, _init, toList]) hf
  refine ⟨m, h1, ?_, ?_⟩
  · have := h3.length_eq
    simp only [new, _init, toList, List.length_append] at this
    simp only [size, h2.size_eq, toList, this]
    simp
  · intro k hk
    rw [contains_key_iff_keys hash m k h2.idx, (h3.map Prod.fst).mem_iff]
    simp only [List.map_append, List.mem_append]
    exact Or.inr hk

/-- Witness of C4: forty keys that all fall into bucket 0 of the default table (their
hashes are multiples of 64); the table grows twice on the way. -/
theorem insert_distinct_keys_witness :
    (((List.range 40).map (fun i => (64 * i, i))).map Prod.fst).Nodup ∧
    ∃ m, insertMany natHash 3 (new : HashMap Nat Nat) ((List.range 40).map (fun i => (64 * i, i)))
        = some (List.replicate ((List.range 40).map (fun i => (64 * i, i))).length true, m) ∧
      size m = ((List.range 40).map (fun i => (64 * i, i))).length ∧
      ∀ k, k ∈ ((List.range 40).map (fun i => (64 * i, i))).map Prod.fst →
        contains_key natHash m k = true :=
  ⟨by decide, insert_distinct_keys natHash _ 3 (by decide) (by decide)⟩

/-- C5: the map built from two ranges of equal length contains exactly the keys of the
key range, `at(k)` is the value at the position of the last occurrence of `k` in the key
range (a later duplicate overwrites), and the size is the number of distinct keys. -/
theorem fromRange_content [DecidableEq K] [Inhabited V] (hash : K → Nat) (keys : List K)
    (values : List V) (fuel : Nat) (hlen : keys.length = values.length) (hf : 3 ≤ fuel) :
    ∃ m, fromRange hash fuel keys values = some (Except.ok m) ∧
      (∀ k, contains_key hash m k = true ↔ k ∈ keys) ∧
      (∀ (i : Nat) (k : K) (v : V), keys[i]? = some k → values[i]? = some v →
        (∀ j : Nat, i < j → keys[j]? ≠ some k) → at_ hash m k = Except.ok v) ∧
      size m = keys.toFinset.card := by
  obtain ⟨m, h1, hm, h3⟩ := fromRange_eq_ok hash fuel keys values hlen hf
  have hkeys : ∀ k, k ∈ (toList m).map Prod.fst ↔ k ∈ keys := by
    intro k
    have hz : (keys.zip values).map Prod.fst = keys :=
      List.map_fst_zip keys values (Nat.le_of_eq hlen)
    constructor
    · intro h
      obtain ⟨p, hp, hpk⟩ := List.mem_map.mp h
      have hp1 : (k, p.2) ∈ toList m := by rw [← hpk]; exact hp
      have := (h3 k p.2).mp hp1
      by_contra hn
      rw [← hz] at hn
      rw [(lastValue_eq_none_iff k _).mpr hn] at this
      cases this
    · intro h
      rw [← hz] at h
      cases hl : lastValue k (keys.zip values) with
      | none => exact absurd h ((lastValue_eq_none_iff k _).mp hl)
      | some v => exact List.mem_map.mpr ⟨(k, v), (h3 k v).mpr hl, rfl⟩
  refine ⟨m, h1, ?_, ?_, ?_⟩
  · intro k
    rw [contains_key_iff_keys hash m k hm.idx, hkeys]
  · intro i k v hk hv hlast
    exact at_eq_ok hash m k v hm
      ((h3 k v).mpr (lastValue_of_index keys values i k v hk hv hlast))
  · have e : ((toList m).map Prod.fst).toFinset = keys.toFinset := by
      ext k
      simp only [List.mem_toFinset]
      exact hkeys k
    rw [← e, List.toFinset_card_of_nodup hm.nodup, List.length_map]
    exact hm.size_eq

/-- Witness of C5: keys `[1, 2, 1, 3]` with values `[10, 20, 30, 40]`; the second
occurrence of key `1` overwrites the first. -/
theorem fromRange_content_witness :
    ([1, 2, 1, 3] : List Nat).length = ([10, 20, 30, 40] : List Nat).length ∧
    (∃ m, fromRange natHash 3 [1, 2, 1, 3] [10, 20, 30, 40] = some (Except.ok m) ∧
      (∀ k, contains_key natHash m k = true ↔ k ∈ [1, 2, 1, 3]) ∧
      (∀ (i k v : Nat), ([1, 2, 1, 3] : List Nat)[i]? = some k →
        ([10, 20, 30, 40] : List Nat)[i]? = some v →
        (∀ j : Nat, i < j → ([1, 2, 1, 3] : List Nat)[j]? ≠ some k) →
        at_ natHash m k = Except.ok v) ∧
      size m = ([1, 2, 1, 3] : List Nat).toFinset.card) ∧
    (fromRange natHash 3 [1, 2, 1, 3] [10, 20, 30, 40]).map
        (fun r => r.toOption.map (fun m => (at_ natHash m 1).toOption))
      = some (some (some 30)) ∧
    ([1, 2, 1, 3] : List Nat).toFinset.card = 3 :=
  ⟨by decide, fromRange_content natHash [1, 2, 1, 3] [10, 20, 30, 40] 3 (by decide)
    (by decide), by decide, by decide⟩

/-- C6: the constructor from two ranges throws `std::invalid_argument` exactly when the
ranges have different lengths, and returns a map exactly when they have the same length;
the default constructor gives capacity 16, size 0 and a map that contains no key. -/
theorem constructor_results [DecidableEq K] (hash : K → Nat) (keys : List K)
    (values : List V) (fuel : Nat) (hf : 3 ≤ fuel) :
    (fromRange hash fuel keys values = some (Except.error MapError.invalid_argument)
        ↔ keys.length ≠ values.length) ∧
    ((∃ m, fromRange hash fuel keys values = some (Except.ok m))
        ↔ keys.length = values.length) ∧
    capacity (new : HashMap K V) = 16 ∧ size (new : HashMap K V) = 0 ∧
    ∀ k, contains_key hash (new : HashMap K V) k = false := by
  refine ⟨?_, ?_, rfl, rfl, ?_⟩
  · by_cases hlen : keys.length = values.length
    · obtain ⟨m, h1, _⟩ := fromRange_eq_ok hash fuel keys values hlen hf
      rw [h1]
      constructor
      · intro h; cases h
      · intro h; exact absurd hlen h
    · simp [fromRange, hlen]
  · by_cases hlen : keys.length = values.length
    · obtain ⟨m, h1, _⟩ := fromRange_eq_ok hash fuel keys values hlen hf
      exact ⟨fun _ => hlen, fun _ => ⟨m, h1⟩⟩
    · constructor
      · rintro ⟨m, h⟩
        simp [fromRange, hlen] at h
      · intro h; exact absurd h hlen
  · intro k
    cases h : contains_key hash (new : HashMap K V) k with
    | false => rfl
    | true =>
      have := (contains_key_iff hash _ k (inv_new hash).idx).mp h
      simp [new, _init, toList] at this

/-- Witness of C6: three keys with two values throw, three keys with three values do
not. -/
theorem constructor_results_witness :
    fromRange natHash 3 [1, 2, 3] [10, 20] = some (Except.error MapError.invalid_argument) ∧
    ((fromRange natHash 3 [1, 2, 3] [10, 20] = some (Except.error MapError.invalid_argument)
        ↔ ([1, 2, 3] : List Nat).length ≠ ([10, 20] : List Nat).length) ∧
      ((∃ m, fromRange natHash 3 [1, 2, 3] [10, 20] = some (Except.ok m))
        ↔ ([1, 2, 3] : List Nat).length = ([10, 20] : List Nat).length) ∧
      capacity (new : HashMap Nat Nat) = 16 ∧ size (new : HashMap Nat Nat) = 0 ∧
      ∀ k, contains_key natHash (new : HashMap Nat Nat) k = false) :=
  ⟨rfl, constructor_results natHash [1, 2, 3] [10, 20] 3 (by decide)⟩

/-- C7: on a reachable map `erase(k)` returns `true` exactly when `contains_key(k)`
held before the call, and in either case `contains_key(k)` is false afterwards. -/
theorem erase_result [DecidableEq K] [Inhabited V] (hash : K → Nat) (m : HashMap K V)
    (k : K) (fuel : Nat) (hr : Reachable hash m) (hf : 2 ≤ fuel) :
    ∃ b m1, erase hash fuel m k = some (b, m1) ∧
      (b = true ↔ contains_key hash m k = true) ∧ contains_key hash m1 k = false := by
  have hm := reachable_inv hash m hr
  cases hk : contains_key hash m k with
  | true =>
    exact ⟨true, erased hash m k, erase_eq_erased hash fuel m k hm hk hf, by simp,
      (erased_content hash m k hm hk).1⟩
  | false =>
    exact ⟨false, m, by simp [erase, hk], by simp, hk⟩

/-- Witness of C7: erasing key `2` from the map built from keys `[1, 2, 3]`. -/
theorem erase_result_witness :
    fromRange natHash 3 [1, 2, 3] [10, 20, 30]
      = some (Except.ok (rebuildFrom natHash new [(1, 10), (2, 20), (3, 30)])) ∧
    ∃ b m1, erase natHash 3 (rebuildFrom natHash (new : HashMap Nat Nat)
        [(1, 10), (2, 20), (3, 30)]) 2 = some (b, m1) ∧
      (b = true ↔ contains_key natHash (rebuildFrom natHash (new : HashMap Nat Nat)
        [(1, 10), (2, 20), (3, 30)]) 2 = true) ∧
      contains_key natHash m1 2 = false :=
  ⟨rfl, erase_result natHash _ 2 3 (reachable_fromRange natHash 3 [1, 2, 3] [10, 20, 30] _ (by rfl)) (by decide)⟩

/-- C8: `erase(k)` of a key that is not contained returns `false` and hands back the
very map it was given: size, capacity and every chain are the same, and no shrink
happens, also when the size is below the lower limit. -/
theorem erase_absent_key [DecidableEq K] (hash : K → Nat) (m : HashMap K V) (k : K)
    (fuel : Nat) (hk : contains_key hash m k = false) :
    erase hash fuel m k = some (false, m) := by
  simp [erase, hk]

/-- Witness of C8: the default map has size 0 below its lower limit 4; erasing an
absent key leaves it as it is, at capacity 16. -/
theorem erase_absent_key_witness :
    size (new : HashMap Nat Nat) < (new : HashMap Nat Nat)._lowerSizeLimit ∧
    contains_key natHash (new : HashMap Nat Nat) 7 = false ∧
    erase natHash 3 (new : HashMap Nat Nat) 7 = some (false, new) ∧
    capacity (new : HashMap Nat Nat) = 16 :=
  ⟨by decide, by decide, erase_absent_key natHash new 7 3 (by decide), by decide⟩

/-- C9: on a reachable map `erase(k)` of a contained key returns `true`, makes the size
one smaller and leaves `contains_key` and `at` of every other key as they were, also
when the table is rehashed at half the capacity. -/
theorem erase_frame [DecidableEq K] [Inhabited V] (hash : K → Nat) (m : HashMap K V)
    (k : K) (fuel : Nat) (hr : Reachable hash m) (hk : contains_key hash m k = true)
    (hf : 2 ≤ fuel) :
    ∃ m1, erase hash fuel m k = some (true, m1) ∧ size m1 + 1 = size m ∧
      ∀ k1, k1 ≠ k →
        contains_key hash m1 k1 = contains_key hash m k1 ∧ at_ hash m1 k1 = at_ hash m k1 := by
  have hm := reachable_inv hash m hr
  have he := erased_spec hash m k hm hk
  refine ⟨erased hash m k, erase_eq_erased hash fuel m k hm hk hf, he.2.2.2, ?_⟩
  intro k1 hne
  exact lookup_congr hash m (erased hash m k) k1 hm he.1
    (fun v => (erased_content hash m k hm hk).2 k1 v hne)

/-- Witness of C9, the example of the specification: the map built from keys
`[1, 2, 3]` and values `[10, 20, 30]`, then `erase(2)`: the size is 2, key 2 is gone and
the stored pairs are `(1, 10)` and `(3, 30)`. First for every hash function, then
evaluated for one, where the table was rehashed at capacity 8. -/
theorem erase_frame_witness :
    (∀ (hash : Nat → Nat) (fuel : Nat), 3 ≤ fuel →
      ∃ m m1 : HashMap Nat Nat,
        fromRange hash fuel [1, 2, 3] [10, 20, 30] = some (Except.ok m) ∧
        erase hash fuel m 2 = some (true, m1) ∧ size m1 = 2 ∧
        contains_key hash m1 2 = false ∧ (toList m1).Perm [(1, 10), (3, 30)]) ∧
    fromRange natHash 3 [1, 2, 3] [10, 20, 30]
      = some (Except.ok (rebuildFrom natHash new [(1, 10), (2, 20), (3, 30)])) ∧
    contains_key natHash (rebuildFrom natHash (new : HashMap Nat Nat)
      [(1, 10), (2, 20), (3, 30)]) 2 = true ∧
    (∃ m1, erase natHash 3 (rebuildFrom natHash (new : HashMap Nat Nat)
        [(1, 10), (2, 20), (3, 30)]) 2 = some (true, m1) ∧
      size m1 + 1 = size (rebuildFrom natHash (new : HashMap Nat Nat)
        [(1, 10), (2, 20), (3, 30)]) ∧
      ∀ k1, k1 ≠ 2 →
        contains_key natHash m1 k1 = contains_key natHash (rebuildFrom natHash
          (new : HashMap Nat Nat) [(1, 10), (2, 20), (3, 30)]) k1 ∧
        at_ natHash m1 k1 = at_ natHash (rebuildFrom natHash (new : HashMap Nat Nat)
          [(1, 10), (2, 20), (3, 30)]) k1) ∧
    erase natHash 3 (rebuildFrom natHash (new : HashMap Nat Nat)
        [(1, 10), (2, 20), (3, 30)]) 2
      = some (true, rebuildFrom natHash (_init 8) [(1, 10), (3, 30)]) ∧
    size (rebuildFrom natHash (_init 8 : HashMap Nat Nat) [(1, 10), (3, 30)]) = 2 ∧
    contains_key natHash (rebuildFrom natHash (_init 8 : HashMap Nat Nat)
      [(1, 10), (3, 30)]) 2 = false ∧
    toList (rebuildFrom natHash (_init 8 : HashMap Nat Nat) [(1, 10), (3, 30)])
      = [(1, 10), (3, 30)] :=
  ⟨fun hash fuel hf => example_erase hash fuel hf, rfl, by decide,
    erase_frame natHash _ 2 3 (reachable_fromRange natHash 3 [1, 2, 3] [10, 20, 30] _ (by rfl)) (by decide) (by decide),
    by decide, by decide, by decide, by decide⟩

/-- C10: on a reachable map `insert(k, v)` of a key that is not contained doubles the
capacity when `size + 1 > upper_limit` held before the call and leaves it as it is
otherwise, where `upper_limit` is `capacity * 3 / 4` rounded down. -/
theorem insert_capacity [DecidableEq K] [Inhabited V] (hash : K → Nat) (m : HashMap K V)
    (k : K) (v : V) (fuel : Nat) (hr : Reachable hash m)
    (hk : contains_key hash m k = false) (hf : 3 ≤ fuel) :
    m._upperSizeLimit = capacity m * 3 / 4 ∧
    ∃ m1, insert hash fuel m k v = some (true, m1) ∧
      capacity m1 = if size m + 1 > m._upperSizeLimit then 2 * capacity m else capacity m := by
  have hm := reachable_inv hash m hr
  have ha := added_spec hash m k v hm hk
  refine ⟨hm.upper, added hash m k v, insert_eq_added hash fuel m k v hm hk hf, ?_⟩
  simp only [capacity, size, ha.2.2.1, Nat.mul_comm]

/-- Witness of C10, the example of the specification: thirteen distinct keys into a
default map (capacity 16, upper limit 12). The capacity stays 16 through the twelfth
insert and is 32 after the thirteenth. First for every hash function and every thirteen
distinct keys, then evaluated for the keys 0 to 12. -/
theorem insert_capacity_witness :
    (∀ (hash : Nat → Nat) (fuel : Nat) (kvs : List (Nat × Nat)) (k v : Nat), 3 ≤ fuel →
      kvs.length = 12 → ((kvs ++ [(k, v)]).map Prod.fst).Nodup →
      (∀ n, n ≤ 12 → ∃ m, insertMany hash fuel new (kvs.take n)
          = some (List.replicate n true, m) ∧ capacity m = 16) ∧
      ∃ m12 m13, insertMany hash fuel new kvs = some (List.replicate 12 true, m12) ∧
        insert hash fuel m12 k v = some (true, m13) ∧ capacity m13 = 32) ∧
    capacity (new : HashMap Nat Nat) = 16 ∧ (new : HashMap Nat Nat)._upperSizeLimit = 12 ∧
    (∀ n, n ≤ 12 →
      (insertMany natHash 3 (new : HashMap Nat Nat) ((List.range n).map (fun i => (i, i)))).map
        (fun r => capacity r.2) = some 16) ∧
    insertMany natHash 3 (new : HashMap Nat Nat) ((List.range 12).map (fun i => (i, i)))
      = some (List.replicate 12 true,
          rebuildFrom natHash new ((List.range 12).map (fun i => (i, i)))) ∧
    contains_key natHash (rebuildFrom natHash (new : HashMap Nat Nat)
      ((List.range 12).map (fun i => (i, i)))) 12 = false ∧
    ((rebuildFrom natHash (new : HashMap Nat Nat)
        ((List.range 12).map (fun i => (i, i))))._upperSizeLimit
      = capacity (rebuildFrom natHash (new : HashMap Nat Nat)
        ((List.range 12).map (fun i => (i, i)))) * 3 / 4 ∧
      ∃ m1, insert natHash 3 (rebuildFrom natHash (new : HashMap Nat Nat)
          ((List.range 12).map (fun i => (i, i)))) 12 12 = some (true, m1) ∧
        capacity m1 = if size (rebuildFrom natHash (new : HashMap Nat Nat)
            ((List.range 12).map (fun i => (i, i)))) + 1
            > (rebuildFrom natHash (new : HashMap Nat Nat)
              ((List.range 12).map (fun i => (i, i))))._upperSizeLimit
          then 2 * capacity (rebuildFrom natHash (new : HashMap Nat Nat)
            ((List.range 12).map (fun i => (i, i))))
          else capacity (rebuildFrom natHash (new : HashMap Nat Nat)
            ((List.range 12).map (fun i => (i, i))))) ∧
    (insert natHash 3 (rebuildFrom natHash (new : HashMap Nat Nat)
        ((List.range 12).map (fun i => (i, i)))) 12 12).map (fun r => capacity r.2)
      = some 32 :=
  ⟨fun hash fuel kvs k v hf hlen hnd => example_growth hash fuel kvs k v hf hlen hnd,
    by decide, by decide, by decide, by decide, by decide,
    insert_capacity natHash _ 12 12 3
      (reachable_insertMany natHash 3 ((List.range 12).map (fun i => (i, i))) new _
        (List.replicate 12 true) Reachable.new (by decide))
      (by decide) (by decide),
    by decide⟩

/-- C11: on a reachable map `erase(k)` of a contained key halves the capacity, once,
when the size after the removal is strictly below the lower limit of the capacity before
the call (`(capacity + 2) / 4`), and leaves the capacity as it is otherwise. -/
theorem erase_capacity [DecidableEq K] [Inhabited V] (hash : K → Nat) (m : HashMap K V)
    (k : K) (fuel : Nat) (hr : Reachable hash m) (hk : contains_key hash m k = true)
    (hf : 2 ≤ fuel) :
    m._lowerSizeLimit = (capacity m + 2) / 4 ∧
    ∃ m1, erase hash fuel m k = some (true, m1) ∧
      (size m - 1 < m._lowerSizeLimit → 2 * capacity m1 = capacity m) ∧
      (¬ size m - 1 < m._lowerSizeLimit → capacity m1 = capacity m) := by
  have hm := reachable_inv hash m hr
  have he := erased_spec hash m k hm hk
  refine ⟨hm.lower, erased hash m k, erase_eq_erased hash fuel m k hm hk hf, ?_, ?_⟩
  · intro hlt
    have hl := hm.lower
    have h1 : 1 < m._capacity := by
      have := pow_two_pos m._capacity hm.cap_pow
      simp only [size] at hlt
      omega
    have hh := pow_two_half m._capacity hm.cap_pow h1
    simp only [size] at hlt
    simp only [capacity, he.2.2.1, if_pos hlt]
    omega
  · intro hge
    simp only [size] at hge
    simp only [capacity, he.2.2.1, if_neg hge]

/-- Witness of C11: a default map with one key; erasing it halves the capacity from 16
to 8 and no further, although the size 0 is below the lower limit 2 of capacity 8. -/
theorem erase_capacity_witness :
    contains_key natHash (rebuildFrom natHash (new : HashMap Nat Nat) [(1, 10)]) 1 = true ∧
    ((rebuildFrom natHash (new : HashMap Nat Nat) [(1, 10)])._lowerSizeLimit
        = (capacity (rebuildFrom natHash (new : HashMap Nat Nat) [(1, 10)]) + 2) / 4 ∧
      ∃ m1, erase natHash 3 (rebuildFrom natHash (new : HashMap Nat Nat) [(1, 10)]) 1
          = some (true, m1) ∧
        (size (rebuildFrom natHash (new : HashMap Nat Nat) [(1, 10)]) - 1
            < (rebuildFrom natHash (new : HashMap Nat Nat) [(1, 10)])._lowerSizeLimit →
          2 * capacity m1 = capacity (rebuildFrom natHash (new : HashMap Nat Nat) [(1, 10)])) ∧
        (¬ size (rebuildFrom natHash (new : HashMap Nat Nat) [(1, 10)]) - 1
            < (rebuildFrom natHash (new : HashMap Nat Nat) [(1, 10)])._lowerSizeLimit →
          capacity m1 = capacity (rebuildFrom natHash (new : HashMap Nat Nat) [(1, 10)]))) ∧
    erase natHash 3 (rebuildFrom natHash (new : HashMap Nat Nat) [(1, 10)]) 1
      = some (true, _init 8) ∧
    size (_init 8 : HashMap Nat Nat) < (_init 8 : HashMap Nat Nat)._lowerSizeLimit :=
  ⟨by decide,
    erase_capacity natHash _ 1 3
      (reachable_insertMany natHash 3 [(1, 10)] new _ [true] Reachable.new (by decide))
      (by decide) (by decide),
    by decide, by decide⟩

/-- C12: in every reachable state the capacity is a power of two, hence at least 1, and
it still is after any run of `erase` calls. At capacity 1 the lower limit is 0, so no
`erase` changes the capacity. -/
theorem capacity_power_of_two [DecidableEq K] [Inhabited V] (hash : K → Nat)
    (m : HashMap K V) (hr : Reachable hash m) :
    (∃ e, capacity m = 2 ^ e) ∧ 1 ≤ capacity m ∧
    (∀ fuel ks fl m1, eraseMany hash fuel m ks = some (fl, m1) →
      (∃ e, capacity m1 = 2 ^ e) ∧ 1 ≤ capacity m1) ∧
    (capacity m = 1 → m._lowerSizeLimit = 0 ∧
      ∀ fuel k b m1, erase hash fuel m k = some (b, m1) → capacity m1 = 1) := by
  have hm := reachable_inv hash m hr
  refine ⟨hm.cap_pow, pow_two_pos _ hm.cap_pow, ?_, ?_⟩
  · intro fuel ks fl m1 h
    have hm1 := reachable_inv hash m1 (reachable_eraseMany hash fuel ks m m1 fl hr h)
    exact ⟨hm1.cap_pow, pow_two_pos _ hm1.cap_pow⟩
  · intro hc
    simp only [capacity] at hc
    have hl : m._lowerSizeLimit = 0 := by rw [hm.lower, hc]
    refine ⟨hl, ?_⟩
    intro fuel k b m1 h
    rcases erase_eq_of_some hash fuel m m1 k b hm h with ⟨hk, _, e⟩ | ⟨_, _, e⟩
    · rw [e, capacity, (erased_spec hash m k hm hk).2.2.1, hl, if_neg (Nat.not_lt_zero _)]
      exact hc
    · rw [e]; exact hc

/-- Witness of C12: the run insert 0, 1, 2, erase 0, 1, 2, insert 0, erase 0 from the
default map ends at capacity 1, where a further insert/erase pair comes back to
capacity 1. -/
theorem capacity_power_of_two_witness :
    insertMany natHash 3 (new : HashMap Nat Nat) [(0, 0), (1, 1), (2, 2)]
      = some ([true, true, true], rebuildFrom natHash new [(0, 0), (1, 1), (2, 2)]) ∧
    eraseMany natHash 3 (rebuildFrom natHash (new : HashMap Nat Nat) [(0, 0), (1, 1), (2, 2)])
        [0, 1, 2] = some ([true, true, true], _init 2) ∧
    insert natHash 3 (_init 2 : HashMap Nat Nat) 0 0
      = some (true, rebuildFrom natHash (_init 2) [(0, 0)]) ∧
    erase natHash 3 (rebuildFrom natHash (_init 2 : HashMap Nat Nat) [(0, 0)]) 0
      = some (true, _init 1) ∧
    capacity (_init 1 : HashMap Nat Nat) = 1 ∧
    ((∃ e, capacity (_init 1 : HashMap Nat Nat) = 2 ^ e) ∧
      1 ≤ capacity (_init 1 : HashMap Nat Nat) ∧
      (∀ fuel ks fl m1, eraseMany natHash fuel (_init 1 : HashMap Nat Nat) ks = some (fl, m1) →
        (∃ e, capacity m1 = 2 ^ e) ∧ 1 ≤ capacity m1) ∧
      (capacity (_init 1 : HashMap Nat Nat) = 1 →
        (_init 1 : HashMap Nat Nat)._lowerSizeLimit = 0 ∧
        ∀ fuel k b m1, erase natHash fuel (_init 1 : HashMap Nat Nat) k = some (b, m1) →
          capacity m1 = 1)) :=
  ⟨by decide, by decide, by decide, by decide, by decide,
    capacity_power_of_two natHash _
      (Reachable.erase
        (Reachable.insert
          (reachable_eraseMany natHash 3 [0, 1, 2]
            (rebuildFrom natHash new [(0, 0), (1, 1), (2, 2)]) (_init 2) [true, true, true]
            (reachable_insertMany natHash 3 [(0, 0), (1, 1), (2, 2)] new
              (rebuildFrom natHash new [(0, 0), (1, 1), (2, 2)]) [true, true, true]
              Reachable.new (by decide))
            (by decide))
          (by decide : insert natHash 3 (_init 2 : HashMap Nat Nat) 0 0
            = some (true, rebuildFrom natHash (_init 2) [(0, 0)])))
        (by decide : erase natHash 3 (rebuildFrom natHash (_init 2 : HashMap Nat Nat) [(0, 0)]) 0
          = some (true, _init 1)))⟩

/-- C13: in every reachable state `size <= upper_limit`, where `upper_limit` is
`capacity * 3 / 4` rounded down, so `4 * size <= 3 * capacity`. -/
theorem size_le_upper_limit [DecidableEq K] [Inhabited V] (hash : K → Nat)
    (m : HashMap K V) (hr : Reachable hash m) :
    size m ≤ m._upperSizeLimit ∧ m._upperSizeLimit = capacity m * 3 / 4 ∧
      4 * size m ≤ 3 * capacity m := by
  have hm := reachable_inv hash m hr
  have h1 := hm.size_le
  have h2 := hm.upper
  refine ⟨h1, h2, ?_⟩
  simp only [size, capacity]
  omega

/-- Witness of C13: a default map with twelve keys is exactly at its upper limit. -/
theorem size_le_upper_limit_witness :
    size (rebuildFrom natHash (new : HashMap Nat Nat) ((List.range 12).map (fun i => (i, i))))
      = 12 ∧
    (size (rebuildFrom natHash (new : HashMap Nat Nat) ((List.range 12).map (fun i => (i, i))))
        ≤ (rebuildFrom natHash (new : HashMap Nat Nat)
          ((List.range 12).map (fun i => (i, i))))._upperSizeLimit ∧
      (rebuildFrom natHash (new : HashMap Nat Nat)
          ((List.range 12).map (fun i => (i, i))))._upperSizeLimit
        = capacity (rebuildFrom natHash (new : HashMap Nat Nat)
          ((List.range 12).map (fun i => (i, i)))) * 3 / 4 ∧
      4 * size (rebuildFrom natHash (new : HashMap Nat Nat)
          ((List.range 12).map (fun i => (i, i))))
        ≤ 3 * capacity (rebuildFrom natHash (new : HashMap Nat Nat)
          ((List.range 12).map (fun i => (i, i))))) :=
  ⟨by decide,
    size_le_upper_limit natHash _
      (reachable_insertMany natHash 3 ((List.range 12).map (fun i => (i, i))) new _
        (List.replicate 12 true) Reachable.new (by decide))⟩

/-- C14, as amended: on a reachable map, after `erase(k)` of a contained key the size is
at least the lower limit of the resulting capacity exactly when the size after the
removal is at least the lower limit of half the capacity before the call; in particular
it is whenever no shrink was triggered. `erase` halves only once. -/
theorem erase_size_vs_lower_limit [DecidableEq K] [Inhabited V] (hash : K → Nat)
    (m : HashMap K V) (k : K) (fuel : Nat) (hr : Reachable hash m)
    (hk : contains_key hash m k = true) (hf : 2 ≤ fuel) :
    ∃ m1, erase hash fuel m k = some (true, m1) ∧
      m1._lowerSizeLimit = (capacity m1 + 2) / 4 ∧
      (m1._lowerSizeLimit ≤ size m1 ↔ (capacity m / 2 + 2) / 4 ≤ size m - 1) ∧
      (¬ size m - 1 < m._lowerSizeLimit → m1._lowerSizeLimit ≤ size m1) := by
  have hm := reachable_inv hash m hr
  have he := erased_spec hash m k hm hk
  have hl := hm.lower
  have hl1 := he.1.lower
  have hc := he.2.2.1
  have hs := he.2.2.2
  refine ⟨erased hash m k, erase_eq_erased hash fuel m k hm hk hf, hl1, ?_, ?_⟩
  · simp only [size, capacity]
    split at hc <;> omega
  · simp only [size]
    split at hc <;> omega

/-- Witness of C14 as amended: erasing key 0 from a default map with keys 0 to 4 leaves
size 4 at capacity 16, within bounds. -/
theorem erase_size_vs_lower_limit_witness :
    contains_key natHash
      (rebuildFrom natHash (new : HashMap Nat Nat) ((List.range 5).map (fun i => (i, i)))) 0
      = true ∧
    (∃ m1, erase natHash 3
        (rebuildFrom natHash (new : HashMap Nat Nat) ((List.range 5).map (fun i => (i, i)))) 0
        = some (true, m1) ∧
      m1._lowerSizeLimit = (capacity m1 + 2) / 4 ∧
      (m1._lowerSizeLimit ≤ size m1 ↔
        (capacity (rebuildFrom natHash (new : HashMap Nat Nat)
          ((List.range 5).map (fun i => (i, i)))) / 2 + 2) / 4
        ≤ size (rebuildFrom natHash (new : HashMap Nat Nat)
          ((List.range 5).map (fun i => (i, i)))) - 1) ∧
      (¬ size (rebuildFrom natHash (new : HashMap Nat Nat)
          ((List.range 5).map (fun i => (i, i)))) - 1
          < (rebuildFrom natHash (new : HashMap Nat Nat)
            ((List.range 5).map (fun i => (i, i))))._lowerSizeLimit →
        m1._lowerSizeLimit ≤ size m1)) ∧
    (erase natHash 3
        (rebuildFrom natHash (new : HashMap Nat Nat) ((List.range 5).map (fun i => (i, i)))) 0
      ).map (fun r => (size r.2, capacity r.2, r.2._lowerSizeLimit)) = some (4, 16, 4) :=
  ⟨by decide,
    erase_size_vs_lower_limit natHash _ 0 3
      (reachable_insertMany natHash 3 ((List.range 5).map (fun i => (i, i))) new _
        (List.replicate 5 true) Reachable.new (by decide))
      (by decide) (by decide),
    by decide⟩

/-- Counterexample to C14 as stated: a default map with the one key 1 is reachable;
`erase(1)` leaves size 0 at capacity 8, whose lower limit is 2, and the capacity is not
1. -/
theorem erase_size_below_lower_limit :
    Reachable natHash (rebuildFrom natHash (new : HashMap Nat Nat) [(1, 10)]) ∧
    contains_key natHash (rebuildFrom natHash (new : HashMap Nat Nat) [(1, 10)]) 1 = true ∧
    erase natHash 3 (rebuildFrom natHash (new : HashMap Nat Nat) [(1, 10)]) 1
      = some (true, _init 8) ∧
    size (_init 8 : HashMap Nat Nat) = 0 ∧
    (_init 8 : HashMap Nat Nat)._lowerSizeLimit = 2 ∧
    ¬ ((_init 8 : HashMap Nat Nat)._lowerSizeLimit ≤ size (_init 8 : HashMap Nat Nat)) ∧
    capacity (_init 8 : HashMap Nat Nat) ≠ 1 :=
  ⟨reachable_insertMany natHash 3 [(1, 10)] new _ [true] Reachable.new (by decide),
    by decide, by decide, by decide, by decide, by decide, by decide⟩

/-- C15: inserting `N` pairs with pairwise distinct keys into a default map and then
erasing the `N` keys, in any order, succeeds call by call (every `insert` and every
`erase` returns `true`) and ends with size 0 and a map that contains no key. -/
theorem insert_then_erase_all [DecidableEq K] (hash : K → Nat) (kvs : List (K × V))
    (ks : List K) (fuel : Nat) (hnd : (kvs.map Prod.fst).Nodup)
    (hperm : ks.Perm (kvs.map Prod.fst)) (hf : 3 ≤ fuel) :
    ∃ m m1, insertMany hash fuel new kvs = some (List.replicate kvs.length true, m) ∧
      eraseMany hash fuel m ks = some (List.replicate ks.length true, m1) ∧
      size m1 = 0 ∧ ∀ k, contains_key hash m1 k = false := by
  obtain ⟨m, m1, h1, h2, hm1, hnil, hs0, _⟩ := round_trip hash kvs ks fuel hnd hperm hf
  exact ⟨m, m1, h1, h2, hs0, fun k => contains_key_of_toList_nil hash m1 k hm1 hnil⟩

/-- Witness of C15: twenty keys, erased in the reverse order. -/
theorem insert_then_erase_all_witness :
    (((List.range 20).map (fun i => (i, i))).map Prod.fst).Nodup ∧
    ((List.range 20).reverse).Perm (((List.range 20).map (fun i => (i, i))).map Prod.fst) ∧
    ∃ m m1, insertMany natHash 3 (new : HashMap Nat Nat) ((List.range 20).map (fun i => (i, i)))
        = some (List.replicate ((List.range 20).map (fun i => (i, i))).length true, m) ∧
      eraseMany natHash 3 m (List.range 20).reverse
        = some (List.replicate (List.range 20).reverse.length true, m1) ∧
      size m1 = 0 ∧ ∀ k, contains_key natHash m1 k = false :=
  ⟨by decide, by decide,
    insert_then_erase_all natHash ((List.range 20).map (fun i => (i, i)))
      (List.range 20).reverse 3 (by decide) (by decide) (by decide)⟩

/-- C16, as amended: inserting `N` pairs with pairwise distinct keys into a default map
and then erasing the `N` keys, in any order, ends at a capacity between 2 and 16: it is
16 when `N = 0` and at most 8 when `N >= 1`. -/
theorem round_trip_capacity [DecidableEq K] (hash : K → Nat) (kvs : List (K × V))
    (ks : List K) (fuel : Nat) (hnd : (kvs.map Prod.fst).Nodup)
    (hperm : ks.Perm (kvs.map Prod.fst)) (hf : 3 ≤ fuel) :
    ∃ m m1, insertMany hash fuel new kvs = some (List.replicate kvs.length true, m) ∧
      eraseMany hash fuel m ks = some (List.replicate ks.length true, m1) ∧
      2 ≤ capacity m1 ∧ capacity m1 ≤ 16 ∧
      (kvs.length = 0 → capacity m1 = 16) ∧ (1 ≤ kvs.length → capacity m1 ≤ 8) := by
  obtain ⟨m, m1, h1, h2, _, _, _, h3, h4, h5, h6⟩ :=
    round_trip hash kvs ks fuel hnd hperm hf
  refine ⟨m, m1, h1, h2, h3, h4, ?_, ?_⟩
  · intro h; exact h5 (List.length_eq_zero.mp h)
  · intro h; exact h6 (by intro e; rw [e] at h; cases h)

/-- Witness of C16 as amended: four keys inserted into a default map (capacity 16) and
erased again; the capacity ends at 2. -/
theorem round_trip_capacity_witness :
    (((List.range 4).map (fun i => (i, i))).map Prod.fst).Nodup ∧
    (List.range 4).Perm (((List.range 4).map (fun i => (i, i))).map Prod.fst) ∧
    (∃ m m1, insertMany natHash 3 (new : HashMap Nat Nat) ((List.range 4).map (fun i => (i, i)))
        = some (List.replicate ((List.range 4).map (fun i => (i, i))).length true, m) ∧
      eraseMany natHash 3 m (List.range 4)
        = some (List.replicate (List.range 4).length true, m1) ∧
      2 ≤ capacity m1 ∧ capacity m1 ≤ 16 ∧
      (((List.range 4).map (fun i => (i, i))).length = 0 → capacity m1 = 16) ∧
      (1 ≤ ((List.range 4).map (fun i => (i, i))).length → capacity m1 ≤ 8)) ∧
    (insertMany natHash 3 (new : HashMap Nat Nat) ((List.range 4).map (fun i => (i, i)))).map
        (fun r => capacity r.2) = some 16 ∧
    ((insertMany natHash 3 (new : HashMap Nat Nat) ((List.range 4).map (fun i => (i, i)))).bind
        (fun r => eraseMany natHash 3 r.2 (List.range 4))).map (fun r => capacity r.2)
      = some 2 :=
  ⟨by decide, by decide,
    round_trip_capacity natHash ((List.range 4).map (fun i => (i, i))) (List.range 4) 3
      (by decide) (by decide) (by decide),
    by decide, by decide⟩

/-- Counterexample to C16 as stated: one key inserted into a default map and erased
again leaves capacity 8, below 16. -/
theorem round_trip_capacity_below_default :
    insertMany natHash 3 (new : HashMap Nat Nat) [(1, 10)]
      = some ([true], rebuildFrom natHash new [(1, 10)]) ∧
    eraseMany natHash 3 (rebuildFrom natHash (new : HashMap Nat Nat) [(1, 10)]) [1]
      = some ([true], _init 8) ∧
    capacity (_init 8 : HashMap Nat Nat) = 8 ∧
    ¬ (16 ≤ capacity (_init 8 : HashMap Nat Nat)) :=
  ⟨by decide, by decide, by decide, by decide⟩

/-- C17: the claim fails on the code for a scalar value type. In `HashMap<int, int>` the
read-only `operator[]` of an absent key returns its local `int newVal;`, which has no
initialiser: with 1515870810 in it, the result for key 12 of the default map is
1515870810 and not the default 0. For every value type, every reachable map and every
content of `newVal`: a contained key gives the stored value (the one `at` returns), an
absent key gives `newVal`; it is a `const` member function, a function of the map that
returns only the value. -/
theorem subscript_const_absent_value :
    contains_key natHash (new : HashMap Nat Int) 12 = false ∧
    subscript_const natHash (new : HashMap Nat Int) 12 1515870810 = 1515870810 ∧
    subscript_const natHash (new : HashMap Nat Int) 12 1515870810 ≠ default ∧
    ∀ (K V : Type) [DecidableEq K] [Inhabited V] (hash : K → Nat) (m : HashMap K V)
      (k : K) (newVal : V), Reachable hash m →
      (contains_key hash m k = true →
        at_ hash m k = Except.ok (subscript_const hash m k newVal)) ∧
      (contains_key hash m k = false → subscript_const hash m k newVal = newVal) := by
  refine ⟨by decide, by decide, by decide, ?_⟩
  intro K V _ _ hash m k newVal hr
  have hm := reachable_inv hash m hr
  refine ⟨fun hc => ?_, fun hc => subscript_const_of_absent hash m k newVal hc⟩
  obtain ⟨w, hw⟩ := (contains_key_iff hash m k hm.idx).mp hc
  rw [subscript_const_of_mem hash m k newVal w hm hw]
  exact at_eq_ok hash m k w hm hw

/-- C18: the claim fails on the code for a scalar value type. In `HashMap<int, int>` the
non-const `operator[]` of an absent key inserts its local `int newVal;`, which has no
initialiser: with 1515870810 in it, `m[12]` on the default map stores 1515870810, and
`at(12)` then returns 1515870810 and not the default 0. For every value type, every
reachable map and every content of `newVal`: an absent key is inserted with `newVal`
(then contained, `at(k) = newVal`, size grown by 1, capacity doubled first exactly when
`size + 1 > upper_limit`); for a contained key the stored value is returned and the map
is the one given. -/
theorem subscript_absent_value :
    contains_key natHash (new : HashMap Nat Int) 12 = false ∧
    subscript natHash 3 (new : HashMap Nat Int) 12 1515870810
      = some (1515870810, rebuildFrom natHash new [(12, 1515870810)]) ∧
    at_ natHash (rebuildFrom natHash (new : HashMap Nat Int) [(12, 1515870810)]) 12
      = Except.ok 1515870810 ∧
    (1515870810 : Int) ≠ default ∧
    ∀ (K V : Type) [DecidableEq K] [Inhabited V] (hash : K → Nat) (m : HashMap K V)
      (k : K) (fuel : Nat) (newVal : V), Reachable hash m → 3 ≤ fuel →
      (contains_key hash m k = false →
        ∃ m1, subscript hash fuel m k newVal = some (newVal, m1) ∧
          contains_key hash m1 k = true ∧ at_ hash m1 k = Except.ok newVal ∧
          size m1 = size m + 1 ∧
          capacity m1
            = if size m + 1 > m._upperSizeLimit then 2 * capacity m else capacity m) ∧
      (contains_key hash m k = true →
        ∃ w, at_ hash m k = Except.ok w ∧ subscript hash fuel m k newVal = some (w, m)) := by
  refine ⟨by decide, by decide, by rfl, by decide, ?_⟩
  intro K V _ _ hash m k fuel newVal hr hf
  have hm := reachable_inv hash m hr
  constructor
  · intro hc
    have ha := added_spec hash m k newVal hm hc
    have hmem : (k, newVal) ∈ toList (added hash m k newVal) :=
      ha.2.1.mem_iff.mpr (by simp)
    refine ⟨added hash m k newVal, subscript_of_absent hash fuel m k newVal hm hc hf,
      (contains_key_iff hash _ k ha.1.idx).mpr ⟨newVal, hmem⟩,
      at_eq_ok hash _ k newVal ha.1 hmem, ha.2.2.2, ?_⟩
    simp only [capacity, size, ha.2.2.1, Nat.mul_comm]
  · intro hc
    obtain ⟨w, hw⟩ := (contains_key_iff hash m k hm.idx).mp hc
    exact ⟨w, at_eq_ok hash m k w hm hw, subscript_of_mem hash fuel m k newVal w hm hw⟩

/-- C19: on a reachable map, overriding the value of a contained key `k` with `v`
(`_overrideExisting`, which is also what the statement `map[k] = v` does) makes `at(k)`
return `v`; the size, the capacity and the keys of every chain in their order (so the
position of `k` in its chain) are as before, and so are `contains_key` and `at` of every
other key. -/
theorem override_existing [DecidableEq K] [Inhabited V] (hash : K → Nat) (m : HashMap K V)
    (k : K) (v : V) (hr : Reachable hash m) (hk : contains_key hash m k = true) :
    (∀ fuel newVal,
      index_assign hash fuel m k newVal v = some (_overrideExisting hash m k v)) ∧
    at_ hash (_overrideExisting hash m k v) k = Except.ok v ∧
    size (_overrideExisting hash m k v) = size m ∧
    capacity (_overrideExisting hash m k v) = capacity m ∧
    (∀ i, (bucket (_overrideExisting hash m k v) i).map Prod.fst
      = (bucket m i).map Prod.fst) ∧
    ∀ k1, k1 ≠ k →
      contains_key hash (_overrideExisting hash m k v) k1 = contains_key hash m k1 ∧
      at_ hash (_overrideExisting hash m k v) k1 = at_ hash m k1 := by
  have hm := reachable_inv hash m hr
  have ho := overrideExisting_spec hash m k v hm
  have hkeys := (contains_key_iff_keys hash m k hm.idx).mp hk
  obtain ⟨w, hw⟩ := (contains_key_iff hash m k hm.idx).mp hk
  refine ⟨?_, ?_, rfl, rfl, fun i => bucket_keys_overrideExisting hash m k v i hm, ?_⟩
  · intro fuel newVal
    simp only [index_assign, subscript_of_mem hash fuel m k newVal w hm hw,
      Option.map_some']
  · exact at_eq_ok hash _ k v ho.1 ((ho.2.2 (k, v)).mpr (Or.inr ⟨rfl, hkeys⟩))
  · intro k1 hne
    refine lookup_congr hash m _ k1 hm ho.1 (fun v1 => ?_)
    rw [ho.2.2]
    constructor
    · rintro (⟨_, h⟩ | ⟨h, _⟩)
      · exact h
      · exact absurd (Prod.mk.inj h).1 hne
    · intro h; exact Or.inl ⟨hne, h⟩

/-- Witness of C19: keys 0, 16 and 32 share bucket 0 of the default table; overriding
the value of the middle key 16 leaves it in the middle of the chain. -/
theorem override_existing_witness :
    contains_key natHash
      (rebuildFrom natHash (new : HashMap Nat Nat) [(0, 1), (16, 2), (32, 3)]) 16 = true ∧
    ((∀ fuel newVal, index_assign natHash fuel
          (rebuildFrom natHash (new : HashMap Nat Nat) [(0, 1), (16, 2), (32, 3)]) 16
          newVal 9
        = some (_overrideExisting natHash
          (rebuildFrom natHash (new : HashMap Nat Nat) [(0, 1), (16, 2), (32, 3)]) 16 9)) ∧
      at_ natHash (_overrideExisting natHash
        (rebuildFrom natHash (new : HashMap Nat Nat) [(0, 1), (16, 2), (32, 3)]) 16 9) 16
        = Except.ok 9 ∧
      size (_overrideExisting natHash
        (rebuildFrom natHash (new : HashMap Nat Nat) [(0, 1), (16, 2), (32, 3)]) 16 9)
        = size (rebuildFrom natHash (new : HashMap Nat Nat) [(0, 1), (16, 2), (32, 3)]) ∧
      capacity (_overrideExisting natHash
        (rebuildFrom natHash (new : HashMap Nat Nat) [(0, 1), (16, 2), (32, 3)]) 16 9)
        = capacity (rebuildFrom natHash (new : HashMap Nat Nat) [(0, 1), (16, 2), (32, 3)]) ∧
      (∀ i, (bucket (_overrideExisting natHash
          (rebuildFrom natHash (new : HashMap Nat Nat) [(0, 1), (16, 2), (32, 3)]) 16 9) i).map
          Prod.fst
        = (bucket (rebuildFrom natHash (new : HashMap Nat Nat) [(0, 1), (16, 2), (32, 3)])
          i).map Prod.fst) ∧
      ∀ k1, k1 ≠ 16 →
        contains_key natHash (_overrideExisting natHash
          (rebuildFrom natHash (new : HashMap Nat Nat) [(0, 1), (16, 2), (32, 3)]) 16 9) k1
          = contains_key natHash
            (rebuildFrom natHash (new : HashMap Nat Nat) [(0, 1), (16, 2), (32, 3)]) k1 ∧
        at_ natHash (_overrideExisting natHash
          (rebuildFrom natHash (new : HashMap Nat Nat) [(0, 1), (16, 2), (32, 3)]) 16 9) k1
          = at_ natHash
            (rebuildFrom natHash (new : HashMap Nat Nat) [(0, 1), (16, 2), (32, 3)]) k1) ∧
    bucket (_overrideExisting natHash
      (rebuildFrom natHash (new : HashMap Nat Nat) [(0, 1), (16, 2), (32, 3)]) 16 9) 0
      = [(0, 1), (16, 9), (32, 3)] :=
  ⟨by decide,
    override_existing natHash _ 16 9
      (reachable_insertMany natHash 3 [(0, 1), (16, 2), (32, 3)] new _ [true, true, true]
        Reachable.new (by decide))
      (by decide),
    by decide⟩

/-- C20: on a reachable map `clear()` leaves every chain empty and size 0; the
capacity and the two limits are as before, and afterwards no key is contained. -/
theorem clear_result [DecidableEq K] [Inhabited V] (hash : K → Nat) (m : HashMap K V)
    (hr : Reachable hash m) :
    (∀ i, bucket (clear m) i = []) ∧ size (clear m) = 0 ∧
    capacity (clear m) = capacity m ∧
    (clear m)._upperSizeLimit = m._upperSizeLimit ∧
    (clear m)._lowerSizeLimit = m._lowerSizeLimit ∧
    ∀ k, contains_key hash (clear m) k = false := by
  have hm := reachable_inv hash m hr
  have he := clear_eq_init hash m hm
  refine ⟨fun i => by rw [he]; exact bucket_init _ i, rfl, rfl, rfl, rfl, ?_⟩
  intro k
  rw [he]
  exact contains_key_of_toList_nil hash _ k (inv_init hash _ hm.cap_pow) (toList_init _)

/-- Witness of C20: clearing a map with thirteen keys (capacity 32) gives the empty
table of capacity 32. -/
theorem clear_result_witness :
    ((∀ i, bucket (clear (rebuildFrom natHash (_init 32 : HashMap Nat Nat)
          ((List.range 13).map (fun i => (i, i))))) i = []) ∧
      size (clear (rebuildFrom natHash (_init 32 : HashMap Nat Nat)
        ((List.range 13).map (fun i => (i, i))))) = 0 ∧
      capacity (clear (rebuildFrom natHash (_init 32 : HashMap Nat Nat)
          ((List.range 13).map (fun i => (i, i)))))
        = capacity (rebuildFrom natHash (_init 32 : HashMap Nat Nat)
          ((List.range 13).map (fun i => (i, i)))) ∧
      (clear (rebuildFrom natHash (_init 32 : HashMap Nat Nat)
          ((List.range 13).map (fun i => (i, i)))))._upperSizeLimit
        = (rebuildFrom natHash (_init 32 : HashMap Nat Nat)
          ((List.range 13).map (fun i => (i, i))))._upperSizeLimit ∧
      (clear (rebuildFrom natHash (_init 32 : HashMap Nat Nat)
          ((List.range 13).map (fun i => (i, i)))))._lowerSizeLimit
        = (rebuildFrom natHash (_init 32 : HashMap Nat Nat)
          ((List.range 13).map (fun i => (i, i))))._lowerSizeLimit ∧
      ∀ k, contains_key natHash (clear (rebuildFrom natHash (_init 32 : HashMap Nat Nat)
        ((List.range 13).map (fun i => (i, i))))) k = false) ∧
    insertMany natHash 3 (new : HashMap Nat Nat) ((List.range 13).map (fun i => (i, i)))
      = some (List.replicate 13 true,
          rebuildFrom natHash (_init 32) ((List.range 13).map (fun i => (i, i)))) ∧
    clear (rebuildFrom natHash (_init 32 : HashMap Nat Nat)
      ((List.range 13).map (fun i => (i, i)))) = _init 32 :=
  ⟨clear_result natHash _
      (reachable_insertMany natHash 3 ((List.range 13).map (fun i => (i, i))) new _
        (List.replicate 13 true) Reachable.new (by decide)),
    by decide, by decide⟩

/-- C21: for two reachable maps over the same hash function, `a == b` is true exactly
when they have equal capacity, equal size and, for every bucket index `i` below the
capacity, chains `i` hold the same pairs, whatever their order. (The code compares the
chain lengths and looks every pair of `a` up in the chain of `b`; this is the same
because no pair occurs twice in a chain.) -/
theorem operator_eq_result [DecidableEq K] [DecidableEq V] [Inhabited V] (hash : K → Nat)
    (a b : HashMap K V) (ha : Reachable hash a) (hb : Reachable hash b) :
    (operator_eq a b = true ↔
      capacity a = capacity b ∧ size a = size b ∧
        ∀ i, i < capacity a → ∀ p, p ∈ bucket a i ↔ p ∈ bucket b i) ∧
    operator_ne a b = !(operator_eq a b) :=
  ⟨operator_eq_iff hash a b (reachable_inv hash a ha) (reachable_inv hash b hb), rfl⟩

/-- Witness of C21: keys 1 and 17 share bucket 1 of the default table; inserted in the
two orders the chains differ as lists and the maps compare equal. With another value
for key 17 they compare unequal. -/
theorem operator_eq_result_witness :
    ((operator_eq oneThenSeventeen seventeenThenOne = true ↔
        capacity oneThenSeventeen = capacity seventeenThenOne ∧
        size oneThenSeventeen = size seventeenThenOne ∧
        ∀ i, i < capacity oneThenSeventeen →
          ∀ p, p ∈ bucket oneThenSeventeen i ↔ p ∈ bucket seventeenThenOne i) ∧
      operator_ne oneThenSeventeen seventeenThenOne
        = !(operator_eq oneThenSeventeen seventeenThenOne)) ∧
    bucket oneThenSeventeen 1 = [(1, 10), (17, 170)] ∧
    bucket seventeenThenOne 1 = [(17, 170), (1, 10)] ∧
    operator_eq oneThenSeventeen seventeenThenOne = true ∧
    operator_eq oneThenSeventeen
      (rebuildFrom natHash (new : HashMap Nat Nat) [(17, 171), (1, 10)]) = false :=
  ⟨operator_eq_result natHash oneThenSeventeen seventeenThenOne
      (reachable_insertMany natHash 3 [(1, 10), (17, 170)] new oneThenSeventeen
        [true, true] Reachable.new (by decide))
      (reachable_insertMany natHash 3 [(17, 170), (1, 10)] new seventeenThenOne
        [true, true] Reachable.new (by decide)),
    by decide, by decide, by decide, by decide⟩

/-- C22: two reachable maps with the same logical content that compare unequal. For
every hash function: `a` is a default map after twelve inserts with distinct keys
(capacity 16); `b` is that map after the insert of a thirteenth key (capacity 32) and
the erase of it again (no shrink, the size 12 is not below the lower limit 8 of capacity
32). `contains_key` and `at` agree on every key, and `a == b` is false. -/
theorem equal_content_unequal_maps [DecidableEq K] [DecidableEq V] [Inhabited V]
    (hash : K → Nat) (kvs : List (K × V)) (k : K) (v : V) (fuel : Nat) (hf : 3 ≤ fuel)
    (hlen : kvs.length = 12) (hnd : ((kvs ++ [(k, v)]).map Prod.fst).Nodup) :
    ∃ a c b, insertMany hash fuel new kvs = some (List.replicate 12 true, a) ∧
      insert hash fuel a k v = some (true, c) ∧ erase hash fuel c k = some (true, b) ∧
      Reachable hash a ∧ Reachable hash b ∧ capacity a = 16 ∧ capacity b = 32 ∧
      (∀ k1, contains_key hash b k1 = contains_key hash a k1 ∧
        at_ hash b k1 = at_ hash a k1) ∧
      operator_eq a b = false ∧ operator_ne a b = true := by
  simp only [List.map_append, List.map_cons, List.map_nil] at hnd
  have hnd1 := (List.nodup_append.mp hnd).1
  have hdis := (List.nodup_append.mp hnd).2.2
  have h0 : Inv hash (new : HashMap K V) := inv_new hash
  obtain ⟨a, h1, ha, hp⟩ := insertMany_spec hash fuel kvs new h0 hnd1
    (by intro k _; simp [toList_new]) hf
  rw [hlen] at h1
  have hcap : a._capacity = 16 :=
    insertMany_capacity hash fuel kvs new a _ h0 (by rw [hlen]; exact Nat.le_refl 12) h1
  rw [toList_new, List.nil_append] at hp
  have hsz : a._size = 12 := by rw [ha.size_eq, hp.length_eq, hlen]
  have hk : contains_key hash a k = false := by
    cases h : contains_key hash a k with
    | false => rfl
    | true =>
      have := (contains_key_iff_keys hash a k ha.idx).mp h
      rw [(hp.map Prod.fst).mem_iff] at this
      exact (hdis this (List.mem_singleton.mpr rfl)).elim
  have hadd := added_spec hash a k v ha hk
  have hcapc : (added hash a k v)._capacity = 32 := by
    rw [hadd.2.2.1, ha.upper, hcap, hsz]; rfl
  have hmemc : (k, v) ∈ toList (added hash a k v) := hadd.2.1.mem_iff.mpr (by simp)
  have hkc : contains_key hash (added hash a k v) k = true :=
    (contains_key_iff hash _ k hadd.1.idx).mpr ⟨v, hmemc⟩
  have her := erased_spec hash (added hash a k v) k hadd.1 hkc
  have hcapb : (erased hash (added hash a k v) k)._capacity = 32 := by
    rw [her.2.2.1, hadd.1.lower, hcapc, hadd.2.2.2, hsz]; rfl
  have hra : Reachable hash a :=
    reachable_insertMany hash fuel kvs new a _ Reachable.new h1
  have hins := insert_eq_added hash fuel a k v ha hk hf
  have hers := erase_eq_erased hash fuel (added hash a k v) k hadd.1 hkc (by omega)
  have hne : operator_eq a (erased hash (added hash a k v) k) = false := by
    cases h : operator_eq a (erased hash (added hash a k v) k) with
    | false => rfl
    | true =>
      have := ((operator_eq_iff hash a _ ha her.1).mp h).1
      rw [hcap, hcapb] at this
      cases this
  refine ⟨a, added hash a k v, erased hash (added hash a k v) k, h1, hins, hers, hra,
    Reachable.erase (Reachable.insert hra hins) hers, hcap, hcapb, ?_, hne, ?_⟩
  · intro k1
    refine lookup_congr hash a _ k1 ha her.1 (fun v1 => ?_)
    have hcont := erased_content hash (added hash a k v) k hadd.1 hkc
    by_cases hk1 : k1 = k
    · subst hk1
      constructor
      · intro h
        have := (contains_key_iff hash _ k1 her.1.idx).mpr ⟨v1, h⟩
        rw [hcont.1] at this; cases this
      · intro h
        have := (contains_key_iff hash a k1 ha.idx).mpr ⟨v1, h⟩
        rw [hk] at this; cases this
    · rw [hcont.2 k1 v1 hk1, hadd.2.1.mem_iff, List.mem_append, List.mem_singleton]
      constructor
      · rintro (h | h)
        · exact h
        · exact absurd (Prod.mk.inj h).1 hk1
      · intro h; exact Or.inl h
  · rw [operator_ne, hne]; rfl

/-- Witness of C22: the keys 0 to 11 and the thirteenth key 12, the hash of a number
being the number. -/
theorem equal_content_unequal_maps_witness :
    ((((List.range 12).map (fun i => (i, i))) ++ [(12, 12)]).map Prod.fst).Nodup ∧
    (∃ a c b,
      insertMany natHash 3 (new : HashMap Nat Nat) ((List.range 12).map (fun i => (i, i)))
        = some (List.replicate 12 true, a) ∧
      insert natHash 3 a 12 12 = some (true, c) ∧ erase natHash 3 c 12 = some (true, b) ∧
      Reachable natHash a ∧ Reachable natHash b ∧ capacity a = 16 ∧ capacity b = 32 ∧
      (∀ k1, contains_key natHash b k1 = contains_key natHash a k1 ∧
        at_ natHash b k1 = at_ natHash a k1) ∧
      operator_eq a b = false ∧ operator_ne a b = true) ∧
    operator_eq
      (rebuildFrom natHash (new : HashMap Nat Nat) ((List.range 12).map (fun i => (i, i))))
      (rebuildFrom natHash (_init 32 : HashMap Nat Nat)
        ((List.range 12).map (fun i => (i, i)))) = false :=
  ⟨by decide,
    equal_content_unequal_maps natHash ((List.range 12).map (fun i => (i, i))) 12 12 3
      (by decide) (by decide) (by decide),
    by decide⟩

/-- C23: for every reachable map, the loop from `begin()` to the end sentinel (with
room for at least `size` rounds) ends and yields exactly `size` pairs; the keys of the
yielded pairs are pairwise distinct; a key is yielded exactly when `contains_key` of it
is true, and the value yielded with it is `at(key)`. The stored size is the sum of the
lengths of the chains. -/
theorem iterate_content [DecidableEq K] [Inhabited V] (hash : K → Nat) (m : HashMap K V)
    (fuel : Nat) (hr : Reachable hash m) (hf : size m ≤ fuel) :
    ∃ out, iterate fuel m = some out ∧ out.length = size m ∧
      (out.map Prod.fst).Nodup ∧
      (∀ k, k ∈ out.map Prod.fst ↔ contains_key hash m k = true) ∧
      (∀ k v, (k, v) ∈ out → at_ hash m k = Except.ok v) ∧
      size m = ((List.range (capacity m)).map (fun i => (bucket m i).length)).sum := by
  have hm := reachable_inv hash m hr
  refine ⟨toList m, iterate_eq_toList hash m fuel hm ?_, hm.size_eq.symm, hm.nodup,
    fun k => (contains_key_iff_keys hash m k hm.idx).symm,
    fun k v h => at_eq_ok hash m k v hm h, size_eq_sum_buckets hash m hm⟩
  rw [← hm.size_eq]; exact hf

/-- Witness of C23: the map with keys 1, 17 (one chain) and 5; three rounds yield its
three pairs, two rounds are one too few. -/
theorem iterate_content_witness :
    size threeKeys ≤ 3 ∧
    (∃ out, iterate 3 threeKeys = some out ∧ out.length = size threeKeys ∧
      (out.map Prod.fst).Nodup ∧
      (∀ k, k ∈ out.map Prod.fst ↔ contains_key natHash threeKeys k = true) ∧
      (∀ k v, (k, v) ∈ out → at_ natHash threeKeys k = Except.ok v) ∧
      size threeKeys
        = ((List.range (capacity threeKeys)).map (fun i => (bucket threeKeys i).length)).sum) ∧
    iterate 3 threeKeys = some [(17, 170), (1, 10), (5, 50)] ∧
    iterate 2 threeKeys = none :=
  ⟨by decide,
    iterate_content natHash threeKeys 3
      (reachable_insertMany natHash 3 [(17, 170), (5, 50), (1, 10)] new threeKeys
        [true, true, true] Reachable.new (by decide)) (by decide),
    by decide, by decide⟩

/-- C24: for every reachable map, the loop from `begin()` to the end sentinel yields the
chains `buckets[0]`, `buckets[1]`, ..., `buckets[capacity - 1]` one after the other, each
in chain order. The loop ends with a result, so neither the search for the first
non-empty chain nor the search for the next one reads a bucket index outside the array;
`begin()` of a map of size 0 compares equal to `end()` (both hold the null pointer). -/
theorem iterate_order [DecidableEq K] [Inhabited V] (hash : K → Nat) (m : HashMap K V)
    (fuel : Nat) (hr : Reachable hash m) (hf : size m ≤ fuel) :
    iterate fuel m = some (((List.range (capacity m)).map (fun i => bucket m i)).flatten) ∧
    (∀ i, capacity m ≤ i → readBucket m i = none) ∧
    ∃ it, begin m = some it ∧ it._hashMap = m ∧
      (size m = 0 → it._cur = (end_ : ConstIterator K V)._cur) := by
  have hm := reachable_inv hash m hr
  refine ⟨?_, ?_, ?_⟩
  · unfold capacity
    rw [← toList_eq_buckets hash m hm]
    exact iterate_eq_toList hash m fuel hm (by rw [← hm.size_eq]; exact hf)
  · intro i hi
    simp only [readBucket, List.getElem?_eq_none_iff, hm.len]
    exact hi
  · obtain ⟨it, h1, h2, h3, _⟩ := begin_spec hash m hm
    exact ⟨it, h1, h2, h3⟩

/-- Witness of C24: keys 17 and 1 share chain 1 and are yielded in chain order, after
them key 5 of chain 5; the begin of a new map is the end. -/
theorem iterate_order_witness :
    size threeKeys ≤ 3 ∧
    (iterate 3 threeKeys
        = some (((List.range (capacity threeKeys)).map (fun i => bucket threeKeys i)).flatten) ∧
      (∀ i, capacity threeKeys ≤ i → readBucket threeKeys i = none) ∧
      ∃ it, begin threeKeys = some it ∧ it._hashMap = threeKeys ∧
        (size threeKeys = 0 → it._cur = (end_ : ConstIterator Nat Nat)._cur)) ∧
    ((List.range 16).map (fun i => bucket threeKeys i)).flatten
      = [(17, 170), (1, 10), (5, 50)] ∧
    (begin (new : HashMap Nat Nat)).map (fun it => it._cur)
      = some (end_ : ConstIterator Nat Nat)._cur ∧
    iterate 0 (new : HashMap Nat Nat) = some [] :=
  ⟨by decide,
    iterate_order natHash threeKeys 3
      (reachable_insertMany natHash 3 [(17, 170), (5, 50), (1, 10)] new threeKeys
        [true, true, true] Reachable.new (by decide)) (by decide),
    by decide, by decide, by decide⟩

/-- C25: for every reachable map, every hash function and every contained key `k`,
`bucket_index(k)` returns `hash(k) & (capacity - 1)`; this is `hash(k) mod capacity`,
the capacity being a power of two, and so it is below the capacity. -/
theorem bucket_index_result [DecidableEq K] [Inhabited V] (hash : K → Nat)
    (m : HashMap K V) (k : K) (hr : Reachable hash m)
    (hc : contains_key hash m k = true) :
    bucket_index hash m k = Except.ok (hash k &&& (capacity m - 1)) ∧
    hash k &&& (capacity m - 1) = hash k % capacity m ∧
    hash k % capacity m < capacity m ∧ (∃ e, capacity m = 2 ^ e) := by
  have hm := reachable_inv hash m hr
  obtain ⟨e, he⟩ := hm.cap_pow
  refine ⟨?_, ?_, Nat.mod_lt _ (pow_two_pos _ hm.cap_pow), e, he⟩
  · simp [bucket_index, hc, _findHash, capacity]
  · unfold capacity
    rw [he, Nat.and_pow_two_sub_one_eq_mod]

/-- Witness of C25: key 17 in a default map has bucket index 17 & 15 = 17 mod 16 = 1. -/
theorem bucket_index_result_witness :
    contains_key natHash threeKeys 17 = true ∧
    (bucket_index natHash threeKeys 17
        = Except.ok (natHash 17 &&& (capacity threeKeys - 1)) ∧
      natHash 17 &&& (capacity threeKeys - 1) = natHash 17 % capacity threeKeys ∧
      natHash 17 % capacity threeKeys < capacity threeKeys ∧
      (∃ e, capacity threeKeys = 2 ^ e)) ∧
    bucket_index natHash threeKeys 17 = Except.ok 1 :=
  ⟨by decide,
    bucket_index_result natHash threeKeys 17
      (reachable_insertMany natHash 3 [(17, 170), (5, 50), (1, 10)] new threeKeys
        [true, true, true] Reachable.new (by decide))
      (by decide),
    by rfl⟩

/-- C26: a rehash of a reachable map adds every stored pair again. Doubling (what
`_addNew` calls when `size + 1 > upper limit`) and halving (what `erase` calls on the
table without the erased pair when its size is below the lower limit) both return a
table of the new capacity with the same size and the same pairs as a multiset, every
pair in the bucket of its index under the new capacity, and the pairs of one old chain
in their old order in the new chain. The insert, respectively the erase, returns that
table (with the new pair appended). -/
theorem rehash_result [DecidableEq K] [Inhabited V] (hash : K → Nat) (m : HashMap K V)
    (fuel : Nat) (hr : Reachable hash m) (hf : 2 ≤ fuel) :
    (∃ m1, _reHash hash fuel m REHASH_UP_FACTOR = some m1 ∧
      Rehashed hash m m1 (capacity m * 2) ∧
      ∀ k v, contains_key hash m k = false → size m + 1 > m._upperSizeLimit →
        insert hash (fuel + 1) m k v = some (true, pushBack hash m1 k v)) ∧
    ∀ k, contains_key hash m k = true → size m - 1 < m._lowerSizeLimit →
      ∃ m1, _reHash hash fuel (erasedRaw hash m k) REHASH_DOWN_FACTOR = some m1 ∧
        Rehashed hash (erasedRaw hash m k) m1 (capacity m / 2) ∧
        erase hash fuel m k = some (true, m1) := by
  have hm := reachable_inv hash m hr
  obtain ⟨f, rfl⟩ : ∃ f, fuel = f + 2 := ⟨fuel - 2, by omega⟩
  have hu := hm.upper
  have hs := hm.size_le
  have hse := hm.size_eq
  have hup : _reHash hash (f + 2) m REHASH_UP_FACTOR
      = some (rebuildFrom hash (_init (m._capacity * 2)) (toList m)) := by
    rw [reHash_of_room hash f m REHASH_UP_FACTOR hm.len
      (by simp only [REHASH_UP_FACTOR, Nat.div_one]; omega)]
    simp [REHASH_UP_FACTOR]
  refine ⟨⟨_, hup, rehashed_rebuild hash m _ hm.nodup hse (pow_two_double _ hm.cap_pow)
    (by omega), fun k v hk hg => ?_⟩, fun k hk hg => ?_⟩
  · rw [insert_eq_added hash (f + 2 + 1) m k v hm hk (by omega)]
    simp only [size] at hg
    simp [added, grown, hg]
  · have hraw := erasedRaw_spec hash m k hm hk
    have hl := hraw.1.lower
    have hse1 := hraw.1.size_eq
    have hl0 := hm.lower
    have hc1 := hraw.2.2.1
    have hs1 := hraw.2.2.2
    simp only [size] at hg
    have hlt : (erasedRaw hash m k)._size < (erasedRaw hash m k)._lowerSizeLimit := by
      have : (erasedRaw hash m k)._lowerSizeLimit = m._lowerSizeLimit := rfl
      omega
    have h1 : 1 < (erasedRaw hash m k)._capacity := by
      have := pow_two_pos _ hraw.1.cap_pow
      omega
    have hh := pow_two_half _ hraw.1.cap_pow h1
    have hdown : _reHash hash (f + 2) (erasedRaw hash m k) REHASH_DOWN_FACTOR
        = some (rebuildFrom hash (_init (m._capacity / 2)) (toList (erasedRaw hash m k))) := by
      rw [reHash_of_room hash f _ REHASH_DOWN_FACTOR hraw.1.len
        (by simp only [REHASH_DOWN_FACTOR, Nat.mul_one]; omega)]
      simp [REHASH_DOWN_FACTOR, hc1]
    refine ⟨_, hdown, ?_, ?_⟩
    · rw [hc1] at hh
      exact rehashed_rebuild hash _ _ hraw.1.nodup hse1 hh.1 (by omega)
    · rw [erase_eq_erased hash (f + 2) m k hm hk (by omega)]
      simp [erased, shrunk, hlt, hc1]

/-- Witness of C26: the default map with keys 1, 17 (one chain), 9 and 5. Doubled, every
key has a chain of its own; the erase of key 5 halves the table, where 1, 17 and 9 share
chain 1 in the order in which the old table stored them. -/
theorem rehash_result_witness :
    ((∃ m1, _reHash natHash 2 fourKeys REHASH_UP_FACTOR = some m1 ∧
        Rehashed natHash fourKeys m1 (capacity fourKeys * 2) ∧
        ∀ k v, contains_key natHash fourKeys k = false →
          size fourKeys + 1 > fourKeys._upperSizeLimit →
          insert natHash (2 + 1) fourKeys k v = some (true, pushBack natHash m1 k v)) ∧
      ∀ k, contains_key natHash fourKeys k = true →
        size fourKeys - 1 < fourKeys._lowerSizeLimit →
        ∃ m1, _reHash natHash 2 (erasedRaw natHash fourKeys k) REHASH_DOWN_FACTOR = some m1 ∧
          Rehashed natHash (erasedRaw natHash fourKeys k) m1 (capacity fourKeys / 2) ∧
          erase natHash 2 fourKeys k = some (true, m1)) ∧
    _reHash natHash 2 fourKeys REHASH_UP_FACTOR
      = some (rebuildFrom natHash (_init 32) [(1, 10), (17, 170), (5, 50), (9, 90)]) ∧
    erase natHash 2 fourKeys 5
      = some (true, rebuildFrom natHash (_init 8) [(1, 10), (17, 170), (9, 90)]) ∧
    bucket (rebuildFrom natHash (_init 8 : HashMap Nat Nat) [(1, 10), (17, 170), (9, 90)]) 1
      = [(1, 10), (17, 170), (9, 90)] :=
  ⟨rehash_result natHash fourKeys 2
      (reachable_insertMany natHash 3 [(1, 10), (17, 170), (9, 90), (5, 50)] new fourKeys
        [true, true, true, true] Reachable.new (by decide)) (by decide),
    by decide, by decide, by decide⟩

/-- C27: in every reachable map every pair stored in `buckets[i]` has
`hash(key) & (capacity - 1) = i`; so `contains_key(k)`, which scans `buckets[index(k)]`
only, is true exactly when some bucket of the table holds a pair with key `k`. -/
theorem bucket_holds_its_index [DecidableEq K] [Inhabited V] (hash : K → Nat)
    (m : HashMap K V) (hr : Reachable hash m) :
    (∀ i p, p ∈ bucket m i → hash p.1 &&& (capacity m - 1) = i) ∧
    (∀ k, contains_key hash m k
      = (bucket m (hash k &&& (capacity m - 1))).any (fun p => decide (k = p.1))) ∧
    ∀ k, contains_key hash m k = true ↔ ∃ i v, i < capacity m ∧ (k, v) ∈ bucket m i := by
  have hm := reachable_inv hash m hr
  refine ⟨fun i p h => hm.idx i p h, fun k => rfl, fun k => ?_⟩
  rw [contains_key_iff hash m k hm.idx]
  constructor
  · rintro ⟨v, hv⟩
    have hb := (mem_toList_iff_bucket hash m (k, v) hm.idx).mp hv
    exact ⟨_, v, findHash_lt hash m k hm.cap_pow, hb⟩
  · rintro ⟨i, v, _, hv⟩
    exact ⟨v, (mem_toList_iff m (k, v)).mpr ⟨i, hv⟩⟩

/-- Witness of C27: the map with keys 17, 5 and 1. -/
theorem bucket_holds_its_index_witness :
    ((∀ i p, p ∈ bucket threeKeys i → natHash p.1 &&& (capacity threeKeys - 1) = i) ∧
      (∀ k, contains_key natHash threeKeys k
        = (bucket threeKeys (natHash k &&& (capacity threeKeys - 1))).any
          (fun p => decide (k = p.1))) ∧
      ∀ k, contains_key natHash threeKeys k = true ↔
        ∃ i v, i < capacity threeKeys ∧ (k, v) ∈ bucket threeKeys i) ∧
    bucket threeKeys 1 = [(17, 170), (1, 10)] ∧
    bucket threeKeys 5 = [(5, 50)] :=
  ⟨bucket_holds_its_index natHash threeKeys
      (reachable_insertMany natHash 3 [(17, 170), (5, 50), (1, 10)] new threeKeys
        [true, true, true] Reachable.new (by decide)),
    by decide, by decide⟩

/-- C28: in every reachable map no key occurs in more than one stored pair: not twice in
one chain, not in two different chains, and so not twice in the whole table. The
reachable maps are those the constructors, `insert`, `operator[]`, the write through
it, `erase`, `clear` and the rehashes inside them produce. -/
theorem keys_unique [DecidableEq K] [Inhabited V] (hash : K → Nat) (m : HashMap K V)
    (hr : Reachable hash m) :
    (∀ i, ((bucket m i).map Prod.fst).Nodup) ∧
    (∀ i j, i ≠ j → ∀ p, p ∈ bucket m i → ∀ q, q ∈ bucket m j → p.1 ≠ q.1) ∧
    (((List.range (capacity m)).map (fun i => bucket m i)).flatten.map Prod.fst).Nodup := by
  have hm := reachable_inv hash m hr
  refine ⟨fun i => nodup_bucket hash m i hm, fun i j hij p hp q hq h => ?_, ?_⟩
  · apply hij
    rw [← hm.idx i p hp, ← hm.idx j q hq, _findHash, _findHash, h]
  · unfold capacity
    rw [← toList_eq_buckets hash m hm]
    exact hm.nodup

/-- Witness of C28: the map with keys 17, 5 and 1. -/
theorem keys_unique_witness :
    ((∀ i, ((bucket threeKeys i).map Prod.fst).Nodup) ∧
      (∀ i j, i ≠ j →
        ∀ p, p ∈ bucket threeKeys i → ∀ q, q ∈ bucket threeKeys j → p.1 ≠ q.1) ∧
      (((List.range (capacity threeKeys)).map
        (fun i => bucket threeKeys i)).flatten.map Prod.fst).Nodup) ∧
    ((List.range 16).map (fun i => bucket threeKeys i)).flatten.map Prod.fst = [17, 1, 5] :=
  ⟨keys_unique natHash threeKeys
      (reachable_insertMany natHash 3 [(17, 170), (5, 50), (1, 10)] new threeKeys
        [true, true, true] Reachable.new (by decide)),
    by decide⟩

/-- C29: for every reachable map a rehash never starts a second rehash. With room for
one call of `_reHash` and none inside it, the doubling and (inside `erase`, when the
size fell below the lower limit) the halving return the table rebuilt once at the
target capacity, and before each pair is added again the growth test
`_size + 1 > _upperSizeLimit` of `_addNew` is false. An `_addNew` whose growth test is
true needs room for a call of `_reHash`. -/
theorem rehash_not_nested [DecidableEq K] [Inhabited V] (hash : K → Nat) (m : HashMap K V)
    (hr : Reachable hash m) :
    (_reHash hash 2 m REHASH_UP_FACTOR
        = some (rebuildFrom hash (_init (capacity m * 2)) (toList m)) ∧
      (rebuildFrom hash (_init (capacity m * 2)) (toList m))._capacity = capacity m * 2 ∧
      NoNestedRehash hash m (capacity m * 2)) ∧
    (∀ k, contains_key hash m k = true → size m - 1 < m._lowerSizeLimit →
      _reHash hash 2 (erasedRaw hash m k) REHASH_DOWN_FACTOR
          = some (rebuildFrom hash (_init (capacity m / 2)) (toList (erasedRaw hash m k))) ∧
        (rebuildFrom hash (_init (capacity m / 2)) (toList (erasedRaw hash m k)))._capacity
          = capacity m / 2 ∧
        NoNestedRehash hash (erasedRaw hash m k) (capacity m / 2)) ∧
    ∀ (m0 : HashMap K V) k v, m0._size + 1 > m0._upperSizeLimit →
      _addNew hash 1 m0 k v = none := by
  have hm := reachable_inv hash m hr
  have hu := hm.upper
  have hs := hm.size_le
  have hse := hm.size_eq
  refine ⟨⟨?_, (rebuildFrom_fields hash _ _).1, noNestedRehash_of_room hash m _
    (by simp only [capacity]; omega)⟩, fun k hk hg => ?_,
    fun m0 k v h => addNew_one_of_full hash m0 k v h⟩
  · rw [reHash_of_room hash 0 m REHASH_UP_FACTOR hm.len
      (by simp only [REHASH_UP_FACTOR, Nat.div_one]; omega)]
    simp [REHASH_UP_FACTOR, capacity]
  · have hraw := erasedRaw_spec hash m k hm hk
    have hse1 := hraw.1.size_eq
    have hl0 := hm.lower
    have hc1 := hraw.2.2.1
    have hs1 := hraw.2.2.2
    simp only [size] at hg
    have hroom : (toList (erasedRaw hash m k)).length ≤ m._capacity / 2 * 3 / 4 := by
      omega
    refine ⟨?_, (rebuildFrom_fields hash _ _).1, noNestedRehash_of_room hash _ _ hroom⟩
    rw [reHash_of_room hash 0 _ REHASH_DOWN_FACTOR hraw.1.len
      (by simp only [REHASH_DOWN_FACTOR, Nat.mul_one, hc1]; exact hroom)]
    simp [REHASH_DOWN_FACTOR, hc1, capacity]

/-- Witness of C29: the default map with keys 1, 17, 9 and 5, doubled to 32 and, in the
erase of key 5, halved to 8, each with room for one call of `_reHash` only. -/
theorem rehash_not_nested_witness :
    ((_reHash natHash 2 fourKeys REHASH_UP_FACTOR
          = some (rebuildFrom natHash (_init (capacity fourKeys * 2)) (toList fourKeys)) ∧
        (rebuildFrom natHash (_init (capacity fourKeys * 2)) (toList fourKeys))._capacity
          = capacity fourKeys * 2 ∧
        NoNestedRehash natHash fourKeys (capacity fourKeys * 2)) ∧
      (∀ k, contains_key natHash fourKeys k = true →
        size fourKeys - 1 < fourKeys._lowerSizeLimit →
        _reHash natHash 2 (erasedRaw natHash fourKeys k) REHASH_DOWN_FACTOR
            = some (rebuildFrom natHash (_init (capacity fourKeys / 2))
              (toList (erasedRaw natHash fourKeys k))) ∧
          (rebuildFrom natHash (_init (capacity fourKeys / 2))
              (toList (erasedRaw natHash fourKeys k)))._capacity
            = capacity fourKeys / 2 ∧
          NoNestedRehash natHash (erasedRaw natHash fourKeys k) (capacity fourKeys / 2)) ∧
      ∀ (m0 : HashMap Nat Nat) k v, m0._size + 1 > m0._upperSizeLimit →
        _addNew natHash 1 m0 k v = none) ∧
    (_reHash natHash 2 fourKeys REHASH_UP_FACTOR).map (fun m1 => (m1._capacity, m1._size))
      = some (32, 4) ∧
    (erase natHash 2 fourKeys 5).map (fun r => (r.2._capacity, r.2._size)) = some (8, 3) :=
  ⟨rehash_not_nested natHash fourKeys
      (reachable_insertMany natHash 3 [(1, 10), (17, 170), (9, 90), (5, 50)] new fourKeys
        [true, true, true, true] Reachable.new (by decide)),
    by decide, by decide⟩

/-- C30: the order of two inserts does not change the map up to `==`. For every
reachable map and every two distinct keys absent from it, `insert(k1, v1)` then
`insert(k2, v2)` and `insert(k2, v2)` then `insert(k1, v1)` all return true and the two
resulting maps compare equal, whether or not the keys share a bucket and whether or
not an insert grows the table. -/
theorem insert_order_irrelevant [DecidableEq K] [DecidableEq V] [Inhabited V]
    (hash : K → Nat) (m : HashMap K V) (k1 k2 : K) (v1 v2 : V) (fuel : Nat)
    (hr : Reachable hash m) (hne : k1 ≠ k2) (h1 : contains_key hash m k1 = false)
    (h2 : contains_key hash m k2 = false) (hf : 3 ≤ fuel) :
    ∃ m1 a m2 b, insert hash fuel m k1 v1 = some (true, m1) ∧
      insert hash fuel m1 k2 v2 = some (true, a) ∧
      insert hash fuel m k2 v2 = some (true, m2) ∧
      insert hash fuel m2 k1 v1 = some (true, b) ∧
      operator_eq a b = true ∧ operator_ne a b = false := by
  have hm := reachable_inv hash m hr
  have ha1 := added_spec hash m k1 v1 hm h1
  have hb1 := added_spec hash m k2 v2 hm h2
  have hc12 := contains_added_other hash m k1 k2 v1 hm h1 h2 (fun e => hne e.symm)
  have hc21 := contains_added_other hash m k2 k1 v2 hm h2 h1 hne
  have ha2 := added_spec hash _ k2 v2 ha1.1 hc12
  have hb2 := added_spec hash _ k1 v1 hb1.1 hc21
  have hcap : (added hash (added hash m k1 v1) k2 v2)._capacity
      = (added hash (added hash m k2 v2) k1 v1)._capacity := by
    rw [ha2.2.2.1, hb2.2.2.1, ha1.1.upper, hb1.1.upper, ha1.2.2.2, hb1.2.2.2, ha1.2.2.1,
      hb1.2.2.1]
  have hperm : (toList (added hash (added hash m k1 v1) k2 v2)).Perm
      (toList (added hash (added hash m k2 v2) k1 v1)) := by
    refine ha2.2.1.trans (List.Perm.trans ?_ hb2.2.1.symm)
    refine (ha1.2.1.append_right _).trans (List.Perm.trans ?_ (hb1.2.1.append_right _).symm)
    rw [List.append_assoc, List.append_assoc]
    exact List.Perm.append_left _ (List.Perm.swap _ _ _)
  have heq := operator_eq_of_perm hash _ _ ha2.1 hb2.1 hcap hperm
  exact ⟨_, _, _, _, insert_eq_added hash fuel m k1 v1 hm h1 hf,
    insert_eq_added hash fuel _ k2 v2 ha1.1 hc12 hf,
    insert_eq_added hash fuel m k2 v2 hm h2 hf,
    insert_eq_added hash fuel _ k1 v1 hb1.1 hc21 hf, heq, by rw [operator_ne, heq]; rfl⟩

/-- Witness of C30: a default map with the keys 0 to 10; the keys 100 and 132 both fall
into bucket 4, and the second of the two inserts doubles the table (size 12 at capacity
16). The two chains 4 differ in order and the maps compare equal. -/
theorem insert_order_irrelevant_witness :
    (100 : Nat) ≠ 132 ∧
    contains_key natHash elevenKeys 100 = false ∧
    contains_key natHash elevenKeys 132 = false ∧
    (∃ m1 a m2 b, insert natHash 3 elevenKeys 100 1 = some (true, m1) ∧
      insert natHash 3 m1 132 2 = some (true, a) ∧
      insert natHash 3 elevenKeys 132 2 = some (true, m2) ∧
      insert natHash 3 m2 100 1 = some (true, b) ∧
      operator_eq a b = true ∧ operator_ne a b = false) ∧
    ((insert natHash 3 elevenKeys 100 1).bind (fun r => insert natHash 3 r.2 132 2)).map
        (fun r => (r.2._capacity, bucket r.2 4))
      = some (32, [(4, 4), (100, 1), (132, 2)]) ∧
    ((insert natHash 3 elevenKeys 132 2).bind (fun r => insert natHash 3 r.2 100 1)).map
        (fun r => (r.2._capacity, bucket r.2 4))
      = some (32, [(4, 4), (132, 2), (100, 1)]) :=
  ⟨by decide, by decide, by decide,
    insert_order_irrelevant natHash elevenKeys 100 132 1 2 3
      (reachable_insertMany natHash 3 ((List.range 11).map (fun i => (i, i))) new elevenKeys
        (List.replicate 11 true) Reachable.new (by decide))
      (by decide) (by decide) (by decide) (by decide),
    by decide, by decide⟩

end HashMap

namespace Ex1

/-! ## Arrays with unwritten cells -/

theorem writeAt_next {α : Type} (done : List α) (rest : Nat) (x : α) :
    writeAt (done.map some ++ List.replicate (rest + 1) none) (done.length : Int) x
      = Except.ok ((done ++ [x]).map some ++ List.replicate rest none) := by
  have h : (0 : Int) ≤ (done.length : Int) ∧
      (done.length : Int).toNat
        < (done.map some ++ List.replicate (rest + 1) (none : Option α)).length := by
    constructor
    · exact Int.ofNat_nonneg _
    · simp
  rw [writeAt, if_pos h]
  congr 1
  simp [List.replicate_succ]

theorem readAt_written {α : Type} (l : List α) (rest : Nat) (i : Nat) (x : α)
    (h : l[i]? = some x) :
    readAt (l.map some ++ List.replicate rest none) (i : Int) = Except.ok x := by
  have hi : i < l.length := (List.getElem?_eq_some.mp h).1
  have h1 : (l.map some ++ List.replicate rest (none : Option α))[i]? = some (some x) := by
    rw [List.getElem?_append_left (by simpa using hi)]
    simp [h]
  simp [readAt, h1]

/-! ## Rows of one length, laid out one after the other -/

theorem getElem_flatten_uniform {α : Type} (mat : List (List α)) (c : Nat)
    (h : ∀ row, row ∈ mat → row.length = c) (i j : Nat) (hj : j < c) :
    mat.flatten[i * c + j]? = (mat[i]?).bind (fun row => row[j]?) := by
  induction mat generalizing i with
  | nil => simp
  | cons row rest ih =>
    have hrow : row.length = c := h row (List.mem_cons_self _ _)
    have hrest : ∀ r, r ∈ rest → r.length = c := fun r hr => h r (List.mem_cons_of_mem _ hr)
    cases i with
    | zero =>
      simp only [Nat.zero_mul, Nat.zero_add, List.flatten_cons, List.getElem?_cons_zero,
        Option.some_bind]
      exact List.getElem?_append_left (by omega)
    | succ i =>
      simp only [List.flatten_cons, List.getElem?_cons_succ]
      rw [List.getElem?_append_right (by rw [hrow, Nat.succ_mul]; omega), ← ih hrest i]
      congr 1
      rw [hrow, Nat.succ_mul]; omega

theorem except_ok_bind {ε α β : Type} (a : α) (f : α → Except ε β) :
    (Except.ok a >>= f) = f a := rfl

theorem except_pure {ε α : Type} (a : α) : (pure a : Except ε α) = Except.ok a := rfl

namespace Matrix

theorem readCell_eq_ok (mat : List (List ℚ)) (i j : Nat) (x : ℚ)
    (h : (mat[i]?).bind (fun row => row[j]?) = some x) :
    readCell mat (i : Int) (j : Int) = Except.ok x := by
  have h0 : ¬ ((i : Int) < 0 ∨ (j : Int) < 0) := by omega
  rw [readCell, if_neg h0]
  simp only [Int.toNat_ofNat]
  cases hr : mat[i]? with
  | none => rw [hr] at h; cases h
  | some row =>
    rw [hr] at h
    simp only [Option.some_bind] at h
    simp only [h]

end Matrix

/-! ## Well-formed matrices and their accessors -/

namespace Matrix

theorem wf_ctor (rows cols : Int) (hr : 0 ≤ rows) (hc : 0 ≤ cols) :
    ∃ m, ctor rows cols = Except.ok m ∧ WF m ∧ m._rows = rows ∧ m._cols = cols := by
  have h : ¬ (rows < 0 ∨ cols < 0) := by omega
  refine ⟨_, by rw [ctor, if_neg h], ⟨hr, hc, ?_, ?_⟩, rfl, rfl⟩
  · simp
  · intro row hrow
    rw [(List.mem_replicate.mp hrow).2]
    simp

/-- The cell `_mat[i][j]` of a well-formed matrix is cell `i * _cols + j` of the rows
laid out one after the other. -/
theorem readCell_flat (m : Matrix) (hm : WF m) (i j : Nat) (hi : (i : Int) < m._rows)
    (hj : (j : Int) < m._cols) :
    ∃ x, m._mat.flatten[i * m._cols.toNat + j]? = some x ∧
      readCell m._mat (i : Int) (j : Int) = Except.ok x := by
  obtain ⟨r, hr⟩ := Int.eq_ofNat_of_zero_le hm.rows_nonneg
  obtain ⟨c, hc⟩ := Int.eq_ofNat_of_zero_le hm.cols_nonneg
  have hlen : m._mat.length = r := by rw [hm.len, hr]; rfl
  have hc1 : m._cols.toNat = c := by rw [hc]; rfl
  have hrows : ∀ row, row ∈ m._mat → row.length = c := by
    intro row h; rw [hm.row_len row h, hc1]
  have hi1 : i < m._mat.length := by omega
  have hj1 : j < c := by omega
  have hjl : j < (m._mat[i]).length := by rw [hrows _ (List.getElem_mem hi1)]; exact hj1
  have hflat := getElem_flatten_uniform m._mat c hrows i j hj1
  have hb : (m._mat[i]?).bind (fun row => row[j]?) = some (m._mat[i])[j] := by
    rw [List.getElem?_eq_getElem hi1]
    simp [List.getElem?_eq_getElem hjl]
  refine ⟨(m._mat[i])[j], ?_, readCell_eq_ok _ i j _ hb⟩
  rw [hc1, hflat, hb]

theorem operator_paren_flat (m : Matrix) (hm : WF m) (i j : Int) (hi0 : 0 ≤ i)
    (hi : i < m._rows) (hj0 : 0 ≤ j) (hj : j < m._cols) :
    ∃ x, m._mat.flatten[i.toNat * m._cols.toNat + j.toNat]? = some x ∧
      operator_paren m i j = Except.ok x := by
  obtain ⟨a, rfl⟩ := Int.eq_ofNat_of_zero_le hi0
  obtain ⟨b, rfl⟩ := Int.eq_ofNat_of_zero_le hj0
  obtain ⟨x, h1, h2⟩ := readCell_flat m hm a b hi hj
  have hg : ¬ ((a : Int) < 0 ∨ (a : Int) > m._rows - 1 ∨ (b : Int) < 0 ∨
      (b : Int) > m._cols - 1) := by omega
  exact ⟨x, h1, by rw [operator_paren, if_neg hg, h2]⟩

/-- Beyond the range of `int` the product of the dimensions overflows: on a 46341 x 46341
matrix neither `vectorize` nor `operator[]` has a defined result. -/
theorem vectorize_overflow :
    WF bigSquare ∧ bigSquare._rows * bigSquare._cols = 2147488281 ∧
    ¬ (bigSquare._rows * bigSquare._cols ≤ INT_MAX) ∧
    vectorize bigSquare = Except.error Fault.undefined_behaviour ∧
    operator_bracket bigSquare 0 = Except.error Fault.undefined_behaviour := by
  refine ⟨⟨by decide, by decide, ?_, ?_⟩, by decide, by decide, by rfl, by rfl⟩
  · exact List.length_replicate 46341 (List.replicate 46341 (0 : ℚ))
  · intro row h
    have hrow : row = List.replicate 46341 (0 : ℚ) := (List.mem_replicate.mp h).2
    rw [hrow]
    exact List.length_replicate 46341 (0 : ℚ)


end Matrix

/-! ## Writes through `operator()` and loops that fill a matrix -/

namespace Matrix

/-- The cell `mat[a][b]`, when there is one. -/
theorem readCell_nat (mat : List (List ℚ)) (a b : Nat) :
    readCell mat (a : Int) (b : Int)
      = match (mat[a]?).bind (fun row => row[b]?) with
        | some x => Except.ok x
        | none => Except.error Fault.undefined_behaviour := by
  have h0 : ¬ ((a : Int) < 0 ∨ (b : Int) < 0) := by omega
  rw [readCell, if_neg h0]
  simp only [Int.toNat_ofNat]
  cases hr : mat[a]? with
  | none => rfl
  | some row =>
    cases hx : row[b]? with
    | none => simp [hx]
    | some x => simp [hx]

theorem writeCell_ok (mat : List (List ℚ)) (i j : Nat) (x : ℚ) (row : List ℚ)
    (hrow : mat[i]? = some row) (hj : j < row.length) :
    writeCell mat (i : Int) (j : Int) x = Except.ok (mat.set i (row.set j x)) := by
  have h0 : ¬ ((i : Int) < 0 ∨ (j : Int) < 0) := by omega
  rw [writeCell, if_neg h0]
  simp only [Int.toNat_ofNat, hrow, if_pos hj]

theorem cell_set (mat : List (List ℚ)) (i j : Nat) (x : ℚ) (row : List ℚ)
    (hrow : mat[i]? = some row) (hj : j < row.length) (a b : Nat) :
    ((mat.set i (row.set j x))[a]?).bind (fun r => r[b]?)
      = if a = i ∧ b = j then some x else (mat[a]?).bind (fun r => r[b]?) := by
  have hi : i < mat.length := (List.getElem?_eq_some.mp hrow).1
  by_cases ha : a = i
  · subst ha
    rw [List.getElem?_set_self hi, Option.some_bind, hrow, Option.some_bind]
    by_cases hb : b = j
    · subst hb
      rw [List.getElem?_set_self hj, if_pos ⟨rfl, rfl⟩]
    · rw [List.getElem?_set_ne (fun e => hb e.symm), if_neg (fun h => hb h.2)]
  · rw [List.getElem?_set_ne (fun e => ha e.symm), if_neg (fun h => ha h.1)]

/-- A write `m(i, j) = x` inside the dimensions of a well-formed matrix returns, keeps
the matrix well-formed, and changes cell `(i, j)` only. -/
theorem assign_paren_ok (q : Matrix) (hq : WF q) (i j : Nat) (hi : (i : Int) < q._rows)
    (hj : (j : Int) < q._cols) (x : ℚ) :
    ∃ q1, assign_paren q (i : Int) (j : Int) x = Except.ok q1 ∧ WF q1 ∧
      q1._rows = q._rows ∧ q1._cols = q._cols ∧
      ∀ a b : Nat, (q1._mat[a]?).bind (fun r => r[b]?)
        = if a = i ∧ b = j then some x else (q._mat[a]?).bind (fun r => r[b]?) := by
  have hil : i < q._mat.length := by rw [hq.len]; omega
  have hrow : q._mat[i]? = some q._mat[i] := List.getElem?_eq_getElem hil
  have hjl : j < (q._mat[i]).length := by
    rw [hq.row_len _ (List.getElem_mem hil)]; omega
  have hg : ¬ ((i : Int) < 0 ∨ (i : Int) > q._rows - 1 ∨ (j : Int) < 0 ∨
      (j : Int) > q._cols - 1) := by omega
  refine ⟨{ q with _mat := q._mat.set i ((q._mat[i]).set j x) }, ?_, ⟨hq.rows_nonneg,
    hq.cols_nonneg, ?_, ?_⟩, rfl, rfl, fun a b => cell_set q._mat i j x _ hrow hjl a b⟩
  · rw [assign_paren, if_neg hg, writeCell_ok q._mat i j x _ hrow hjl]
    rfl
  · simp only [List.length_set]; exact hq.len
  · intro row hmem
    rcases List.mem_or_eq_of_mem_set hmem with h | h
    · exact hq.row_len row h
    · rw [h, List.length_set]; exact hq.row_len _ (List.getElem_mem hil)


/-- The state of a loop that writes `g a b` into every cell, row by row, when the rows
before `i` and the first `k` cells of row `i` are written. -/
theorem fill_row (r c : Nat) (g : Nat → Nat → ℚ)
    (f : Matrix → Int → Int → Except Fault Matrix)
    (hf : ∀ q i j, i < r → j < c → f q (i : Int) (j : Int) = assign_paren q i j (g i j))
    (i : Nat) (hi : i < r) (q : Matrix) (hq : WF q) (hr : q._rows = r) (hc : q._cols = c)
    (hdone : ∀ a b : Nat, a < i → b < c → (q._mat[a]?).bind (fun row => row[b]?) = some (g a b))
    (k : Nat) (hk : k ≤ c) :
    ∃ q1, (List.range k).foldlM (fun q1 (j : Nat) => f q1 (i : Int) (j : Int)) q = Except.ok q1 ∧
      WF q1 ∧ q1._rows = r ∧ q1._cols = c ∧
      ∀ a b : Nat, b < c → (a < i ∨ (a = i ∧ b < k)) →
        (q1._mat[a]?).bind (fun row => row[b]?) = some (g a b) := by
  induction k with
  | zero =>
    refine ⟨q, rfl, hq, hr, hc, fun a b hb h => ?_⟩
    rcases h with h | h
    · exact hdone a b h hb
    · exact absurd h.2 (Nat.not_lt_zero _)
  | succ k ih =>
    obtain ⟨q1, h1, hw, hr1, hc1, hcells⟩ := ih (by omega)
    obtain ⟨q2, h2, hw2, hr2, hc2, hcells2⟩ := assign_paren_ok q1 hw i k
      (by rw [hr1]; exact Int.ofNat_lt.mpr hi) (by rw [hc1]; exact Int.ofNat_lt.mpr (by omega))
      (g i k)
    refine ⟨q2, ?_, hw2, by rw [hr2, hr1], by rw [hc2, hc1], fun a b hb h => ?_⟩
    · rw [List.range_succ, List.foldlM_append, h1]
      simp only [except_ok_bind, List.foldlM_cons, List.foldlM_nil, hf q1 i k hi (by omega), h2]
      rfl
    · rw [hcells2 a b]
      by_cases hab : a = i ∧ b = k
      · rw [if_pos hab, hab.1, hab.2]
      · rw [if_neg hab]
        apply hcells a b hb
        rcases h with h | h
        · exact Or.inl h
        · refine Or.inr ⟨h.1, ?_⟩
          have : b ≠ k := fun e => hab ⟨h.1, e⟩
          omega

theorem fill_rows (r c : Nat) (g : Nat → Nat → ℚ)
    (f : Matrix → Int → Int → Except Fault Matrix)
    (hf : ∀ q i j, i < r → j < c → f q (i : Int) (j : Int) = assign_paren q i j (g i j))
    (q : Matrix) (hq : WF q) (hr : q._rows = r) (hc : q._cols = c) (i : Nat) (hi : i ≤ r) :
    ∃ q1, (List.range i).foldlM
        (fun q1 (a : Nat) => (List.range c).foldlM
          (fun q2 (j : Nat) => f q2 (a : Int) (j : Int)) q1) q = Except.ok q1 ∧
      WF q1 ∧ q1._rows = r ∧ q1._cols = c ∧
      ∀ a b : Nat, a < i → b < c → (q1._mat[a]?).bind (fun row => row[b]?) = some (g a b) := by
  induction i with
  | zero => exact ⟨q, rfl, hq, hr, hc, fun a b h _ => absurd h (Nat.not_lt_zero _)⟩
  | succ i ih =>
    obtain ⟨q1, h1, hw, hr1, hc1, hcells⟩ := ih (by omega)
    obtain ⟨q2, h2, hw2, hr2, hc2, hcells2⟩ :=
      fill_row r c g f hf i (by omega) q1 hw hr1 hc1 hcells c (Nat.le_refl c)
    refine ⟨q2, ?_, hw2, hr2, hc2, fun a b ha hb => hcells2 a b hb ?_⟩
    · rw [List.range_succ, List.foldlM_append, h1]
      simp only [except_ok_bind, List.foldlM_cons, List.foldlM_nil, h2]
      rfl
    · rcases Nat.lt_succ_iff_lt_or_eq.mp ha with h | h
      · exact Or.inl h
      · exact Or.inr ⟨h, hb⟩

end Matrix

/-! ## The shades and the range index of `quantization` -/

/-- The shades `first, first + range, first + 2 * range, ...`, `n` of them. -/
theorem fillShades_steps (range first : Int) (total k : Nat) (hk : k + 1 ≤ total) :
    (List.range' 1 k).foldlM
        (fun a (i : Nat) =>
          match readAt a ((i : Int) - 1) with
          | Except.error e => Except.error e
          | Except.ok prev => writeAt a (i : Int) (prev + range))
        ([some first] ++ List.replicate (total - 1) none)
      = Except.ok (((List.range (k + 1)).map (fun i : Nat => first + (i : Int) * range)).map some
          ++ List.replicate (total - 1 - k) none) := by
  induction k with
  | zero => simp [except_pure, List.range_succ]
  | succ k ih =>
    rw [List.range'_concat, List.foldlM_append, ih (by omega), Nat.one_mul]
    simp only [except_ok_bind, List.foldlM_cons, List.foldlM_nil, except_pure]
    have hread := readAt_written ((List.range (k + 1)).map (fun i : Nat => first + (i : Int) * range))
      (total - 1 - k) k (first + (k : Int) * range) (by simp)
    have e0 : ((1 + k : Nat) : Int) - 1 = (k : Int) := by omega
    rw [e0, hread]
    have hw := writeAt_next ((List.range (k + 1)).map (fun i : Nat => first + (i : Int) * range))
      (total - 1 - (k + 1)) (first + (k : Int) * range + range)
    have e1 : total - 1 - (k + 1) + 1 = total - 1 - k := by omega
    have e2 : (((List.range (k + 1)).map (fun i : Nat => first + (i : Int) * range)).length : Int)
        = ((1 + k : Nat) : Int) := by simp; omega
    rw [e1, e2] at hw
    have e3 : (List.range (k + 1 + 1)).map (fun i : Nat => first + (i : Int) * range)
        = (List.range (k + 1)).map (fun i : Nat => first + (i : Int) * range)
          ++ [first + (k : Int) * range + range] := by
      rw [List.range_succ, List.map_append]
      simp only [List.map_cons, List.map_nil]
      congr 2
      push_cast
      ring
    simp only [hw, e3]
    rfl

theorem fillShades_eq (range first : Int) (L : Nat) (hL : 1 ≤ L) :
    fillShades range (L : Int) ([some first] ++ List.replicate (L - 1) none)
      = Except.ok (((List.range L).map (fun i : Nat => first + (i : Int) * range)).map some) := by
  have h := fillShades_steps range first L (L - 1) (by omega)
  have e : L - 1 + 1 = L := by omega
  rw [e, Nat.sub_self, List.replicate_zero, List.append_nil] at h
  simp only [fillShades, Int.toNat_ofNat]
  exact h

theorem toInt_of_pixel (v : ℚ) (h0 : 0 ≤ v) (h1 : v ≤ 255) :
    toInt v = Except.ok (Int.floor v) ∧ 0 ≤ Int.floor v ∧ Int.floor v ≤ 255 := by
  have hf0 : 0 ≤ Int.floor v := Int.floor_nonneg.mpr h0
  have hf1 : Int.floor v ≤ 255 := by
    have : Int.floor v ≤ Int.floor (255 : ℚ) := Int.floor_le_floor h1
    simpa using this
  refine ⟨?_, hf0, hf1⟩
  have hr : INT_MIN ≤ Int.floor v ∧ Int.floor v ≤ INT_MAX := by
    simp only [INT_MIN, INT_MAX]; omega
  simp only [toInt, if_pos h0, if_pos hr]

/-- With `range = 256 / L`, the greatest range index `255 / range` is below `L` exactly
when `L` divides 256. -/
theorem index_bound_nat (L : Nat) (h1 : 1 ≤ L) (h2 : L ≤ 256) :
    255 / (256 / L) < L ↔ 256 % L = 0 := by
  have hr : 0 < 256 / L := Nat.div_pos h2 (by omega)
  have hdm := Nat.div_add_mod 256 L
  have hml := Nat.mod_lt 256 (by omega : L > 0)
  rw [Nat.div_lt_iff_lt_mul hr]
  generalize L * (256 / L) = a at hdm ⊢
  generalize 256 % L = b at hdm hml ⊢
  omega

/-- The read `newShade[intVal]` of `quantizeCell` when the range index is in bounds. -/
theorem quantizeCell_of_index (image : Matrix) (range first : Int) (L : Nat) (q : Matrix)
    (i j : Int) (v : ℚ) (iv : Int) (hv : image.operator_paren i j = Except.ok v)
    (hiv : toInt v = Except.ok iv) (hr : range ≠ 0) (h0 : 0 ≤ Int.tdiv iv range)
    (hlt : Int.tdiv iv range < (L : Int)) :
    quantizeCell image range
        (((List.range L).map (fun n : Nat => first + (n : Int) * range)).map some) q i j
      = q.assign_paren i j ((first + Int.tdiv iv range * range : Int) : ℚ) := by
  obtain ⟨n, hn⟩ := Int.eq_ofNat_of_zero_le h0
  have hnL : n < L := by omega
  have hread := readAt_written ((List.range L).map (fun n : Nat => first + (n : Int) * range))
    0 n (first + (n : Int) * range) (by simp [hnL])
  rw [List.replicate_zero, List.append_nil] at hread
  simp only [quantizeCell, hv, hiv, if_neg hr, hn, hread]

/-- Which numbers of levels keep the range index of every pixel below `levels`: exactly
those that divide 256. -/
theorem index_in_bounds_iff (levels : Int) (h1 : 1 ≤ levels) (h2 : levels ≤ 256) :
    (∀ v : ℚ, 0 ≤ v → v ≤ 255 →
      ∃ iv, toInt v = Except.ok iv ∧ Int.tdiv iv (Int.tdiv NUM_OF_SHADES levels) < levels)
      ↔ Int.tmod NUM_OF_SHADES levels = 0 := by
  obtain ⟨L, rfl⟩ := Int.eq_ofNat_of_zero_le (by omega : 0 ≤ levels)
  have hL1 : 1 ≤ L := by omega
  have hL2 : L ≤ 256 := by omega
  have hnat := index_bound_nat L hL1 hL2
  have hrange : Int.tdiv NUM_OF_SHADES (L : Int) = ((256 / L : Nat) : Int) := rfl
  have hmod : Int.tmod NUM_OF_SHADES (L : Int) = ((256 % L : Nat) : Int) := rfl
  rw [hrange, hmod]
  constructor
  · intro h
    obtain ⟨iv, hiv, hlt⟩ := h 255 (by norm_num) (by norm_num)
    have h255 : toInt 255 = Except.ok 255 := by rfl
    rw [h255] at hiv
    cases hiv
    have : ((255 / (256 / L) : Nat) : Int) < (L : Int) := hlt
    have := hnat.mp (Int.ofNat_lt.mp this)
    rw [this]; rfl
  · intro h
    have hz : 256 % L = 0 := by exact_mod_cast h
    have hb := hnat.mpr hz
    intro v hv0 hv1
    obtain ⟨ht, hf0, hf1⟩ := toInt_of_pixel v hv0 hv1
    refine ⟨_, ht, ?_⟩
    obtain ⟨n, hn⟩ := Int.eq_ofNat_of_zero_le hf0
    rw [hn, ← Int.ofNat_tdiv]
    have hn1 : n ≤ 255 := by omega
    have : n / (256 / L) ≤ 255 / (256 / L) := Nat.div_le_div_right hn1
    exact Int.ofNat_lt.mpr (by omega)

/-- When `levels` divides 256 and every pixel lies in `[0, 255]`, `quantization` returns:
every range index is below `levels`, and the output pixel is
`range / 2 - 1 + index * range` with `range = 256 / levels`. -/
theorem quantization_of_dvd (image : Matrix) (levels : Int) (hm : Matrix.WF image)
    (h1 : 1 ≤ levels) (h2 : levels ≤ 256) (hd : Int.tmod NUM_OF_SHADES levels = 0)
    (hpix : ∀ i j v, image.operator_paren i j = Except.ok v → 0 ≤ v ∧ v ≤ 255) :
    ∃ out, quantization image levels = Except.ok out ∧ Matrix.WF out ∧
      out.getRows = image.getRows ∧ out.getCols = image.getCols ∧
      ∀ i j, 0 ≤ i → i < image.getRows → 0 ≤ j → j < image.getCols →
        ∃ v iv, image.operator_paren i j = Except.ok v ∧ toInt v = Except.ok iv ∧
          0 ≤ Int.tdiv iv (Int.tdiv NUM_OF_SHADES levels) ∧
          Int.tdiv iv (Int.tdiv NUM_OF_SHADES levels) < levels ∧
          out.operator_paren i j = Except.ok
            ((Int.tdiv (Int.tdiv NUM_OF_SHADES levels) 2 - 1
              + Int.tdiv iv (Int.tdiv NUM_OF_SHADES levels)
                * Int.tdiv NUM_OF_SHADES levels : Int) : ℚ) := by
  obtain ⟨L, rfl⟩ := Int.eq_ofNat_of_zero_le (by omega : 0 ≤ levels)
  have hL1 : 1 ≤ L := by omega
  have hL2 : L ≤ 256 := by omega
  have hrange : Int.tdiv NUM_OF_SHADES (L : Int) = ((256 / L : Nat) : Int) := rfl
  have hmod : 256 % L = 0 := by
    have : Int.tmod NUM_OF_SHADES (L : Int) = ((256 % L : Nat) : Int) := rfl
    rw [this] at hd
    exact_mod_cast hd
  have hidx := (index_bound_nat L hL1 hL2).mpr hmod
  have hrpos : 0 < 256 / L := Nat.div_pos hL2 (by omega)
  obtain ⟨r, hr⟩ := Int.eq_ofNat_of_zero_le hm.rows_nonneg
  obtain ⟨c, hc⟩ := Int.eq_ofNat_of_zero_le hm.cols_nonneg
  obtain ⟨q0, hq0, hw0, hr0, hc0⟩ := Matrix.wf_ctor image._rows image._cols hm.rows_nonneg
    hm.cols_nonneg
  -- what the loop body does to a pixel inside the image
  have hcell : ∀ i j : Nat, i < r → j < c →
      ∃ v, image.operator_paren (i : Int) (j : Int) = Except.ok v ∧
        toInt v = Except.ok (Int.floor v) ∧
        0 ≤ Int.tdiv (Int.floor v) ((256 / L : Nat) : Int) ∧
        Int.tdiv (Int.floor v) ((256 / L : Nat) : Int) < (L : Int) := by
    intro i j hi hj
    obtain ⟨v, _, hv⟩ := Matrix.operator_paren_flat image hm i j (Int.ofNat_nonneg _)
      (by rw [hr]; exact Int.ofNat_lt.mpr hi) (Int.ofNat_nonneg _)
      (by rw [hc]; exact Int.ofNat_lt.mpr hj)
    obtain ⟨hv0, hv1⟩ := hpix i j v hv
    obtain ⟨ht, hf0, hf1⟩ := toInt_of_pixel v hv0 hv1
    obtain ⟨n, hn⟩ := Int.eq_ofNat_of_zero_le hf0
    have hn1 : n ≤ 255 := by omega
    have hle : n / (256 / L) ≤ 255 / (256 / L) := Nat.div_le_div_right hn1
    refine ⟨v, hv, ht, ?_, ?_⟩
    · rw [hn, ← Int.ofNat_tdiv]; exact Int.ofNat_nonneg _
    · rw [hn, ← Int.ofNat_tdiv]; exact Int.ofNat_lt.mpr (by omega)
  -- the value the loop writes into cell (i, j)
  obtain ⟨g, hg⟩ : ∃ g : Nat → Nat → ℚ, ∀ (i j : Nat) (v : ℚ), image.operator_paren (i : Int) (j : Int)
      = Except.ok v → g i j = ((Int.tdiv ((256 / L : Nat) : Int) 2 - 1
        + Int.tdiv (Int.floor v) ((256 / L : Nat) : Int) * ((256 / L : Nat) : Int) : Int) : ℚ) := by
    refine ⟨fun i j => match image.operator_paren (i : Int) (j : Int) with
      | Except.ok v => ((Int.tdiv ((256 / L : Nat) : Int) 2 - 1
          + Int.tdiv (Int.floor v) ((256 / L : Nat) : Int) * ((256 / L : Nat) : Int) : Int) : ℚ)
      | Except.error _ => 0, fun (i j : Nat) v h => ?_⟩
    simp only [h]
  have hf : ∀ (q : Matrix) (i j : Nat), i < r → j < c →
      quantizeCell image ((256 / L : Nat) : Int)
          (((List.range L).map (fun n : Nat =>
            Int.tdiv ((256 / L : Nat) : Int) 2 - 1 + (n : Int) * ((256 / L : Nat) : Int))).map some)
          q (i : Int) (j : Int)
        = q.assign_paren (i : Int) (j : Int) (g i j) := by
    intro q i j hi hj
    obtain ⟨v, hv, ht, hi0, hilt⟩ := hcell i j hi hj
    rw [quantizeCell_of_index image _ _ L q i j v _ hv ht (by omega) hi0 hilt, hg i j v hv]
  obtain ⟨out, hloop, hwo, hro, hco, hcells⟩ := Matrix.fill_rows r c g
    (fun q i j => quantizeCell image ((256 / L : Nat) : Int)
      (((List.range L).map (fun n : Nat =>
        Int.tdiv ((256 / L : Nat) : Int) 2 - 1 + (n : Int) * ((256 / L : Nat) : Int))).map some)
      q i j) hf q0 hw0 (by rw [hr0, hr]) (by rw [hc0, hc]) r (Nat.le_refl r)
  have hne : ¬ ((L : Int) = 0) := by omega
  have hnn : ¬ ((L : Int) < 0) := by omega
  have hwrite : writeAt (List.replicate L (none : Option Int)) 0
      (Int.tdiv ((256 / L : Nat) : Int) 2 - 1)
      = Except.ok ([some (Int.tdiv ((256 / L : Nat) : Int) 2 - 1)]
          ++ List.replicate (L - 1) none) := by
    have h := writeAt_next ([] : List Int) (L - 1) (Int.tdiv ((256 / L : Nat) : Int) 2 - 1)
    have e : L - 1 + 1 = L := by omega
    rw [e] at h
    exact h
  have hrn : image._rows.toNat = r := by rw [hr]; rfl
  have hcn : image._cols.toNat = c := by rw [hc]; rfl
  refine ⟨out, ?_, hwo, by simp only [Matrix.getRows, hro, hr],
    by simp only [Matrix.getCols, hco, hc], fun i j hi0 hi hj0 hj => ?_⟩
  · simp only [quantization, Matrix.getRows, Matrix.getCols, hq0, if_neg hne, if_neg hnn,
      hrange, Int.toNat_ofNat, hwrite, fillShades_eq _ _ L hL1, hrn, hcn]
    exact hloop
  · simp only [Matrix.getRows, Matrix.getCols] at hi hj
    obtain ⟨a, rfl⟩ := Int.eq_ofNat_of_zero_le hi0
    obtain ⟨b, rfl⟩ := Int.eq_ofNat_of_zero_le hj0
    have ha : a < r := by omega
    have hb : b < c := by omega
    obtain ⟨v, hv, ht, hi0, hilt⟩ := hcell a b ha hb
    refine ⟨v, _, hv, ht, by rw [hrange]; exact hi0, by rw [hrange]; exact hilt, ?_⟩
    have hgd : ¬ ((a : Int) < 0 ∨ (a : Int) > out._rows - 1 ∨ (b : Int) < 0 ∨
        (b : Int) > out._cols - 1) := by omega
    rw [Matrix.operator_paren, if_neg hgd, Matrix.readCell_nat, hcells a b ha hb, hrange,
      hg a b v hv]

/-! ## The claims about the matrix and `quantization` -/

namespace Matrix

end Matrix

/-- C32: the claim fails on the code at `levels = 3`. There `range = 256 / 3 = 85`; the
pixel 255 (a value of `[0, 255]`) has range index `255 / 85 = 3`, which is not below 3,
and the array `newShade` holds the 3 shades 41, 126 and 211: the read `newShade[3]` is
outside the array, and `quantization` has no defined result. For `1 <= levels <= 256`
the range index of every pixel of `[0, 255]` is below `levels` exactly when `levels`
divides 256. -/
theorem quantization_lookup_out_of_bounds :
    ((1 : Int) ≤ 3 ∧ (3 : Int) ≤ 256) ∧
    Matrix.WF whitePixel ∧
    whitePixel.operator_paren 0 0 = Except.ok 255 ∧
    ((0 : ℚ) ≤ 255 ∧ (255 : ℚ) ≤ 255) ∧
    Int.tdiv NUM_OF_SHADES 3 = 85 ∧
    toInt 255 = Except.ok 255 ∧
    Int.tdiv 255 85 = 3 ∧
    writeAt (List.replicate 3 (none : Option Int)) 0 (Int.tdiv 85 2 - 1)
      = Except.ok [some 41, none, none] ∧
    fillShades 85 3 [some 41, none, none] = Except.ok [some 41, some 126, some 211] ∧
    readAt [some (41 : Int), some 126, some 211] 3
      = Except.error Fault.undefined_behaviour ∧
    quantization whitePixel 3 = Except.error Fault.undefined_behaviour ∧
    quantization whitePixel 4 = Except.ok { _rows := 1, _cols := 1, _mat := [[223]] } ∧
    ∀ levels : Int, 1 ≤ levels → levels ≤ 256 →
      ((∀ v : ℚ, 0 ≤ v → v ≤ 255 →
        ∃ iv, toInt v = Except.ok iv ∧
          Int.tdiv iv (Int.tdiv NUM_OF_SHADES levels) < levels)
        ↔ Int.tmod NUM_OF_SHADES levels = 0) :=
  ⟨⟨by decide, by decide⟩, ⟨by decide, by decide, by decide, by decide⟩, by rfl,
    ⟨by norm_num, by norm_num⟩, by rfl, by rfl, by rfl, by rfl, by rfl, by rfl, by rfl,
    by rfl, fun levels h1 h2 => index_in_bounds_iff levels h1 h2⟩

end Ex1
